import Mathlib

/-!
# cortexlib: `cortex::matrix`

A shallow embedding of `src/src/matrix.hpp` and of the part of
`src/libs/iterators/src/iterators/normal.hpp` its iterators use.  The free store is modelled
as a list of blocks, a pointer is a block number together with an element offset, and every
member function of `matrix` is a function on the heap and the five data members of the
object.
-/

namespace cortex

/-! ## `std::size_t` arithmetic -/

/-- Multiplication of two `size_type` values: `a * b` in the 64 bit `std::size_t`. -/
def size_mul (a b : Nat) : Nat := (a * b) % 2 ^ 64

/-- Addition of two `size_type` values: `a + b` in `std::size_t`. -/
def size_add (a b : Nat) : Nat := (a + b) % 2 ^ 64

/-! ## Pointers and the free store -/

/-- A value of type `_Tp*`: the block it points into (`0` for the null pointer) and the
element offset inside that block. -/
structure Ptr where
  block : Nat
  off : Nat
deriving DecidableEq, Repr

/-- The null pointer, `pointer()`. -/
def nullptr : Ptr := ⟨0, 0⟩

/-- Pointer arithmetic `p + n` for a `size_type` `n`; element offsets are 64 bit. -/
def Ptr.add (p : Ptr) (n : Nat) : Ptr := ⟨p.block, (p.off + n) % 2 ^ 64⟩

/-- Pointer difference `p - q` of two pointers into one block. -/
def Ptr.diff (p q : Ptr) : Int := (p.off : Int) - (q.off : Int)

/-- The free store.  Block number `b + 1` is `blocks[b]`; a block is `none` once it has been
released, and otherwise lists its slots, a slot being `none` while no object lives in it. -/
structure Heap (T : Type) where
  blocks : List (Option (List (Option T)))

/-- The free store before any allocation. -/
def Heap.empty {T : Type} : Heap T := ⟨[]⟩

/-- The slots of block number `b`, when that block is allocated. -/
def Heap.block {T : Type} (h : Heap T) (b : Nat) : Option (List (Option T)) :=
  match b with
  | 0 => none
  | k + 1 => (h.blocks.get? k).join

/-- The number of slots of allocated storage behind block number `b` (`0` when there is none). -/
def Heap.blockLen {T : Type} (h : Heap T) (b : Nat) : Nat :=
  match h.block b with
  | some slots => slots.length
  | none => 0

/-- The pointer `p` designates a slot of allocated storage. -/
def Heap.allocated {T : Type} (h : Heap T) (p : Ptr) : Prop :=
  p.off < h.blockLen p.block

instance {T : Type} (h : Heap T) (p : Ptr) : Decidable (h.allocated p) :=
  inferInstanceAs (Decidable (p.off < h.blockLen p.block))

/-- Reading `*p`: the object living at `p`, if any. -/
def Heap.read {T : Type} (h : Heap T) (p : Ptr) : Option T :=
  match h.block p.block with
  | some slots => (slots.get? p.off).join
  | none => none

/-- Overwrite the slot `p` designates (`some v`: an object of value `v` lives there now,
`none`: the object there was destroyed).  Nothing happens when `p` designates no slot. -/
def Heap.store {T : Type} (h : Heap T) (p : Ptr) (s : Option T) : Heap T :=
  match h.block p.block with
  | some slots => ⟨h.blocks.set (p.block - 1) (some (slots.set p.off s))⟩
  | none => h

/-- Plain `::operator new` for `n` elements: a new block of `n` slots without objects.  The
request always succeeds. -/
def Heap.alloc {T : Type} (h : Heap T) (n : Nat) : Heap T × Ptr :=
  (⟨h.blocks ++ [some (List.replicate n none)]⟩, ⟨h.blocks.length + 1, 0⟩)

/-- Plain `::operator delete(p)`. -/
def Heap.free {T : Type} (h : Heap T) (p : Ptr) : Heap T :=
  match p.block with
  | 0 => h
  | k + 1 => ⟨h.blocks.set k none⟩

/-! ## The `<memory>` algorithms the class uses -/

/-- The algorithm `std::uninitialized_fill_n(first, n, value)`. -/
def uninitialized_fill_n {T : Type} (h : Heap T) (first : Ptr) : Nat → T → Heap T
  | 0, _ => h
  | n + 1, value => uninitialized_fill_n (h.store first (some value)) (first.add 1) n value

/-- The algorithm `std::uninitialized_default_construct_n(first, n)`: an object of type `T`
is created in each of the `n` slots; `default` stands for the value such an object has. -/
def uninitialized_default_construct_n {T : Type} [Inhabited T] (h : Heap T) (first : Ptr)
    (n : Nat) : Heap T :=
  uninitialized_fill_n h first n default

/-- The algorithm `std::uninitialized_copy_n(first, n, result)`. -/
def uninitialized_copy_n {T : Type} (h : Heap T) (first : Ptr) : Nat → Ptr → Heap T
  | 0, _ => h
  | n + 1, result =>
    uninitialized_copy_n (h.store result (h.read first)) (first.add 1) n (result.add 1)

/-- The algorithm `std::destroy_n(first, n)`. -/
def destroy_n {T : Type} (h : Heap T) (first : Ptr) : Nat → Heap T
  | 0 => h
  | n + 1 => destroy_n (h.store first none) (first.add 1) n

/-! ## `class matrix` -/

/-- The exceptions the class throws. -/
inductive Exn where
  | out_of_range (what : String)
deriving DecidableEq, Repr

/-- The data members of `cortex::matrix<_Tp>`. -/
structure matrix where
  m_columns : Nat
  m_rows : Nat
  m_size : Nat
  m_capacity : Nat
  m_data : Ptr
deriving DecidableEq, Repr

namespace matrix

/-- The private `_M_allocate(__n)`. -/
def _M_allocate {T : Type} (h : Heap T) (__n : Nat) : Heap T × Ptr :=
  if __n ≠ 0 then h.alloc __n else (h, nullptr)

/-- The private `_M_deallocate(__p, __n)`. -/
def _M_deallocate {T : Type} (h : Heap T) (__p : Ptr) (__n : Nat) : Heap T :=
  h.free __p

/-- The default constructor `matrix()`. -/
def ctor : matrix :=
  { m_columns := 0, m_rows := 0, m_size := 0, m_capacity := 0, m_data := nullptr }

/-- The value the sized constructors give `m_size`:
`cols * rows != 0 ? cols * rows : std::max(cols, rows)`. -/
def ctor_size (cols rows : Nat) : Nat :=
  if size_mul cols rows ≠ 0 then size_mul cols rows else max cols rows

/-- The constructor `matrix(size_type cols, size_type rows)`. -/
def ctor_sized {T : Type} [Inhabited T] (h : Heap T) (cols rows : Nat) : Heap T × matrix :=
  let a := _M_allocate h (ctor_size cols rows)
  (uninitialized_default_construct_n a.1 a.2 (ctor_size cols rows),
   { m_columns := cols, m_rows := rows, m_size := ctor_size cols rows,
     m_capacity := ctor_size cols rows, m_data := a.2 })

/-- The constructor `matrix(size_type cols, size_type rows, const value_type& value)`. -/
def ctor_fill {T : Type} (h : Heap T) (cols rows : Nat) (value : T) : Heap T × matrix :=
  let a := _M_allocate h (ctor_size cols rows)
  (uninitialized_fill_n a.1 a.2 (ctor_size cols rows) value,
   { m_columns := cols, m_rows := rows, m_size := ctor_size cols rows,
     m_capacity := ctor_size cols rows, m_data := a.2 })

/-- The copy constructor `matrix(const matrix& other)`. -/
def ctor_copy {T : Type} (h : Heap T) (other : matrix) : Heap T × matrix :=
  let a := _M_allocate h other.m_size
  (uninitialized_copy_n a.1 other.m_data other.m_size a.2,
   { m_columns := other.m_columns, m_rows := other.m_rows, m_size := other.m_size,
     m_capacity := other.m_capacity, m_data := a.2 })

/-- The move constructor `matrix(matrix&& other)`: the new object and what is left of
`other`. -/
def ctor_move (other : matrix) : matrix × matrix :=
  ({ m_columns := other.m_columns, m_rows := other.m_rows, m_size := other.m_size,
     m_capacity := other.m_capacity, m_data := other.m_data },
   { other with m_data := nullptr, m_columns := 0, m_rows := 0, m_size := 0 })

/-- Copy assignment `operator=(const matrix& other)` to an object other than `other`; the
data members the left operand had before are all overwritten. -/
def assign_copy {T : Type} (h : Heap T) (_this other : matrix) : Heap T × matrix :=
  let a := _M_allocate h other.m_size
  (uninitialized_copy_n a.1 other.m_data other.m_size a.2,
   { m_columns := other.m_columns, m_rows := other.m_rows, m_size := other.m_size,
     m_capacity := other.m_size, m_data := a.2 })

/-- Copy assignment of an object to itself: `other.m_data` is read after `m_data` was
replaced, so the new buffer is copied onto itself. -/
def assign_copy_self {T : Type} (h : Heap T) (this : matrix) : Heap T × matrix :=
  let a := _M_allocate h this.m_size
  (uninitialized_copy_n a.1 a.2 this.m_size a.2,
   { m_columns := this.m_columns, m_rows := this.m_rows, m_size := this.m_size,
     m_capacity := this.m_size, m_data := a.2 })

/-- Move assignment `operator=(matrix&& other)` to an object other than `other`: the left
operand afterwards and what is left of `other`. -/
def assign_move (_this other : matrix) : matrix × matrix :=
  ({ m_columns := other.m_columns, m_rows := other.m_rows, m_size := other.m_size,
     m_capacity := other.m_capacity, m_data := other.m_data },
   { other with m_data := nullptr, m_columns := 0, m_rows := 0, m_size := 0 })

/-- Move assignment of an object to itself. -/
def assign_move_self (this : matrix) : matrix :=
  { this with m_data := nullptr, m_columns := 0, m_rows := 0, m_size := 0 }

/-- The destructor `~matrix()`. -/
def dtor {T : Type} (h : Heap T) (this : matrix) : Heap T × matrix :=
  let h1 := if this.m_data ≠ nullptr then destroy_n h this.m_data this.m_size else h
  let h2 := if this.m_data ≠ nullptr then _M_deallocate h1 this.m_data this.m_size else h1
  (h2, { this with m_columns := 0, m_rows := 0, m_size := 0, m_capacity := 0 })

/-- The member `swap(matrix& other)` on two different objects: the heap, `*this` and `other`
afterwards.  The local `tmp` is destroyed when the function returns. -/
def swap {T : Type} (h : Heap T) (this other : matrix) : Heap T × matrix × matrix :=
  let tmp := ctor_copy h other
  let other1 := assign_copy tmp.1 other this
  let this1 := assign_copy other1.1 this tmp.2
  ((dtor this1.1 tmp.2).1, this1.2, other1.2)

/-- The member `swap` called with the object itself as argument. -/
def swap_self {T : Type} (h : Heap T) (this : matrix) : Heap T × matrix :=
  let tmp := ctor_copy h this
  let this1 := assign_copy_self tmp.1 this
  let this2 := assign_copy this1.1 this1.2 tmp.2
  ((dtor this2.1 tmp.2).1, this2.2)

/-- The accessor `size()`. -/
def size (m : matrix) : Nat := m.m_size

/-- The accessor `row_size()`. -/
def row_size (m : matrix) : Nat := m.m_rows

/-- The accessor `column_size()`. -/
def column_size (m : matrix) : Nat := m.m_columns

/-- The accessor `capacity()`. -/
def capacity (m : matrix) : Nat := m.m_capacity

/-- The accessor `empty()`. -/
def empty (m : matrix) : Bool := m.m_size == 0

/-- The accessor `data()`. -/
def data (m : matrix) : Ptr := m.m_data

/-- The element reference `operator[](index)` returns: `*(m_data + index)`. -/
def index (m : matrix) (i : Nat) : Ptr := m.m_data.add i

/-- The private `_M_range_check(__column, __row)`. -/
def _M_range_check (m : matrix) (__column __row : Nat) : Except Exn Unit :=
  if __column ≥ m.column_size ∨ __row ≥ m.row_size then
    .error (.out_of_range "matrix::_M_range_check - index out of range.")
  else .ok ()

/-- The checked access `at(column, row)`: the element reference it returns, or the exception
it throws. -/
def at_ (m : matrix) (column row : Nat) : Except Exn Ptr :=
  match m._M_range_check column row with
  | .error e => .error e
  | .ok _ => .ok ((m.m_data.add (size_mul m.m_columns row)).add column)

/-- The member `clear()`. -/
def clear {T : Type} (h : Heap T) (m : matrix) : Heap T × matrix :=
  let __n : Int := (m.m_data.add m.m_size).diff m.m_data
  if __n ≠ 0 then
    (destroy_n h m.m_data m.m_size, { m with m_size := 0, m_columns := 0, m_rows := 0 })
  else (h, m)

/-- The relations between the data members that every public operation maintains: the
members are `size_type` values, the size does not exceed the reported capacity, and a matrix
of size 0 has the shape (0, 0). -/
def fields_ok (m : matrix) : Prop :=
  m.m_columns < 2 ^ 64 ∧ m.m_rows < 2 ^ 64 ∧ m.m_size < 2 ^ 64 ∧ m.m_size ≤ m.m_capacity ∧
  (m.m_size = 0 → m.m_columns = 0 ∧ m.m_rows = 0)

/-- The object `m` is sound in the heap `h`: its members are related as `fields_ok` says and
`m_data` is null or points at the start of a block that `h` has handed out. -/
def valid {T : Type} (h : Heap T) (m : matrix) : Prop :=
  m.fields_ok ∧ m.m_data.off = 0 ∧ m.m_data.block ≤ h.blocks.length

end matrix

/-! ## Client programs -/

/-- The state of a client program: the free store and the `matrix` objects it has created,
named by their position in `objs`. -/
structure World (T : Type) where
  heap : Heap T
  objs : List matrix

/-- The public operations a client can perform on its matrices. -/
inductive Op (T : Type) where
  | ctor_default
  | ctor_sized (cols rows : Nat)
  | ctor_fill (cols rows : Nat) (value : T)
  | ctor_copy (other : Nat)
  | ctor_move (other : Nat)
  | assign_copy (this other : Nat)
  | assign_move (this other : Nat)
  | swap (this other : Nat)
  | clear (this : Nat)
  | write (this index : Nat) (value : T)

/-- The program state before any matrix exists. -/
def World.init {T : Type} : World T := { heap := Heap.empty, objs := [] }

/-- One public operation.  The result is `none` when the operation names an object that does
not exist, passes a constructor an argument that is no `size_type` value, or writes through
`operator[]` where no element lives. -/
def World.step {T : Type} [Inhabited T] (w : World T) : Op T → Option (World T)
  | .ctor_default => some { heap := w.heap, objs := w.objs ++ [matrix.ctor] }
  | .ctor_sized cols rows =>
    if cols < 2 ^ 64 ∧ rows < 2 ^ 64 then
      let r := matrix.ctor_sized w.heap cols rows
      some { heap := r.1, objs := w.objs ++ [r.2] }
    else none
  | .ctor_fill cols rows value =>
    if cols < 2 ^ 64 ∧ rows < 2 ^ 64 then
      let r := matrix.ctor_fill w.heap cols rows value
      some { heap := r.1, objs := w.objs ++ [r.2] }
    else none
  | .ctor_copy other =>
    match w.objs.get? other with
    | some o =>
      let r := matrix.ctor_copy w.heap o
      some { heap := r.1, objs := w.objs ++ [r.2] }
    | none => none
  | .ctor_move other =>
    match w.objs.get? other with
    | some o =>
      let r := matrix.ctor_move o
      some { heap := w.heap, objs := w.objs.set other r.2 ++ [r.1] }
    | none => none
  | .assign_copy this other =>
    match w.objs.get? this, w.objs.get? other with
    | some t, some o =>
      if this = other then
        let r := matrix.assign_copy_self w.heap t
        some { heap := r.1, objs := w.objs.set this r.2 }
      else
        let r := matrix.assign_copy w.heap t o
        some { heap := r.1, objs := w.objs.set this r.2 }
    | _, _ => none
  | .assign_move this other =>
    match w.objs.get? this, w.objs.get? other with
    | some t, some o =>
      if this = other then
        some { heap := w.heap, objs := w.objs.set this (matrix.assign_move_self t) }
      else
        let r := matrix.assign_move t o
        some { heap := w.heap, objs := (w.objs.set other r.2).set this r.1 }
    | _, _ => none
  | .swap this other =>
    match w.objs.get? this, w.objs.get? other with
    | some t, some o =>
      if this = other then
        let r := matrix.swap_self w.heap t
        some { heap := r.1, objs := w.objs.set this r.2 }
      else
        let r := matrix.swap w.heap t o
        some { heap := r.1, objs := (w.objs.set other r.2.2).set this r.2.1 }
    | _, _ => none
  | .clear this =>
    match w.objs.get? this with
    | some t =>
      let r := matrix.clear w.heap t
      some { heap := r.1, objs := w.objs.set this r.2 }
    | none => none
  | .write this index value =>
    match w.objs.get? this with
    | some t =>
      if index < 2 ^ 64 ∧ (w.heap.read (t.index index)).isSome then
        some { heap := w.heap.store (t.index index) (some value), objs := w.objs }
      else none
    | none => none

/-- Run a sequence of public operations. -/
def World.run {T : Type} [Inhabited T] (w : World T) : List (Op T) → Option (World T)
  | [] => some w
  | op :: ops =>
    match w.step op with
    | some w1 => w1.run ops
    | none => none

/-- The program state of the test section `Copy assignment` before its `n = m`:
`cortex::matrix<int> m(10, 10, 1); cortex::matrix<int> n;`. -/
def copy_assignment_test : World Int :=
  { heap := (matrix.ctor_fill Heap.empty 10 10 1).1,
    objs := [(matrix.ctor_fill (Heap.empty : Heap Int) 10 10 1).2, matrix.ctor] }

/-- The program states a client can bring about with the public operations. -/
inductive Reachable {T : Type} [Inhabited T] : World T → Prop where
  | init : Reachable World.init
  | step {w w1 : World T} (op : Op T) : Reachable w → w.step op = some w1 → Reachable w1

/-- The program state of the test section `Move constructor` before its
`cortex::matrix<int> n(std::move(m))`, with a second default-constructed object as in the
section `Move assignment`: `cortex::matrix<int> m(10, 10, 1); cortex::matrix<int> n;`. -/
def move_test : World Int :=
  { heap := (matrix.ctor_fill Heap.empty 10 10 1).1,
    objs := [(matrix.ctor_fill (Heap.empty : Heap Int) 10 10 1).2, matrix.ctor] }

/-- The program state of `move_test` after `cortex::matrix<int> k(std::move(m));`. -/
def moved_from_test : World Int :=
  { heap := (matrix.ctor_fill Heap.empty 10 10 1).1,
    objs := [(matrix.ctor_move (matrix.ctor_fill (Heap.empty : Heap Int) 10 10 1).2).2,
             matrix.ctor,
             (matrix.ctor_move (matrix.ctor_fill (Heap.empty : Heap Int) 10 10 1).2).1] }

/-! ## `cortex::normal_iterator` -/

/-- The operations of the wrapped position type `_Iterator` that `normal_iterator` forwards
to.  `Ref` is what `*i` and `i.operator->()` designate. -/
class iterator_ops (Iterator : Type) (Ref : outParam Type) where
  /-- Dereference `*i`. -/
  deref : Iterator → Ref
  /-- Member access `i.operator->()`, for a pointer `i` itself. -/
  arrow : Iterator → Ref
  /-- Increment `++i`. -/
  incr : Iterator → Iterator
  /-- Decrement `--i`. -/
  decr : Iterator → Iterator
  /-- Offset `i + n`. -/
  plus : Iterator → Int → Iterator
  /-- Offset `i - n`. -/
  minus : Iterator → Int → Iterator
  /-- Difference `i - j`. -/
  diff : Iterator → Iterator → Int
  /-- Equality `i == j`. -/
  eq : Iterator → Iterator → Bool
  /-- Three-way comparison `i <=> j`. -/
  cmp : Iterator → Iterator → Ordering

/-- Pointer arithmetic `p + n` for a `difference_type` `n`; element offsets are 64 bit. -/
def Ptr.plus (p : Ptr) (n : Int) : Ptr := ⟨p.block, (((p.off : Int) + n) % 2 ^ 64).toNat⟩

/-- The operations of a pointer `_Tp*`.  A reference `*p` is modelled by the pointer to the
object it designates. -/
instance : iterator_ops Ptr Ptr where
  deref p := p
  arrow p := p
  incr p := p.plus 1
  decr p := p.plus (-1)
  plus p n := p.plus n
  minus p n := p.plus (-n)
  diff p q := p.diff q
  eq p q := decide (p = q)
  cmp p q := compare p.off q.off

/-- The class `normal_iterator<_Iterator, _Container>`; `_Container` only tells iterator
types apart. -/
structure normal_iterator (Iterator Container : Type) where
  m_current : Iterator

namespace normal_iterator

variable {Iterator Container Ref : Type} [iterator_ops Iterator Ref]

/-- The member `base()`. -/
def base (it : normal_iterator Iterator Container) : Iterator := it.m_current

/-- The member `operator*()`. -/
def deref (it : normal_iterator Iterator Container) : Ref := iterator_ops.deref it.m_current

/-- The prefix `operator++()`: the iterator afterwards, which is also what it returns. -/
def pre_incr (it : normal_iterator Iterator Container) : normal_iterator Iterator Container :=
  { m_current := iterator_ops.incr it.m_current }

/-- The member `operator+(difference_type __step)`. -/
def plus (it : normal_iterator Iterator Container) (__step : Int) :
    normal_iterator Iterator Container :=
  { m_current := iterator_ops.plus it.m_current __step }

/-- The free `operator-(__lhs, __rhs)` of two iterators. -/
def diff (__lhs __rhs : normal_iterator Iterator Container) : Int :=
  iterator_ops.diff __lhs.base __rhs.base

/-- The free `operator==(__lhs, __rhs)`. -/
def eq (__lhs __rhs : normal_iterator Iterator Container) : Bool :=
  iterator_ops.eq __lhs.base __rhs.base

/-- The comparison `__lhs != __rhs`, which C++20 rewrites to `!(__lhs == __rhs)`. -/
def ne (__lhs __rhs : normal_iterator Iterator Container) : Bool :=
  !(eq __lhs __rhs)

end normal_iterator

namespace matrix

/-- The member `begin()`. -/
def begin (m : matrix) : normal_iterator Ptr matrix := { m_current := m.m_data }

/-- The member `end()`. -/
def end_ (m : matrix) : normal_iterator Ptr matrix := { m_current := m.m_data.add m.m_size }

/-- The member `cbegin()`; a `const_pointer` is modelled like a `pointer`. -/
def cbegin (m : matrix) : normal_iterator Ptr matrix := { m_current := m.m_data }

/-- The member `cend()`. -/
def cend (m : matrix) : normal_iterator Ptr matrix := { m_current := m.m_data.add m.m_size }

end matrix

/-- The heap `h1` extends the heap `h`: every block `h` has handed out is still there and
has as many slots as it had. -/
def Heap.ext {T : Type} (h h1 : Heap T) : Prop :=
  h.blocks.length ≤ h1.blocks.length ∧ ∀ b, b ≤ h.blocks.length → h1.blockLen b = h.blockLen b

/-- Two further relations every public operation maintains: the size is the value the sized
constructors compute from the shape, and the buffer holds at least `m_size` slots. -/
def matrix.sound {T : Type} (h : Heap T) (m : matrix) : Prop :=
  m.m_size = matrix.ctor_size m.m_columns m.m_rows ∧ m.m_size ≤ h.blockLen m.m_data.block

/-- The program state after `cortex::matrix<int> m(5, 0);`, a matrix of one dimension. -/
def one_dimension_world : World Int :=
  { heap := (matrix.ctor_sized Heap.empty 5 0).1,
    objs := [(matrix.ctor_sized (Heap.empty : Heap Int) 5 0).2] }

/-- The program state after `cortex::matrix<int> m(10, 10, 1); m.clear();
cortex::matrix<int> n(m);`. -/
def clear_copy_world : World Int :=
  { heap := (matrix.ctor_copy
      (matrix.clear (matrix.ctor_fill (Heap.empty : Heap Int) 10 10 1).1
        (matrix.ctor_fill (Heap.empty : Heap Int) 10 10 1).2).1
      (matrix.clear (matrix.ctor_fill (Heap.empty : Heap Int) 10 10 1).1
        (matrix.ctor_fill (Heap.empty : Heap Int) 10 10 1).2).2).1,
    objs := [(matrix.clear (matrix.ctor_fill (Heap.empty : Heap Int) 10 10 1).1
               (matrix.ctor_fill (Heap.empty : Heap Int) 10 10 1).2).2,
             (matrix.ctor_copy
               (matrix.clear (matrix.ctor_fill (Heap.empty : Heap Int) 10 10 1).1
                 (matrix.ctor_fill (Heap.empty : Heap Int) 10 10 1).2).1
               (matrix.clear (matrix.ctor_fill (Heap.empty : Heap Int) 10 10 1).1
                 (matrix.ctor_fill (Heap.empty : Heap Int) 10 10 1).2).2).2] }

/-! ## `flatten()` -/

/-- A `std::vector<value_type>`: the buffer it owns and the number of its elements. -/
structure vector where
  data : Ptr
  size : Nat
deriving DecidableEq, Repr

/-- The element reference `vec[i]` of a `std::vector`. -/
def vector.index (v : vector) (i : Nat) : Ptr := v.data.add i

/-- The algorithm `std::copy_n(first, n, result)`. -/
def copy_n {T : Type} (h : Heap T) (first : Ptr) : Nat → Ptr → Heap T
  | 0, _ => h
  | n + 1, result => copy_n (h.store result (h.read first)) (first.add 1) n (result.add 1)

/-- The member `flatten()`: `std::vector<value_type> vec(m_size);` gets a buffer of its own
with `m_size` value-initialised elements, `std::copy_n(m_data, m_size, vec.begin());`
overwrites them, and `vec` is returned.  No data member of the matrix is assigned. -/
def matrix.flatten {T : Type} [Inhabited T] (h : Heap T) (m : matrix) : Heap T × vector :=
  let a := h.alloc m.m_size
  let h1 := uninitialized_fill_n a.1 a.2 m.m_size default
  (copy_n h1 m.m_data m.m_size a.2, { data := a.2, size := m.m_size })

/-- The program state of the test section `matrix::swap` before its `m.swap(n)`:
`cortex::matrix<int> m(2, 3, 1); cortex::matrix<int> n(7, 4, 2);`. -/
def swap_test : World Int :=
  { heap := (matrix.ctor_fill (matrix.ctor_fill Heap.empty 2 3 1).1 7 4 2).1,
    objs := [(matrix.ctor_fill (Heap.empty : Heap Int) 2 3 1).2,
             (matrix.ctor_fill (matrix.ctor_fill (Heap.empty : Heap Int) 2 3 1).1 7 4 2).2] }

/-- The range-based loop `for (auto& elem : m)` of the `Iterators` tests, that is
`for (; __begin != __end; ++__begin)` with `elem` bound to `*__begin`: the references `elem`
is bound to, in order.  The result is `none` when `fuel` iterations do not reach `__end`. -/
def range_for (__end : normal_iterator Ptr matrix) :
    Nat → normal_iterator Ptr matrix → Option (List Ptr)
  | 0, __begin => if __begin.ne __end then none else some []
  | fuel + 1, __begin =>
    if __begin.ne __end then
      (range_for __end fuel __begin.pre_incr).map (fun rest => __begin.deref :: rest)
    else some []

/-! ## `front()`, `back()` and assignment through `at()` -/

namespace matrix

/-- The member `front()`: the reference `*m_data`. -/
def front (m : matrix) : Ptr := m.m_data

/-- The member `back()`: the reference `*(m_data + m_size - 1)`. -/
def back (m : matrix) : Ptr := (m.m_data.add m.m_size).plus (-1)

/-- The statement `m.at(column, row) = value;` of the tests: the heap and the object
afterwards, and whether the statement completed or left by an exception.  `at` itself stores
nothing; when it throws, the assignment is not reached. -/
def at_assign {T : Type} (h : Heap T) (m : matrix) (column row : Nat) (value : T) :
    Heap T × matrix × Except Exn Unit :=
  match m.at_ column row with
  | .error e => (h, m, .error e)
  | .ok p => (h.store p (some value), m, .ok ())

end matrix

/-! ## The other operators of `normal_iterator` -/

/-- The subscript `i[n]` of the wrapped position type. -/
class iterator_subscript (Iterator : Type) (Ref : outParam Type) where
  /-- Subscript `i[n]`. -/
  subscript : Iterator → Int → Ref

/-- The built-in subscript of a pointer: `p[n]` designates the object at `p + n`. -/
instance : iterator_subscript Ptr Ptr where
  subscript p n := p.plus n

/-- A `std::vector<T>::iterator`: a class-type cursor that holds a pointer into the buffer of
the vector. -/
structure vector_iterator where
  ptr : Ptr
deriving DecidableEq, Repr

/-- The operations of `std::vector<T>::iterator`, each the one of the pointer it holds; its
`operator->()` returns that pointer. -/
instance : iterator_ops vector_iterator Ptr where
  deref c := c.ptr
  arrow c := c.ptr
  incr c := ⟨c.ptr.plus 1⟩
  decr c := ⟨c.ptr.plus (-1)⟩
  plus c n := ⟨c.ptr.plus n⟩
  minus c n := ⟨c.ptr.plus (-n)⟩
  diff c d := c.ptr.diff d.ptr
  eq c d := decide (c.ptr = d.ptr)
  cmp c d := compare c.ptr.off d.ptr.off

instance : iterator_subscript vector_iterator Ptr where
  subscript c n := c.ptr.plus n

/-- The member `begin()` of a `std::vector`. -/
def vector.begin (v : vector) : vector_iterator := ⟨v.data⟩

/-- The `struct Point` of `normal.operators.test.cpp`. -/
structure Point where
  x : Int
  y : Int
deriving DecidableEq, Repr

namespace normal_iterator

variable {Iterator Container Ref : Type} [iterator_ops Iterator Ref]

/-- The private `_S_to_pointer(m_current)`: the overload for a pointer returns the pointer,
the other one returns `__t.operator->()`; `iterator_ops.arrow` is the one that applies to
`_Iterator`. -/
def _S_to_pointer (__t : Iterator) : Ref := iterator_ops.arrow __t

/-- The member `operator->()`. -/
def arrow (it : normal_iterator Iterator Container) : Ref := _S_to_pointer it.m_current

/-- The postfix `operator++(int)`, `normal_iterator(m_current++)`: the iterator it returns
and the iterator afterwards. -/
def post_incr (it : normal_iterator Iterator Container) :
    normal_iterator Iterator Container × normal_iterator Iterator Container :=
  ({ m_current := it.m_current }, { m_current := iterator_ops.incr it.m_current })

/-- The prefix `operator--()`: the iterator afterwards, which is also what it returns. -/
def pre_decr (it : normal_iterator Iterator Container) : normal_iterator Iterator Container :=
  { m_current := iterator_ops.decr it.m_current }

/-- The postfix `operator--(int)`, `normal_iterator(m_current--)`: the iterator it returns
and the iterator afterwards. -/
def post_decr (it : normal_iterator Iterator Container) :
    normal_iterator Iterator Container × normal_iterator Iterator Container :=
  ({ m_current := it.m_current }, { m_current := iterator_ops.decr it.m_current })

/-- The member `operator[](difference_type __n)`. -/
def subscript [iterator_subscript Iterator Ref] (it : normal_iterator Iterator Container)
    (__n : Int) : Ref :=
  iterator_subscript.subscript it.m_current __n

/-- The member `operator+=(difference_type __step)`: the iterator afterwards, which is also
what it returns. -/
def plus_assign (it : normal_iterator Iterator Container) (__step : Int) :
    normal_iterator Iterator Container :=
  { m_current := iterator_ops.plus it.m_current __step }

/-- The member `operator-=(difference_type __step)`: the iterator afterwards, which is also
what it returns. -/
def minus_assign (it : normal_iterator Iterator Container) (__step : Int) :
    normal_iterator Iterator Container :=
  { m_current := iterator_ops.minus it.m_current __step }

/-- The member `operator-(difference_type __step)`. -/
def minus (it : normal_iterator Iterator Container) (__step : Int) :
    normal_iterator Iterator Container :=
  { m_current := iterator_ops.minus it.m_current __step }

/-- The free `operator<=>(__lhs, __rhs)`. -/
def three_way (__lhs __rhs : normal_iterator Iterator Container) : Ordering :=
  iterator_ops.cmp __lhs.base __rhs.base

/-- The comparison `__lhs < __rhs`, which C++20 rewrites to `(__lhs <=> __rhs) < 0`. -/
def lt (__lhs __rhs : normal_iterator Iterator Container) : Bool :=
  three_way __lhs __rhs == Ordering.lt

/-- The comparison `__lhs > __rhs`, which C++20 rewrites to `(__lhs <=> __rhs) > 0`. -/
def gt (__lhs __rhs : normal_iterator Iterator Container) : Bool :=
  three_way __lhs __rhs == Ordering.gt

/-- The comparison `__lhs <= __rhs`, which C++20 rewrites to `(__lhs <=> __rhs) <= 0`. -/
def le (__lhs __rhs : normal_iterator Iterator Container) : Bool :=
  three_way __lhs __rhs != Ordering.gt

/-- The comparison `__lhs >= __rhs`, which C++20 rewrites to `(__lhs <=> __rhs) >= 0`. -/
def ge (__lhs __rhs : normal_iterator Iterator Container) : Bool :=
  three_way __lhs __rhs != Ordering.lt

end normal_iterator

/-- The function `make_normal(const _Container& __c, _Iterator __i)`. -/
def make_normal {Iterator : Type} (Container : Type) (__i : Iterator) :
    normal_iterator Iterator Container :=
  { m_current := __i }

/-- The sequence `std::vector<int> v{1, 2, 3, 4, 5}` of `normal.operators.test.cpp`: the heap
that holds its buffer, and the vector. -/
def test_vector : Heap Int × vector :=
  ({ blocks := [some [some 1, some 2, some 3, some 4, some 5]] }, { data := ⟨1, 0⟩, size := 5 })

/-- The sequence `std::vector<Point> points { { 1, 5 } }` of `normal.operators.test.cpp`. -/
def test_points : Heap Point × vector :=
  ({ blocks := [some [some { x := 1, y := 5 }]] }, { data := ⟨1, 0⟩, size := 1 })

/-! ## Comparison of matrices -/

/-- The algorithm `std::equal(first1, last1, first2, last2)` on two element sequences. -/
def equal {T : Type} [DecidableEq T] : List T → List T → Bool
  | [], [] => true
  | x :: xs, y :: ys => if x = y then equal xs ys else false
  | _, _ => false

/-- The algorithm `std::lexicographical_compare(first1, last1, first2, last2)` on two element
sequences: the first pair of elements of which one is less than the other decides, and a
sequence that ends first is less. -/
def lexicographical_compare {T : Type} [LT T] [∀ a b : T, Decidable (a < b)] :
    List T → List T → Bool
  | _, [] => false
  | [], _ :: _ => true
  | x :: xs, y :: ys =>
    if x < y then true else if y < x then false else lexicographical_compare xs ys

/-- Modelled from the spec: the flattened row-major element sequence of a matrix, which the
comparison operators compare.  The operators are missing from src/matrix.hpp (only the
`Comparison` tests use them); the sequence is that of the objects in the slots
`0 .. size() - 1` of the buffer, in order, the one `flatten()` copies. -/
def matrix.elements {T : Type} (h : Heap T) (m : matrix) : List T :=
  (List.range m.m_size).filterMap fun i => h.read (m.index i)

/-- Modelled from the spec: `operator==` of two matrices, missing from src/matrix.hpp:
the two flattened element sequences have equal length and equal elements. -/
def matrix.eq {T : Type} [DecidableEq T] (h : Heap T) (a b : matrix) : Bool :=
  equal (a.elements h) (b.elements h)

/-- Modelled from the spec: `operator!=` of two matrices, missing from src/matrix.hpp. -/
def matrix.ne {T : Type} [DecidableEq T] (h : Heap T) (a b : matrix) : Bool :=
  !(a.eq h b)

/-- Modelled from the spec: `operator<` of two matrices, missing from src/matrix.hpp:
the lexicographic comparison of the two flattened element sequences, with the order of the
elements. -/
def matrix.lt {T : Type} [LT T] [∀ a b : T, Decidable (a < b)] (h : Heap T) (a b : matrix) :
    Bool :=
  lexicographical_compare (a.elements h) (b.elements h)

/-- Modelled from the spec: `operator>` of two matrices, missing from src/matrix.hpp. -/
def matrix.gt {T : Type} [LT T] [∀ a b : T, Decidable (a < b)] (h : Heap T) (a b : matrix) :
    Bool :=
  b.lt h a

/-- Modelled from the spec: `operator<=` of two matrices, missing from src/matrix.hpp. -/
def matrix.le {T : Type} [LT T] [∀ a b : T, Decidable (a < b)] (h : Heap T) (a b : matrix) :
    Bool :=
  !(b.lt h a)

/-- Modelled from the spec: `operator>=` of two matrices, missing from src/matrix.hpp. -/
def matrix.ge {T : Type} [LT T] [∀ a b : T, Decidable (a < b)] (h : Heap T) (a b : matrix) :
    Bool :=
  !(a.lt h b)

/-- The program state of a `Comparison` test: the heap and the two matrices after
`cortex::matrix<int> m(mc, mr, mv); cortex::matrix<int> n(nc, nr, nv);`. -/
def comparison_test (mc mr : Nat) (mv : Int) (nc nr : Nat) (nv : Int) :
    Heap Int × matrix × matrix :=
  let m := matrix.ctor_fill (Heap.empty : Heap Int) mc mr mv
  let n := matrix.ctor_fill m.1 nc nr nv
  (n.1, m.2, n.2)

/-! ## `reserve()` -/

/-- Modelled from the spec: the step of `reserve` that re-places the elements, row by row;
`reserve` is missing from src/matrix.hpp (`@todo Add support for reserve`; only its tests are
there).  The `columns` elements of each of the first rows of the old layout, found from the
old offset `columns * row` on, are put from the offset `new_columns * row` on in the new
buffer, so that the element of the coordinate (column, row) gets the offset
`new_columns * row + column`. -/
def matrix.reserve_place_rows {T : Type} (h : Heap T) (src dst : Ptr)
    (columns new_columns : Nat) : Nat → Heap T
  | 0 => h
  | row + 1 =>
    uninitialized_copy_n (matrix.reserve_place_rows h src dst columns new_columns row)
      (src.add (columns * row)) columns (dst.add (new_columns * row))

/-- Modelled from the spec: the step of `reserve` (missing from src/matrix.hpp) that
default-constructs the slots the wider rows introduce: in each of the first rows the slots of
the columns `columns .. new_columns - 1`. -/
def matrix.reserve_fill_rows {T : Type} [Inhabited T] (h : Heap T) (dst : Ptr)
    (columns new_columns : Nat) : Nat → Heap T
  | 0 => h
  | row + 1 =>
    uninitialized_default_construct_n (matrix.reserve_fill_rows h dst columns new_columns row)
      (dst.add (new_columns * row + columns)) (new_columns - columns)

/-- Modelled from the spec: the member `reserve(new_columns, new_rows)`, missing from
src/matrix.hpp (`@todo Add support for reserve`; only its tests are there).  A request for
less than the capacity changes nothing.  Otherwise a buffer of `new_columns * new_rows` slots
is allocated, every element is re-placed at the offset its coordinate has in the new layout,
the slots the new layout introduces (the ends of the wider rows, then the further rows) are
default-constructed, and only then the old buffer is released, as the destructor does it; the
shape becomes `(new_columns, new_rows)`, the capacity `new_columns * new_rows`, and the size
stays. -/
def matrix.reserve {T : Type} [Inhabited T] (h : Heap T) (m : matrix)
    (new_columns new_rows : Nat) : Heap T × matrix :=
  if size_mul new_columns new_rows < m.m_capacity then (h, m)
  else
    let a := matrix._M_allocate h (size_mul new_columns new_rows)
    let h1 := matrix.reserve_place_rows a.1 m.m_data a.2 m.m_columns new_columns m.m_rows
    let h2 := matrix.reserve_fill_rows h1 a.2 m.m_columns new_columns m.m_rows
    let h3 := uninitialized_default_construct_n h2 (a.2.add (new_columns * m.m_rows))
      (new_columns * (new_rows - m.m_rows))
    ((matrix.dtor h3 m).1,
     { m_columns := new_columns, m_rows := new_rows, m_size := m.m_size,
       m_capacity := size_mul new_columns new_rows, m_data := a.2 })

/-- The program state after `cortex::matrix<int> m(2, 2, 1); m.at(1, 0) = 2; m.at(0, 1) = 3;
m.at(1, 1) = 4;`: the heap and the matrix whose four elements are 1, 2, 3, 4. -/
def reserve_test : Heap Int × matrix :=
  let m := matrix.ctor_fill (Heap.empty : Heap Int) 2 2 1
  let h1 := (matrix.at_assign m.1 m.2 1 0 2).1
  let h2 := (matrix.at_assign h1 m.2 0 1 3).1
  ((matrix.at_assign h2 m.2 1 1 4).1, m.2)

/-- The program state of the tests of `matrix::reserve` before `m.reserve(8, 4)`:
`cortex::matrix<int> m(7, 3, 1);`. -/
def reserve_world : World Int :=
  { heap := (matrix.ctor_fill (Heap.empty : Heap Int) 7 3 1).1,
    objs := [(matrix.ctor_fill (Heap.empty : Heap Int) 7 3 1).2] }

/-! ## Construction and assignment of `normal_iterator` -/

/-- The value-initialised position `_Iterator()`. -/
class iterator_default (Iterator : Type) where
  /-- The expression `_Iterator()`. -/
  ctor : Iterator

/-- A value-initialised pointer is null. -/
instance : iterator_default Ptr where
  ctor := nullptr

/-- A value-initialised `std::vector<T>::iterator` holds a null pointer. -/
instance : iterator_default vector_iterator where
  ctor := ⟨nullptr⟩

namespace normal_iterator

variable {Iterator Container : Type}

/-- The default constructor `normal_iterator()`: `m_current(_Iterator())`. -/
def ctor [iterator_default Iterator] : normal_iterator Iterator Container :=
  { m_current := iterator_default.ctor }

/-- The copy constructor `normal_iterator(const normal_iterator& __other)`:
`m_current(__other.base())`. -/
def ctor_copy (__other : normal_iterator Iterator Container) :
    normal_iterator Iterator Container :=
  { m_current := __other.base }

/-- The constructor `normal_iterator(const iterator_type& __other)`: `m_current(__other)`. -/
def ctor_from (__other : Iterator) : normal_iterator Iterator Container :=
  { m_current := __other }

/-- The copy assignment `operator=(const normal_iterator& __other)`: the object afterwards,
which is also what it returns. -/
def assign (_this __other : normal_iterator Iterator Container) :
    normal_iterator Iterator Container :=
  { m_current := __other.base }

/-- The assignment `operator=(const iterator_type& __other)`: the object afterwards, which
is also what it returns. -/
def assign_from (_this : normal_iterator Iterator Container) (__other : Iterator) :
    normal_iterator Iterator Container :=
  { m_current := __other }

end normal_iterator

/-- The function `make_normal<_Container>(typename _Container::iterator __i)`, and likewise
`make_normal<_Iterator, _Container>(_Iterator __i)`. -/
def make_normal_of {Iterator : Type} (Container : Type) (__i : Iterator) :
    normal_iterator Iterator Container :=
  { m_current := __i }

/-! ## The classification of `normal_iterator` -/

/-- The iterator tags of `<iterator>`, from the weakest capability to the strongest. -/
inductive iterator_tag where
  | input_iterator_tag
  | forward_iterator_tag
  | bidirectional_iterator_tag
  | random_access_iterator_tag
  | contiguous_iterator_tag
deriving DecidableEq, Repr

/-- The member `std::iterator_traits<_Iterator>::iterator_category`, which the standard
library gives for the position type: the strongest category the type supports. -/
class iterator_traits (Iterator : Type) where
  /-- The type `iterator_traits<_Iterator>::iterator_category`. -/
  iterator_category : iterator_tag

/-- The alias `__traits_type::iterator_category` for the position type `Iterator`. -/
def iterator_traits.category_of (Iterator : Type) [t : iterator_traits Iterator] :
    iterator_tag :=
  t.iterator_category

/-- The traits of a pointer `_Tp*`: `std::random_access_iterator_tag`. -/
instance : iterator_traits Ptr where
  iterator_category := .random_access_iterator_tag

/-- The traits of `std::vector<T>::iterator`: `std::random_access_iterator_tag`. -/
instance : iterator_traits vector_iterator where
  iterator_category := .random_access_iterator_tag

/-- A `std::forward_list<T>::iterator`: a cursor that holds a pointer to a node of the list
and supports forward traversal only. -/
structure forward_list_iterator where
  node : Ptr
deriving DecidableEq, Repr

/-- The traits of `std::forward_list<T>::iterator`: `std::forward_iterator_tag`. -/
instance : iterator_traits forward_list_iterator where
  iterator_category := .forward_iterator_tag

/-- The member type `normal_iterator::iterator_category`:
`typename __traits_type::iterator_category`. -/
def normal_iterator.iterator_category (_Iterator _Container : Type)
    [iterator_traits _Iterator] : iterator_tag :=
  iterator_traits.category_of _Iterator

/-- The member type `normal_iterator::iterator_concept` (present when concepts are):
`std::random_access_iterator_tag`, whatever `_Iterator` is. -/
def normal_iterator.iterator_concept (_Iterator _Container : Type) : iterator_tag :=
  .random_access_iterator_tag

/-! ## `cortex::two_dim_iterator` -/

/-- Modelled from the spec: the class `two_dim_iterator<_Iterator>`, whose headers
(`iterators/column.hpp`, `iterators/row.hpp`) are missing from src/; only
`two_dim.compare.test.cpp` uses it.  It wraps an underlying linear position together with the
recorded (column, row) and the shape (total_columns, total_rows), which the constructor takes
in this order. -/
structure two_dim_iterator (Iterator : Type) where
  underlying : Iterator
  column : Nat
  row : Nat
  total_columns : Nat
  total_rows : Nat

namespace two_dim_iterator

variable {Iterator Ref : Type} [iterator_ops Iterator Ref]

/-- Modelled from the spec: `operator==` of two `two_dim_iterator`s (the class is missing
from src/): equality of the underlying linear positions. -/
def eq (__lhs __rhs : two_dim_iterator Iterator) : Bool :=
  iterator_ops.eq __lhs.underlying __rhs.underlying

/-- Modelled from the spec: `operator<=>` of two `two_dim_iterator`s (the class is missing
from src/): the three-way comparison of the underlying linear positions. -/
def three_way (__lhs __rhs : two_dim_iterator Iterator) : Ordering :=
  iterator_ops.cmp __lhs.underlying __rhs.underlying

/-- Modelled from the spec: `operator!=` of two `two_dim_iterator`s (the class is missing
from src/). -/
def ne (__lhs __rhs : two_dim_iterator Iterator) : Bool := !(eq __lhs __rhs)

/-- Modelled from the spec: `operator<` of two `two_dim_iterator`s (the class is missing
from src/). -/
def lt (__lhs __rhs : two_dim_iterator Iterator) : Bool :=
  three_way __lhs __rhs == Ordering.lt

/-- Modelled from the spec: `operator>` of two `two_dim_iterator`s (the class is missing
from src/). -/
def gt (__lhs __rhs : two_dim_iterator Iterator) : Bool :=
  three_way __lhs __rhs == Ordering.gt

/-- Modelled from the spec: `operator<=` of two `two_dim_iterator`s (the class is missing
from src/). -/
def le (__lhs __rhs : two_dim_iterator Iterator) : Bool :=
  three_way __lhs __rhs != Ordering.gt

/-- Modelled from the spec: `operator>=` of two `two_dim_iterator`s (the class is missing
from src/). -/
def ge (__lhs __rhs : two_dim_iterator Iterator) : Bool :=
  three_way __lhs __rhs != Ordering.lt

end two_dim_iterator

/-- The sequence `std::vector<int> v { 0, 1, 2, 3, 4, 5, 6, 7, 8 }` of
`two_dim.compare.test.cpp`: the heap that holds its buffer, and the vector. -/
def two_dim_test_vector : Heap Int × vector :=
  ({ blocks := [some [some 0, some 1, some 2, some 3, some 4, some 5, some 6, some 7,
      some 8]] }, { data := ⟨1, 0⟩, size := 9 })

/-! ## Shapes whose product is a `size_type` value -/

/-- The product `m_columns * m_rows` of the shape of `m` does not wrap around. -/
def matrix.fits (m : matrix) : Prop := m.m_columns * m.m_rows < 2 ^ 64

/-- The operation is not a sized constructor whose `cols * rows` wraps around. -/
def Op.fits {T : Type} : Op T → Prop
  | .ctor_sized cols rows => cols * rows < 2 ^ 64
  | .ctor_fill cols rows _ => cols * rows < 2 ^ 64
  | _ => True

/-- The program states a client can bring about with the public operations when every matrix
it constructs with a shape has `cols * rows` representable in `size_type`. -/
inductive ReachableFits {T : Type} [Inhabited T] : World T → Prop where
  | init : ReachableFits World.init
  | step {w w1 : World T} (op : Op T) :
    ReachableFits w → op.fits → w.step op = some w1 → ReachableFits w1

/-- The heap and the matrix after `cortex::matrix<int> m(10, 10, 1); m.clear();`: the
capacity 100 of `m` exceeds its size 0. -/
def cleared_test : Heap Int × matrix :=
  matrix.clear (matrix.ctor_fill (Heap.empty : Heap Int) 10 10 1).1
    (matrix.ctor_fill (Heap.empty : Heap Int) 10 10 1).2

/-- The program state `cortex::matrix<int> m(10, 10, 1); m.clear(); cortex::matrix<int>
n(2, 3, 1);`. -/
def swap_twice_test : World Int :=
  { heap := (matrix.ctor_fill cleared_test.1 2 3 1).1,
    objs := [cleared_test.2, (matrix.ctor_fill cleared_test.1 2 3 1).2] }

/-- The heap and the two matrices of `swap_twice_test` after `m.swap(n); m.swap(n);`. -/
def swap_twice_result : Heap Int × matrix × matrix :=
  matrix.swap
    (matrix.swap (matrix.ctor_fill cleared_test.1 2 3 1).1 cleared_test.2
      (matrix.ctor_fill cleared_test.1 2 3 1).2).1
    (matrix.swap (matrix.ctor_fill cleared_test.1 2 3 1).1 cleared_test.2
      (matrix.ctor_fill cleared_test.1 2 3 1).2).2.1
    (matrix.swap (matrix.ctor_fill cleared_test.1 2 3 1).1 cleared_test.2
      (matrix.ctor_fill cleared_test.1 2 3 1).2).2.2

/-! ## Facts about the free store -/

section HeapFacts

variable {T : Type}

theorem Heap.block_store (h : Heap T) (p : Ptr) (s : Option T) (b : Nat) :
    (h.store p s).block b =
      if b = p.block then (h.block b).map (fun slots => slots.set p.off s) else h.block b := by
  unfold Heap.store
  cases hb : h.block p.block with
  | none =>
    by_cases hbp : b = p.block
    · subst hbp
      simp [hb]
    · simp [hbp]
  | some slots =>
    obtain ⟨pb, po⟩ := p
    cases pb with
    | zero => simp [Heap.block] at hb
    | succ k =>
      cases b with
      | zero => simp [Heap.block]
      | succ j =>
        simp only [Heap.block] at hb ⊢
        by_cases hjk : j = k
        · subst hjk
          have hlt : j < h.blocks.length := by
            by_contra hge
            simp [List.getElem?_eq_none (Nat.le_of_not_lt hge)] at hb
          have hb2 : h.blocks[j] = some slots := by simpa [hlt] using hb
          simp [hb2, hlt, List.getElem?_set]
        · have hkj : ¬ k = j := fun e => hjk e.symm
          simp [hjk, hkj, List.getElem?_set]

theorem Heap.blockLen_store (h : Heap T) (p : Ptr) (s : Option T) (b : Nat) :
    (h.store p s).blockLen b = h.blockLen b := by
  unfold Heap.blockLen
  rw [Heap.block_store]
  by_cases hbp : b = p.block
  · rw [if_pos hbp]
    cases h.block b <;> simp
  · rw [if_neg hbp]

theorem Heap.read_store (h : Heap T) (p q : Ptr) (s : Option T) :
    (h.store p s).read q = if q = p ∧ h.allocated p then s else h.read q := by
  unfold Heap.read Heap.allocated Heap.blockLen
  rw [Heap.block_store]
  obtain ⟨pb, po⟩ := p
  obtain ⟨qb, qo⟩ := q
  by_cases hb : qb = pb
  · subst hb
    simp only [if_true]
    cases hblk : h.block qb with
    | none => simp
    | some slots =>
      by_cases ho : qo = po
      · subst ho
        by_cases hlt : qo < slots.length
        · simp [hlt, List.getElem?_set]
        · simp [hlt, List.getElem?_set, List.getElem?_eq_none (Nat.le_of_not_lt hlt)]
      · have ho2 : ¬ po = qo := fun e => ho e.symm
        simp [ho, ho2, List.getElem?_set]
  · simp [hb]

theorem Heap.block_alloc (h : Heap T) (n b : Nat) :
    (h.alloc n).1.block b =
      if b = h.blocks.length + 1 then some (List.replicate n none) else h.block b := by
  unfold Heap.alloc
  cases b with
  | zero => simp [Heap.block]
  | succ j =>
    simp only [Heap.block, List.get?_eq_getElem?, List.getElem?_append]
    by_cases hlt : j < h.blocks.length
    · have hne : ¬ j = h.blocks.length := Nat.ne_of_lt hlt
      simp [hlt, hne]
    · by_cases heq : j = h.blocks.length
      · subst heq
        simp
      · have hgt : h.blocks.length < j := by omega
        have hpos : ¬ j - h.blocks.length = 0 := by omega
        simp [hlt, heq, List.getElem?_eq_none (Nat.le_of_lt hgt)]
        cases hj : j - h.blocks.length with
        | zero => exact absurd hj hpos
        | succ i => simp

theorem Heap.block_free (h : Heap T) (p : Ptr) (b : Nat) :
    (h.free p).block b = if b = p.block then none else h.block b := by
  unfold Heap.free
  obtain ⟨pb, po⟩ := p
  cases pb with
  | zero =>
    by_cases hb : b = 0
    · subst hb
      simp [Heap.block]
    · simp [hb]
  | succ k =>
    cases b with
    | zero => simp [Heap.block]
    | succ j =>
      simp only [Heap.block, List.get?_eq_getElem?, List.getElem?_set]
      by_cases hjk : j = k
      · subst hjk
        by_cases hlt : j < h.blocks.length
        · simp [hlt]
        · simp [hlt, List.getElem?_eq_none (Nat.le_of_not_lt hlt)]
      · have hkj : ¬ k = j := fun e => hjk e.symm
        simp [hjk, hkj]

theorem Heap.length_store (h : Heap T) (p : Ptr) (s : Option T) :
    (h.store p s).blocks.length = h.blocks.length := by
  unfold Heap.store
  cases h.block p.block <;> simp

theorem Heap.length_free (h : Heap T) (p : Ptr) :
    (h.free p).blocks.length = h.blocks.length := by
  unfold Heap.free
  cases p.block <;> simp

theorem Heap.length_alloc (h : Heap T) (n : Nat) :
    (h.alloc n).1.blocks.length = h.blocks.length + 1 := by
  simp [Heap.alloc]

theorem Heap.block_eq_none_of_lt (h : Heap T) (b : Nat) (hb : h.blocks.length < b) :
    h.block b = none := by
  cases b with
  | zero => rfl
  | succ k =>
    have hk : h.blocks.length ≤ k := by omega
    simp [Heap.block, List.getElem?_eq_none hk]

theorem Heap.read_alloc (h : Heap T) (n : Nat) (q : Ptr) (hq : q.block ≤ h.blocks.length) :
    (h.alloc n).1.read q = h.read q := by
  unfold Heap.read
  rw [Heap.block_alloc]
  have hne : ¬ q.block = h.blocks.length + 1 := by omega
  rw [if_neg hne]

theorem Heap.blockLen_alloc_new (h : Heap T) (n : Nat) :
    (h.alloc n).1.blockLen (h.blocks.length + 1) = n := by
  unfold Heap.blockLen
  rw [Heap.block_alloc]
  simp

theorem length_fill (h : Heap T) (first : Ptr) (n : Nat) (v : T) :
    (uninitialized_fill_n h first n v).blocks.length = h.blocks.length := by
  induction n generalizing h first with
  | zero => rfl
  | succ n ih => rw [uninitialized_fill_n, ih, Heap.length_store]

theorem length_copy (h : Heap T) (first : Ptr) (n : Nat) (result : Ptr) :
    (uninitialized_copy_n h first n result).blocks.length = h.blocks.length := by
  induction n generalizing h first result with
  | zero => rfl
  | succ n ih => rw [uninitialized_copy_n, ih, Heap.length_store]

theorem length_destroy (h : Heap T) (first : Ptr) (n : Nat) :
    (destroy_n h first n).blocks.length = h.blocks.length := by
  induction n generalizing h first with
  | zero => rfl
  | succ n ih => rw [destroy_n, ih, Heap.length_store]

theorem blockLen_fill (h : Heap T) (first : Ptr) (n : Nat) (v : T) (b : Nat) :
    (uninitialized_fill_n h first n v).blockLen b = h.blockLen b := by
  induction n generalizing h first with
  | zero => rfl
  | succ n ih => rw [uninitialized_fill_n, ih, Heap.blockLen_store]

theorem blockLen_copy (h : Heap T) (first : Ptr) (n : Nat) (result : Ptr) (b : Nat) :
    (uninitialized_copy_n h first n result).blockLen b = h.blockLen b := by
  induction n generalizing h first result with
  | zero => rfl
  | succ n ih => rw [uninitialized_copy_n, ih, Heap.blockLen_store]

theorem blockLen_destroy (h : Heap T) (first : Ptr) (n : Nat) (b : Nat) :
    (destroy_n h first n).blockLen b = h.blockLen b := by
  induction n generalizing h first with
  | zero => rfl
  | succ n ih => rw [destroy_n, ih, Heap.blockLen_store]

/-- What `uninitialized_fill_n` leaves in memory when the `n` slots from `first` on exist. -/
theorem read_fill (h : Heap T) (b o n : Nat) (v : T) (q : Ptr)
    (hlen : o + n ≤ h.blockLen b) (hM : o + n ≤ 2 ^ 64) :
    (uninitialized_fill_n h ⟨b, o⟩ n v).read q =
      if q.block = b ∧ o ≤ q.off ∧ q.off < o + n then some v else h.read q := by
  induction n generalizing h o with
  | zero =>
    have hf : ¬ (q.block = b ∧ o ≤ q.off ∧ q.off < o + 0) := by omega
    rw [if_neg hf]
    rfl
  | succ n ih =>
    rw [uninitialized_fill_n]
    have halloc : h.allocated ⟨b, o⟩ := by
      unfold Heap.allocated
      simp only
      omega
    rcases Nat.eq_zero_or_pos n with hn | hn
    · subst hn
      rw [uninitialized_fill_n, Heap.read_store]
      obtain ⟨qb, qo⟩ := q
      simp only [Ptr.mk.injEq, halloc, and_true]
      by_cases hq : qb = b ∧ qo = o
      · have hq2 : qb = b ∧ o ≤ qo ∧ qo < o + (0 + 1) := by omega
        rw [if_pos hq, if_pos hq2]
      · have hq2 : ¬ (qb = b ∧ o ≤ qo ∧ qo < o + (0 + 1)) := by omega
        rw [if_neg hq, if_neg hq2]
    · have hadd : (⟨b, o⟩ : Ptr).add 1 = ⟨b, o + 1⟩ := by
        unfold Ptr.add
        simp only [Ptr.mk.injEq, true_and]
        omega
      rw [hadd, ih (h.store ⟨b, o⟩ (some v)) (o + 1)
        (by rw [Heap.blockLen_store]; omega) (by omega), Heap.read_store]
      obtain ⟨qb, qo⟩ := q
      simp only [Ptr.mk.injEq, halloc, and_true]
      by_cases hq1 : qb = b ∧ o + 1 ≤ qo ∧ qo < o + 1 + n
      · have hq2 : qb = b ∧ o ≤ qo ∧ qo < o + (n + 1) := by omega
        rw [if_pos hq1, if_pos hq2]
      · rw [if_neg hq1]
        by_cases hq : qb = b ∧ qo = o
        · have hq2 : qb = b ∧ o ≤ qo ∧ qo < o + (n + 1) := by omega
          rw [if_pos hq, if_pos hq2]
        · have hq2 : ¬ (qb = b ∧ o ≤ qo ∧ qo < o + (n + 1)) := by omega
          rw [if_neg hq, if_neg hq2]

/-- What `destroy_n` leaves in memory when the `n` slots from `first` on exist. -/
theorem read_destroy (h : Heap T) (b o n : Nat) (q : Ptr)
    (hlen : o + n ≤ h.blockLen b) (hM : o + n ≤ 2 ^ 64) :
    (destroy_n h ⟨b, o⟩ n).read q =
      if q.block = b ∧ o ≤ q.off ∧ q.off < o + n then none else h.read q := by
  induction n generalizing h o with
  | zero =>
    have hf : ¬ (q.block = b ∧ o ≤ q.off ∧ q.off < o + 0) := by omega
    rw [if_neg hf]
    rfl
  | succ n ih =>
    rw [destroy_n]
    have halloc : h.allocated ⟨b, o⟩ := by
      unfold Heap.allocated
      simp only
      omega
    rcases Nat.eq_zero_or_pos n with hn | hn
    · subst hn
      rw [destroy_n, Heap.read_store]
      obtain ⟨qb, qo⟩ := q
      simp only [Ptr.mk.injEq, halloc, and_true]
      by_cases hq : qb = b ∧ qo = o
      · have hq2 : qb = b ∧ o ≤ qo ∧ qo < o + (0 + 1) := by omega
        rw [if_pos hq, if_pos hq2]
      · have hq2 : ¬ (qb = b ∧ o ≤ qo ∧ qo < o + (0 + 1)) := by omega
        rw [if_neg hq, if_neg hq2]
    · have hadd : (⟨b, o⟩ : Ptr).add 1 = ⟨b, o + 1⟩ := by
        unfold Ptr.add
        simp only [Ptr.mk.injEq, true_and]
        omega
      rw [hadd, ih (h.store ⟨b, o⟩ none) (o + 1)
        (by rw [Heap.blockLen_store]; omega) (by omega), Heap.read_store]
      obtain ⟨qb, qo⟩ := q
      simp only [Ptr.mk.injEq, halloc, and_true]
      by_cases hq1 : qb = b ∧ o + 1 ≤ qo ∧ qo < o + 1 + n
      · have hq2 : qb = b ∧ o ≤ qo ∧ qo < o + (n + 1) := by omega
        rw [if_pos hq1, if_pos hq2]
      · rw [if_neg hq1]
        by_cases hq : qb = b ∧ qo = o
        · have hq2 : qb = b ∧ o ≤ qo ∧ qo < o + (n + 1) := by omega
          rw [if_pos hq, if_pos hq2]
        · have hq2 : ¬ (qb = b ∧ o ≤ qo ∧ qo < o + (n + 1)) := by omega
          rw [if_neg hq, if_neg hq2]

theorem Heap.read_store_block_ne (h : Heap T) (p q : Ptr) (s : Option T)
    (hne : q.block ≠ p.block) : (h.store p s).read q = h.read q := by
  rw [Heap.read_store]
  have hf : ¬ (q = p ∧ h.allocated p) := fun hc => hne (by rw [hc.1])
  rw [if_neg hf]

/-- What `uninitialized_copy_n` leaves in memory when it copies from one block into `n`
existing slots of another block. -/
theorem read_copy (h : Heap T) (sb so db d n : Nat) (q : Ptr) (hne : sb ≠ db)
    (hlen : d + n ≤ h.blockLen db) (hM : d + n ≤ 2 ^ 64) (hS : so + n ≤ 2 ^ 64) :
    (uninitialized_copy_n h ⟨sb, so⟩ n ⟨db, d⟩).read q =
      if q.block = db ∧ d ≤ q.off ∧ q.off < d + n then h.read ⟨sb, so + (q.off - d)⟩
      else h.read q := by
  induction n generalizing h so d with
  | zero =>
    have hf : ¬ (q.block = db ∧ d ≤ q.off ∧ q.off < d + 0) := by omega
    rw [if_neg hf]
    rfl
  | succ n ih =>
    rw [uninitialized_copy_n]
    have halloc : h.allocated ⟨db, d⟩ := by
      unfold Heap.allocated
      simp only
      omega
    rcases Nat.eq_zero_or_pos n with hn | hn
    · subst hn
      rw [uninitialized_copy_n, Heap.read_store]
      obtain ⟨qb, qo⟩ := q
      simp only [Ptr.mk.injEq, halloc, and_true]
      by_cases hq : qb = db ∧ qo = d
      · have hq2 : qb = db ∧ d ≤ qo ∧ qo < d + (0 + 1) := by omega
        rw [if_pos hq, if_pos hq2]
        have hz : qo - d = 0 := by omega
        rw [hz, Nat.add_zero]
      · have hq2 : ¬ (qb = db ∧ d ≤ qo ∧ qo < d + (0 + 1)) := by omega
        rw [if_neg hq, if_neg hq2]
    · have hadd : (⟨db, d⟩ : Ptr).add 1 = ⟨db, d + 1⟩ := by
        unfold Ptr.add
        simp only [Ptr.mk.injEq, true_and]
        omega
      have hadds : (⟨sb, so⟩ : Ptr).add 1 = ⟨sb, so + 1⟩ := by
        unfold Ptr.add
        simp only [Ptr.mk.injEq, true_and]
        omega
      rw [hadd, hadds, ih (h.store ⟨db, d⟩ (h.read ⟨sb, so⟩)) (so + 1) (d + 1)
        (by rw [Heap.blockLen_store]; omega) (by omega) (by omega)]
      rw [Heap.read_store_block_ne h ⟨db, d⟩ ⟨sb, so + 1 + (q.off - (d + 1))⟩ _ hne,
        Heap.read_store]
      obtain ⟨qb, qo⟩ := q
      simp only [Ptr.mk.injEq, halloc, and_true]
      by_cases hq1 : qb = db ∧ d + 1 ≤ qo ∧ qo < d + 1 + n
      · have hq2 : qb = db ∧ d ≤ qo ∧ qo < d + (n + 1) := by omega
        rw [if_pos hq1, if_pos hq2]
        have he : so + 1 + (qo - (d + 1)) = so + (qo - d) := by omega
        rw [he]
      · rw [if_neg hq1]
        by_cases hq : qb = db ∧ qo = d
        · have hq2 : qb = db ∧ d ≤ qo ∧ qo < d + (n + 1) := by omega
          rw [if_pos hq, if_pos hq2]
          have hz : qo - d = 0 := by omega
          rw [hz, Nat.add_zero]
        · have hq2 : ¬ (qb = db ∧ d ≤ qo ∧ qo < d + (n + 1)) := by omega
          rw [if_neg hq, if_neg hq2]

end HeapFacts

/-! ## What the public operations maintain -/

section Invariant

variable {T : Type}

theorem matrix.ctor_size_lt (cols rows : Nat) (hc : cols < 2 ^ 64) (hr : rows < 2 ^ 64) :
    matrix.ctor_size cols rows < 2 ^ 64 := by
  unfold matrix.ctor_size size_mul
  split
  · exact Nat.mod_lt _ (by norm_num)
  · exact max_lt hc hr

theorem matrix.ctor_size_eq_zero (cols rows : Nat) (h0 : matrix.ctor_size cols rows = 0) :
    cols = 0 ∧ rows = 0 := by
  unfold matrix.ctor_size at h0
  split at h0
  · contradiction
  · constructor <;> omega

theorem matrix.valid_mono {h h1 : Heap T} {m : matrix} (hv : m.valid h)
    (hle : h.blocks.length ≤ h1.blocks.length) : m.valid h1 :=
  ⟨hv.1, hv.2.1, Nat.le_trans hv.2.2 hle⟩

theorem matrix.allocate_spec (h : Heap T) (n : Nat) :
    h.blocks.length ≤ (matrix._M_allocate h n).1.blocks.length ∧
    (matrix._M_allocate h n).2.off = 0 ∧
    (matrix._M_allocate h n).2.block ≤ (matrix._M_allocate h n).1.blocks.length := by
  unfold matrix._M_allocate
  by_cases hn : n ≠ 0
  · rw [if_pos hn]
    simp [Heap.alloc]
  · rw [if_neg hn]
    simp [nullptr]

theorem matrix.valid_ctor (h : Heap T) : matrix.ctor.valid h := by
  simp [matrix.valid, matrix.fields_ok, matrix.ctor, nullptr]

theorem matrix.valid_ctor_fill (h : Heap T) (cols rows : Nat) (value : T)
    (hc : cols < 2 ^ 64) (hr : rows < 2 ^ 64) :
    h.blocks.length ≤ (matrix.ctor_fill h cols rows value).1.blocks.length ∧
    (matrix.ctor_fill h cols rows value).2.valid (matrix.ctor_fill h cols rows value).1 := by
  have ha := matrix.allocate_spec h (matrix.ctor_size cols rows)
  simp only [matrix.ctor_fill, matrix.valid, matrix.fields_ok, length_fill]
  exact ⟨ha.1, ⟨hc, hr, matrix.ctor_size_lt cols rows hc hr, Nat.le_refl _,
    matrix.ctor_size_eq_zero cols rows⟩, ha.2.1, ha.2.2⟩

theorem matrix.valid_ctor_sized [Inhabited T] (h : Heap T) (cols rows : Nat)
    (hc : cols < 2 ^ 64) (hr : rows < 2 ^ 64) :
    h.blocks.length ≤ (matrix.ctor_sized h cols rows).1.blocks.length ∧
    (matrix.ctor_sized h cols rows).2.valid (matrix.ctor_sized h cols rows).1 :=
  matrix.valid_ctor_fill h cols rows default hc hr

theorem matrix.valid_ctor_copy (h : Heap T) (other : matrix) (hv : other.valid h) :
    h.blocks.length ≤ (matrix.ctor_copy h other).1.blocks.length ∧
    (matrix.ctor_copy h other).2.valid (matrix.ctor_copy h other).1 := by
  have ha := matrix.allocate_spec h other.m_size
  obtain ⟨⟨h1, h2, h3, h4, h5⟩, _, _⟩ := hv
  simp only [matrix.ctor_copy, matrix.valid, matrix.fields_ok, length_copy]
  exact ⟨ha.1, ⟨h1, h2, h3, h4, h5⟩, ha.2.1, ha.2.2⟩

theorem matrix.valid_assign_copy (h : Heap T) (this other : matrix) (hv : other.valid h) :
    h.blocks.length ≤ (matrix.assign_copy h this other).1.blocks.length ∧
    (matrix.assign_copy h this other).2.valid (matrix.assign_copy h this other).1 := by
  have ha := matrix.allocate_spec h other.m_size
  obtain ⟨⟨h1, h2, h3, _, h5⟩, _, _⟩ := hv
  simp only [matrix.assign_copy, matrix.valid, matrix.fields_ok, length_copy]
  exact ⟨ha.1, ⟨h1, h2, h3, Nat.le_refl _, h5⟩, ha.2.1, ha.2.2⟩

theorem matrix.valid_assign_copy_self (h : Heap T) (this : matrix) (hv : this.valid h) :
    h.blocks.length ≤ (matrix.assign_copy_self h this).1.blocks.length ∧
    (matrix.assign_copy_self h this).2.valid (matrix.assign_copy_self h this).1 := by
  have ha := matrix.allocate_spec h this.m_size
  obtain ⟨⟨h1, h2, h3, _, h5⟩, _, _⟩ := hv
  simp only [matrix.assign_copy_self, matrix.valid, matrix.fields_ok, length_copy]
  exact ⟨ha.1, ⟨h1, h2, h3, Nat.le_refl _, h5⟩, ha.2.1, ha.2.2⟩

theorem matrix.valid_moved_to (h : Heap T) (other : matrix) (hv : other.valid h) :
    (matrix.ctor_move other).1.valid h := hv

theorem matrix.valid_moved_from (h : Heap T) (other : matrix) :
    (matrix.ctor_move other).2.valid h := by
  simp [matrix.ctor_move, matrix.valid, matrix.fields_ok, nullptr]

theorem matrix.length_dtor (h : Heap T) (this : matrix) :
    (matrix.dtor h this).1.blocks.length = h.blocks.length := by
  unfold matrix.dtor matrix._M_deallocate
  by_cases hd : this.m_data ≠ nullptr
  · simp only [if_pos hd, Heap.length_free, length_destroy]
  · simp only [if_neg hd]

theorem matrix.valid_swap (h : Heap T) (this other : matrix) (hvt : this.valid h)
    (hvo : other.valid h) :
    h.blocks.length ≤ (matrix.swap h this other).1.blocks.length ∧
    (matrix.swap h this other).2.1.valid (matrix.swap h this other).1 ∧
    (matrix.swap h this other).2.2.valid (matrix.swap h this other).1 := by
  have h1 := matrix.valid_ctor_copy h other hvo
  have h2 := matrix.valid_assign_copy (matrix.ctor_copy h other).1 other this
    (matrix.valid_mono hvt h1.1)
  have h3 := matrix.valid_assign_copy
    (matrix.assign_copy (matrix.ctor_copy h other).1 other this).1 this
    (matrix.ctor_copy h other).2 (matrix.valid_mono h1.2 h2.1)
  simp only [matrix.swap]
  refine ⟨?_, ?_, ?_⟩
  · rw [matrix.length_dtor]
    exact Nat.le_trans h1.1 (Nat.le_trans h2.1 h3.1)
  · exact matrix.valid_mono h3.2 (by rw [matrix.length_dtor])
  · exact matrix.valid_mono h2.2 (by rw [matrix.length_dtor]; exact h3.1)

theorem matrix.valid_swap_self (h : Heap T) (this : matrix) (hvt : this.valid h) :
    h.blocks.length ≤ (matrix.swap_self h this).1.blocks.length ∧
    (matrix.swap_self h this).2.valid (matrix.swap_self h this).1 := by
  have h1 := matrix.valid_ctor_copy h this hvt
  have h2 := matrix.valid_assign_copy_self (matrix.ctor_copy h this).1 this
    (matrix.valid_mono hvt h1.1)
  have h3 := matrix.valid_assign_copy
    (matrix.assign_copy_self (matrix.ctor_copy h this).1 this).1
    (matrix.assign_copy_self (matrix.ctor_copy h this).1 this).2
    (matrix.ctor_copy h this).2 (matrix.valid_mono h1.2 h2.1)
  simp only [matrix.swap_self]
  refine ⟨?_, ?_⟩
  · rw [matrix.length_dtor]
    exact Nat.le_trans h1.1 (Nat.le_trans h2.1 h3.1)
  · exact matrix.valid_mono h3.2 (by rw [matrix.length_dtor])

theorem matrix.clear_eq (h : Heap T) (m : matrix) :
    matrix.clear h m =
      if (m.m_data.add m.m_size).diff m.m_data ≠ 0 then
        (destroy_n h m.m_data m.m_size, { m with m_size := 0, m_columns := 0, m_rows := 0 })
      else (h, m) := rfl

theorem matrix.valid_clear (h : Heap T) (m : matrix) (hv : m.valid h) :
    (matrix.clear h m).1.blocks.length = h.blocks.length ∧
    (matrix.clear h m).2.valid (matrix.clear h m).1 := by
  rw [matrix.clear_eq]
  split
  · refine ⟨length_destroy _ _ _, ?_⟩
    obtain ⟨_, ho, hb⟩ := hv
    refine ⟨⟨?_, ?_, ?_, Nat.zero_le _, fun _ => ⟨rfl, rfl⟩⟩, ho, ?_⟩
    · show 0 < 2 ^ 64
      norm_num
    · show 0 < 2 ^ 64
      norm_num
    · show 0 < 2 ^ 64
      norm_num
    · rw [length_destroy]
      exact hb
  · exact ⟨rfl, hv⟩

theorem matrix.valid_assign_move_self (h : Heap T) (this : matrix) :
    (matrix.assign_move_self this).valid h := by
  simp [matrix.assign_move_self, matrix.valid, matrix.fields_ok, nullptr]

theorem mem_append_singleton_valid {h h1 : Heap T} {objs : List matrix} {x m : matrix}
    (hall : ∀ o ∈ objs, o.valid h) (hle : h.blocks.length ≤ h1.blocks.length)
    (hx : x.valid h1) (hm : m ∈ objs ++ [x]) : m.valid h1 := by
  rcases List.mem_append.1 hm with ho | hn
  · exact matrix.valid_mono (hall m ho) hle
  · rw [List.mem_singleton.1 hn]
    exact hx

theorem mem_set_valid {h h1 : Heap T} {objs : List matrix} {x m : matrix} {i : Nat}
    (hall : ∀ o ∈ objs, o.valid h1) (hx : x.valid h1) (hm : m ∈ objs.set i x)
    (_hle : h.blocks.length ≤ h1.blocks.length) : m.valid h1 := by
  rcases List.mem_or_eq_of_mem_set hm with ho | hn
  · exact hall m ho
  · rw [hn]
    exact hx

/-- One public operation keeps every matrix object sound. -/
theorem World.step_valid [Inhabited T] (w w1 : World T) (op : Op T)
    (hall : ∀ o ∈ w.objs, o.valid w.heap) (hstep : w.step op = some w1) :
    ∀ o ∈ w1.objs, o.valid w1.heap := by
  intro m hm
  cases op with
  | ctor_default =>
    simp only [World.step, Option.some.injEq] at hstep
    subst hstep
    exact mem_append_singleton_valid hall (Nat.le_refl _) (matrix.valid_ctor _) hm
  | ctor_sized cols rows =>
    simp only [World.step] at hstep
    split at hstep
    · rename_i hb
      simp only [Option.some.injEq] at hstep
      subst hstep
      have hs := matrix.valid_ctor_sized w.heap cols rows hb.1 hb.2
      exact mem_append_singleton_valid hall hs.1 hs.2 hm
    · cases hstep
  | ctor_fill cols rows value =>
    simp only [World.step] at hstep
    split at hstep
    · rename_i hb
      simp only [Option.some.injEq] at hstep
      subst hstep
      have hs := matrix.valid_ctor_fill w.heap cols rows value hb.1 hb.2
      exact mem_append_singleton_valid hall hs.1 hs.2 hm
    · cases hstep
  | ctor_copy other =>
    simp only [World.step] at hstep
    split at hstep
    · rename_i o ho
      simp only [Option.some.injEq] at hstep
      subst hstep
      have hs := matrix.valid_ctor_copy w.heap o (hall o (List.get?_mem ho))
      exact mem_append_singleton_valid hall hs.1 hs.2 hm
    · cases hstep
  | ctor_move other =>
    simp only [World.step] at hstep
    split at hstep
    · rename_i o ho
      simp only [Option.some.injEq] at hstep
      subst hstep
      have hvo := hall o (List.get?_mem ho)
      refine mem_append_singleton_valid (h := w.heap) ?_ (Nat.le_refl _)
        (matrix.valid_moved_to w.heap o hvo) hm
      intro x hx
      exact mem_set_valid hall (matrix.valid_moved_from w.heap o) hx (Nat.le_refl _)
    · cases hstep
  | assign_copy this other =>
    simp only [World.step] at hstep
    split at hstep
    · rename_i t o ht ho
      split at hstep
      · simp only [Option.some.injEq] at hstep
        subst hstep
        have hs := matrix.valid_assign_copy_self w.heap t (hall t (List.get?_mem ht))
        exact mem_set_valid (fun x hx => matrix.valid_mono (hall x hx) hs.1) hs.2 hm hs.1
      · simp only [Option.some.injEq] at hstep
        subst hstep
        have hs := matrix.valid_assign_copy w.heap t o (hall o (List.get?_mem ho))
        exact mem_set_valid (fun x hx => matrix.valid_mono (hall x hx) hs.1) hs.2 hm hs.1
    · cases hstep
  | assign_move this other =>
    simp only [World.step] at hstep
    split at hstep
    · rename_i t o ht ho
      split at hstep
      · simp only [Option.some.injEq] at hstep
        subst hstep
        exact mem_set_valid hall (matrix.valid_assign_move_self w.heap t) hm (Nat.le_refl _)
      · simp only [Option.some.injEq] at hstep
        subst hstep
        have hvo := hall o (List.get?_mem ho)
        refine mem_set_valid (h := w.heap) ?_ (matrix.valid_moved_to w.heap o hvo) hm
          (Nat.le_refl _)
        intro x hx
        exact mem_set_valid hall (matrix.valid_moved_from w.heap o) hx (Nat.le_refl _)
    · cases hstep
  | swap this other =>
    simp only [World.step] at hstep
    split at hstep
    · rename_i t o ht ho
      split at hstep
      · simp only [Option.some.injEq] at hstep
        subst hstep
        have hs := matrix.valid_swap_self w.heap t (hall t (List.get?_mem ht))
        exact mem_set_valid (fun x hx => matrix.valid_mono (hall x hx) hs.1) hs.2 hm hs.1
      · simp only [Option.some.injEq] at hstep
        subst hstep
        have hs := matrix.valid_swap w.heap t o (hall t (List.get?_mem ht))
          (hall o (List.get?_mem ho))
        refine mem_set_valid (h := w.heap) ?_ hs.2.1 hm hs.1
        intro x hx
        exact mem_set_valid (fun y hy => matrix.valid_mono (hall y hy) hs.1) hs.2.2 hx hs.1
    · cases hstep
  | clear this =>
    simp only [World.step] at hstep
    split at hstep
    · rename_i t ht
      simp only [Option.some.injEq] at hstep
      subst hstep
      have hs := matrix.valid_clear w.heap t (hall t (List.get?_mem ht))
      exact mem_set_valid (fun x hx => matrix.valid_mono (hall x hx) (Nat.le_of_eq hs.1.symm))
        hs.2 hm (Nat.le_of_eq hs.1.symm)
    · cases hstep
  | write this index value =>
    simp only [World.step] at hstep
    split at hstep
    · split at hstep
      · simp only [Option.some.injEq] at hstep
        subst hstep
        exact matrix.valid_mono (hall m hm) (Nat.le_of_eq (Heap.length_store _ _ _).symm)
      · cases hstep
    · cases hstep

/-- Every matrix object of a reachable program state is sound. -/
theorem Reachable.objs_valid [Inhabited T] {w : World T} (hw : Reachable w) :
    ∀ o ∈ w.objs, o.valid w.heap := by
  induction hw with
  | init =>
    intro o ho
    simp [World.init] at ho
  | step op _ hstep ih => exact World.step_valid _ _ op ih hstep

/-- After `clear()` a sound matrix has size 0 and shape (0, 0). -/
theorem matrix.clear_fields_of_valid (h : Heap T) (m : matrix) (hv : m.valid h) :
    (matrix.clear h m).2.m_size = 0 ∧ (matrix.clear h m).2.m_columns = 0 ∧
    (matrix.clear h m).2.m_rows = 0 := by
  rw [matrix.clear_eq]
  split
  · exact ⟨rfl, rfl, rfl⟩
  · rename_i hn
    obtain ⟨⟨_, _, hs, _, h0⟩, ho, _⟩ := hv
    have hsz : m.m_size = 0 := by
      simp only [Ptr.diff, Ptr.add, ho, Nat.zero_add, Nat.mod_eq_of_lt hs, ne_eq,
        not_not] at hn
      omega
    exact ⟨hsz, (h0 hsz).1, (h0 hsz).2⟩

/-- What the copy loop shared by the copy constructor and copy assignment does to memory:
storage that existed before keeps its contents, slot `i` of the new buffer holds what
`other[i]` holds, and the new buffer is a block of its own. -/
theorem matrix.copy_spec (h : Heap T) (m : matrix) (hv : m.valid h) :
    (∀ q : Ptr, q.block ≤ h.blocks.length →
      (uninitialized_copy_n (matrix._M_allocate h m.m_size).1 m.m_data m.m_size
        (matrix._M_allocate h m.m_size).2).read q = h.read q) ∧
    (∀ i, i < m.m_size →
      (uninitialized_copy_n (matrix._M_allocate h m.m_size).1 m.m_data m.m_size
        (matrix._M_allocate h m.m_size).2).read ((matrix._M_allocate h m.m_size).2.add i) =
        h.read (m.m_data.add i)) ∧
    (∀ i, i < m.m_size → (matrix._M_allocate h m.m_size).2.block = h.blocks.length + 1) := by
  obtain ⟨⟨_, _, hs, _, _⟩, ho, hb⟩ := hv
  obtain ⟨c, r, n, cap, ⟨sb, so⟩⟩ := m
  simp only at hs ho hb ⊢
  subst ho
  by_cases hn : n ≠ 0
  · have hne : sb ≠ h.blocks.length + 1 := by omega
    have hrd : ∀ q : Ptr,
        (uninitialized_copy_n (matrix._M_allocate h n).1 ⟨sb, 0⟩ n
          (matrix._M_allocate h n).2).read q =
        if q.block = h.blocks.length + 1 ∧ 0 ≤ q.off ∧ q.off < 0 + n then
          (h.alloc n).1.read ⟨sb, 0 + (q.off - 0)⟩
        else (h.alloc n).1.read q := by
      intro q
      simp only [matrix._M_allocate, if_pos hn]
      exact read_copy (h.alloc n).1 sb 0 (h.blocks.length + 1) 0 n q hne
        (by rw [Heap.blockLen_alloc_new]; omega) (by omega) (by omega)
    refine ⟨?_, ?_, ?_⟩
    · intro q hq
      rw [hrd q, if_neg (by omega), Heap.read_alloc h n q hq]
    · intro i hi
      have hi2 : i < 2 ^ 64 := by omega
      have hp : (matrix._M_allocate h n).2.add i = ⟨h.blocks.length + 1, i⟩ := by
        simp only [matrix._M_allocate, if_pos hn, Heap.alloc, Ptr.add, Nat.zero_add,
          Nat.mod_eq_of_lt hi2]
      have hsrc : (⟨sb, 0⟩ : Ptr).add i = ⟨sb, i⟩ := by
        simp only [Ptr.add, Nat.zero_add, Nat.mod_eq_of_lt hi2]
      rw [hp, hrd, if_pos ⟨rfl, Nat.zero_le _, by simpa using hi⟩, hsrc,
        Heap.read_alloc h n _ hb]
      simp
    · intro i _
      simp only [matrix._M_allocate, if_pos hn, Heap.alloc]
  · have hn0 : n = 0 := by omega
    subst hn0
    refine ⟨fun q _ => rfl, ?_, ?_⟩
    · intro i hi
      omega
    · intro i hi
      omega

/-- The copy loop, read through `operator[]` of the source `m` and of a matrix `n` that owns
the new buffer. -/
theorem matrix.copy_elements (h : Heap T) (m n : matrix) (hv : m.valid h)
    (hd : n.m_data = (matrix._M_allocate h m.m_size).2) :
    (∀ i, i < m.size →
      (uninitialized_copy_n (matrix._M_allocate h m.m_size).1 m.m_data m.m_size
        (matrix._M_allocate h m.m_size).2).read (n.index i) = h.read (m.index i) ∧
      (uninitialized_copy_n (matrix._M_allocate h m.m_size).1 m.m_data m.m_size
        (matrix._M_allocate h m.m_size).2).read (m.index i) = h.read (m.index i)) ∧
    (∀ i j v, i < m.size →
      ((uninitialized_copy_n (matrix._M_allocate h m.m_size).1 m.m_data m.m_size
        (matrix._M_allocate h m.m_size).2).store (n.index j) (some v)).read (m.index i) =
        h.read (m.index i)) := by
  have hspec := matrix.copy_spec h m hv
  have hblk : ∀ i, (m.index i).block ≤ h.blocks.length := fun i => hv.2.2
  refine ⟨fun i hi => ⟨?_, hspec.1 _ (hblk i)⟩, ?_⟩
  · simp only [matrix.index, hd]
    exact hspec.2.1 i hi
  · intro i j v hi
    have hnb : (n.index j).block = h.blocks.length + 1 := by
      simp only [matrix.index, Ptr.add, hd]
      exact hspec.2.2 i hi
    rw [Heap.read_store_block_ne _ _ _ _ (by have := hblk i; omega)]
    exact hspec.1 _ (hblk i)

end Invariant

/-! ## Checked element access -/

theorem matrix.range_check_error (m : matrix) (column row : Nat)
    (hc : column ≥ m.column_size ∨ row ≥ m.row_size) :
    m._M_range_check column row =
      .error (.out_of_range "matrix::_M_range_check - index out of range.") := by
  unfold matrix._M_range_check
  rw [if_pos hc]

theorem matrix.range_check_ok (m : matrix) (column row : Nat)
    (hc : ¬ (column ≥ m.column_size ∨ row ≥ m.row_size)) :
    m._M_range_check column row = .ok () := by
  unfold matrix._M_range_check
  rw [if_neg hc]

theorem matrix.at_error (m : matrix) (column row : Nat)
    (hc : column ≥ m.column_size ∨ row ≥ m.row_size) :
    m.at_ column row = .error (.out_of_range "matrix::_M_range_check - index out of range.") := by
  unfold matrix.at_
  rw [matrix.range_check_error m column row hc]

theorem matrix.at_ok (m : matrix) (column row : Nat)
    (hc : ¬ (column ≥ m.column_size ∨ row ≥ m.row_size)) :
    m.at_ column row = .ok ((m.m_data.add (size_mul m.m_columns row)).add column) := by
  unfold matrix.at_
  rw [matrix.range_check_ok m column row hc]

/-- C1: `at(column, row)` throws `std::out_of_range` exactly when
`column >= column_size()` or `row >= row_size()`, and otherwise returns the reference
`*(m_data + m_columns * row + column)`. -/
theorem at_throws_iff (m : matrix) (column row : Nat) :
    ((∃ what, m.at_ column row = .error (.out_of_range what)) ↔
      (column ≥ m.column_size ∨ row ≥ m.row_size)) ∧
    (¬ (column ≥ m.column_size ∨ row ≥ m.row_size) →
      m.at_ column row = .ok ((m.data.add (size_mul m.column_size row)).add column)) := by
  refine ⟨⟨?_, fun hc => ⟨_, matrix.at_error m column row hc⟩⟩, matrix.at_ok m column row⟩
  rintro ⟨what, hw⟩
  by_contra hc
  rw [matrix.at_ok m column row hc] at hw
  cases hw

/-- C1 at a 3 by 2 matrix: `at(3, 1)` throws and `at(0, 1)` is the element at offset 3. -/
theorem at_throws_iff_witness :
    (∃ what, (matrix.ctor_fill (Heap.empty : Heap Nat) 3 2 1).2.at_ 3 1 =
      .error (.out_of_range what)) ∧
    (matrix.ctor_fill (Heap.empty : Heap Nat) 3 2 1).2.at_ 0 1 = .ok ⟨1, 3⟩ :=
  ⟨(at_throws_iff (matrix.ctor_fill (Heap.empty : Heap Nat) 3 2 1).2 3 1).1.2 (by decide),
   ((at_throws_iff (matrix.ctor_fill (Heap.empty : Heap Nat) 3 2 1).2 0 1).2 (by decide)).trans
     rfl⟩

/-- C2: for an in-range coordinate `at(column, row)` is the element at linear offset
`column_size() * row + column`, the element `operator[]` returns for that index (the index
being computed in `size_type`, which is the plain sum and product whenever
`column_size() * row_size()` is representable), and a value written through the reference
`at` returns is what that reference reads afterwards. -/
theorem at_designates_linear_offset {T : Type} (h : Heap T) (m : matrix) (column row : Nat)
    (v : T) (hc : column < m.column_size) (hr : row < m.row_size) :
    m.at_ column row = .ok (m.index (size_add (size_mul m.column_size row) column)) ∧
    (m.column_size * m.row_size < 2 ^ 64 →
      m.at_ column row = .ok (m.index (m.column_size * row + column))) ∧
    (∀ p, m.at_ column row = .ok p → h.allocated p →
      (h.store p (some v)).read p = some v ∧ m.at_ column row = .ok p) := by
  have hok := matrix.at_ok m column row (by omega)
  refine ⟨?_, ?_, ?_⟩
  · rw [hok]
    unfold matrix.index Ptr.add size_add size_mul matrix.column_size
    simp only [Except.ok.injEq, Ptr.mk.injEq, true_and]
    omega
  · intro hrep
    rw [hok]
    unfold matrix.index Ptr.add size_mul
    simp only [matrix.column_size, matrix.row_size] at hc hr hrep
    have hle : m.m_columns * row + column < m.m_columns * m.m_rows := by
      calc m.m_columns * row + column < m.m_columns * row + m.m_columns := by omega
        _ = m.m_columns * (row + 1) := by ring
        _ ≤ m.m_columns * m.m_rows := Nat.mul_le_mul_left _ hr
    have hle2 : m.m_columns * row < 2 ^ 64 := by omega
    simp only [Except.ok.injEq, Ptr.mk.injEq, true_and, matrix.column_size]
    rw [Nat.mod_eq_of_lt hle2]
    omega
  · intro p hp halloc
    refine ⟨?_, hp⟩
    rw [Heap.read_store, if_pos ⟨rfl, halloc⟩]

/-- C2 at a 3 by 2 matrix of ones: `at(0, 1)` is `m[3]`, and writing 2 there reads back 2. -/
theorem at_designates_linear_offset_witness :
    (matrix.ctor_fill (Heap.empty : Heap Nat) 3 2 1).2.at_ 0 1 =
      .ok ((matrix.ctor_fill (Heap.empty : Heap Nat) 3 2 1).2.index 3) ∧
    (((matrix.ctor_fill (Heap.empty : Heap Nat) 3 2 1).1.store ⟨1, 3⟩ (some 2)).read ⟨1, 3⟩ =
      some 2) :=
  ⟨((at_designates_linear_offset (matrix.ctor_fill (Heap.empty : Heap Nat) 3 2 1).1
      (matrix.ctor_fill (Heap.empty : Heap Nat) 3 2 1).2 0 1 2 (by decide) (by decide)).2.1
      (by decide)),
   ((at_designates_linear_offset (matrix.ctor_fill (Heap.empty : Heap Nat) 3 2 1).1
      (matrix.ctor_fill (Heap.empty : Heap Nat) 3 2 1).2 0 1 2 (by decide) (by decide)).2.2
      ⟨1, 3⟩ rfl (by decide)).1⟩

/-! ## The sized constructors -/

/-- C3: `matrix(cols, rows)` and `matrix(cols, rows, value)` have `size() == cols * rows`, or
`max(cols, rows)` when that product is 0, the product being the `size_type` product the
constructor computes (the plain product whenever it is representable), and
`row_size() == rows`, `column_size() == cols`. -/
theorem ctor_sized_size_and_shape {T : Type} [Inhabited T] (h : Heap T) (cols rows : Nat)
    (value : T) :
    ((matrix.ctor_sized h cols rows).2.size =
        (if size_mul cols rows ≠ 0 then size_mul cols rows else max cols rows) ∧
      (matrix.ctor_sized h cols rows).2.row_size = rows ∧
      (matrix.ctor_sized h cols rows).2.column_size = cols) ∧
    ((matrix.ctor_fill h cols rows value).2.size =
        (if size_mul cols rows ≠ 0 then size_mul cols rows else max cols rows) ∧
      (matrix.ctor_fill h cols rows value).2.row_size = rows ∧
      (matrix.ctor_fill h cols rows value).2.column_size = cols) ∧
    (cols * rows < 2 ^ 64 →
      (matrix.ctor_sized h cols rows).2.size =
        (if cols * rows ≠ 0 then cols * rows else max cols rows) ∧
      (matrix.ctor_fill h cols rows value).2.size =
        (if cols * rows ≠ 0 then cols * rows else max cols rows)) := by
  refine ⟨⟨rfl, rfl, rfl⟩, ⟨rfl, rfl, rfl⟩, ?_⟩
  intro hrep
  have hmul : size_mul cols rows = cols * rows := Nat.mod_eq_of_lt hrep
  simp only [matrix.ctor_sized, matrix.ctor_fill, matrix.size, matrix.ctor_size, hmul]
  exact ⟨trivial, trivial⟩

/-- C3 at `matrix(10, 10)`, `matrix(10, 10, 1)`: size 100; and at the one-dimensional
`matrix(0, 5)`: size 5. -/
theorem ctor_sized_size_and_shape_witness :
    ((matrix.ctor_sized (Heap.empty : Heap Nat) 10 10).2.size = 100 ∧
      (matrix.ctor_fill (Heap.empty : Heap Nat) 10 10 1).2.size = 100) ∧
    ((matrix.ctor_sized (Heap.empty : Heap Nat) 0 5).2.size = 5 ∧
      (matrix.ctor_fill (Heap.empty : Heap Nat) 0 5 1).2.size = 5) :=
  ⟨(ctor_sized_size_and_shape (Heap.empty : Heap Nat) 10 10 1).2.2 (by decide),
   (ctor_sized_size_and_shape (Heap.empty : Heap Nat) 0 5 1).2.2 (by decide)⟩

/-- C4: every element of `matrix(cols, rows, value)` is `value`: `m[i] == value` for every
`i < m.size()`. -/
theorem ctor_fill_elements {T : Type} (h : Heap T) (cols rows : Nat) (value : T)
    (hc : cols < 2 ^ 64) (hr : rows < 2 ^ 64) (i : Nat)
    (hi : i < (matrix.ctor_fill h cols rows value).2.size) :
    (matrix.ctor_fill h cols rows value).1.read
      ((matrix.ctor_fill h cols rows value).2.index i) = some value := by
  have hlt := matrix.ctor_size_lt cols rows hc hr
  simp only [matrix.ctor_fill, matrix.size] at hi
  have hne : matrix.ctor_size cols rows ≠ 0 := by omega
  simp only [matrix.ctor_fill, matrix.index, matrix._M_allocate, if_pos hne]
  have hidx : (h.alloc (matrix.ctor_size cols rows)).2.add i = ⟨h.blocks.length + 1, i⟩ := by
    simp only [Heap.alloc, Ptr.add, Ptr.mk.injEq, true_and]
    omega
  have hp : (h.alloc (matrix.ctor_size cols rows)).2 = ⟨h.blocks.length + 1, 0⟩ := rfl
  rw [hidx, hp, read_fill _ _ 0 _ _ _ (by rw [Heap.blockLen_alloc_new]; omega) (by omega)]
  rw [if_pos ⟨rfl, by omega, by simpa using hi⟩]

/-- C4 at `matrix(3, 2, 7)`: the last element `m[5]` is 7. -/
theorem ctor_fill_elements_witness :
    (matrix.ctor_fill (Heap.empty : Heap Nat) 3 2 7).1.read
      ((matrix.ctor_fill (Heap.empty : Heap Nat) 3 2 7).2.index 5) = some 7 :=
  ctor_fill_elements (Heap.empty : Heap Nat) 3 2 7 (by decide) (by decide) 5 (by decide)

/-! ## `clear()` -/

/-- C5: in every matrix state reachable through the public operations, after `clear()` the
matrix has `size() == 0`, `row_size() == 0`, `column_size() == 0` and `empty()` is true. -/
theorem clear_resets_size_and_shape {T : Type} [Inhabited T] (w : World T) (hw : Reachable w)
    (m : matrix) (hm : m ∈ w.objs) :
    (matrix.clear w.heap m).2.size = 0 ∧ (matrix.clear w.heap m).2.row_size = 0 ∧
    (matrix.clear w.heap m).2.column_size = 0 ∧ (matrix.clear w.heap m).2.empty = true := by
  have hc := matrix.clear_fields_of_valid w.heap m (hw.objs_valid m hm)
  refine ⟨hc.1, hc.2.2, hc.2.1, ?_⟩
  simp only [matrix.empty, hc.1, beq_self_eq_true]

/-- C5 at the program state after `matrix<int> m(3, 2, 1)`. -/
theorem clear_resets_size_and_shape_witness :
    (matrix.clear (matrix.ctor_fill (Heap.empty : Heap Nat) 3 2 1).1
        (matrix.ctor_fill (Heap.empty : Heap Nat) 3 2 1).2).2.size = 0 ∧
    (matrix.clear (matrix.ctor_fill (Heap.empty : Heap Nat) 3 2 1).1
        (matrix.ctor_fill (Heap.empty : Heap Nat) 3 2 1).2).2.row_size = 0 ∧
    (matrix.clear (matrix.ctor_fill (Heap.empty : Heap Nat) 3 2 1).1
        (matrix.ctor_fill (Heap.empty : Heap Nat) 3 2 1).2).2.column_size = 0 ∧
    (matrix.clear (matrix.ctor_fill (Heap.empty : Heap Nat) 3 2 1).1
        (matrix.ctor_fill (Heap.empty : Heap Nat) 3 2 1).2).2.empty = true :=
  clear_resets_size_and_shape
    { heap := (matrix.ctor_fill (Heap.empty : Heap Nat) 3 2 1).1,
      objs := [(matrix.ctor_fill (Heap.empty : Heap Nat) 3 2 1).2] }
    (Reachable.step (Op.ctor_fill 3 2 1) Reachable.init rfl)
    (matrix.ctor_fill (Heap.empty : Heap Nat) 3 2 1).2 (List.mem_singleton.2 rfl)

/-- C6: `clear()` leaves `capacity()` and the buffer handle `data()` unchanged, and releases
no storage: every block of the heap keeps its slots. -/
theorem clear_keeps_capacity_and_data {T : Type} (h : Heap T) (m : matrix) :
    (matrix.clear h m).2.capacity = m.capacity ∧ (matrix.clear h m).2.data = m.data ∧
    (∀ b, (matrix.clear h m).1.blockLen b = h.blockLen b) := by
  rw [matrix.clear_eq]
  split
  · exact ⟨rfl, rfl, fun b => blockLen_destroy _ _ _ b⟩
  · exact ⟨rfl, rfl, fun _ => rfl⟩

/-- C6 at `matrix<int> m(10, 10, 1)`: capacity 100 and a non-null `data()` before and after
`clear()`. -/
theorem clear_keeps_capacity_and_data_witness :
    (matrix.ctor_fill (Heap.empty : Heap Nat) 10 10 1).2.capacity = 100 ∧
    (matrix.clear (matrix.ctor_fill (Heap.empty : Heap Nat) 10 10 1).1
        (matrix.ctor_fill (Heap.empty : Heap Nat) 10 10 1).2).2.capacity = 100 ∧
    (matrix.clear (matrix.ctor_fill (Heap.empty : Heap Nat) 10 10 1).1
        (matrix.ctor_fill (Heap.empty : Heap Nat) 10 10 1).2).2.data ≠ nullptr :=
  ⟨by decide,
   (clear_keeps_capacity_and_data (matrix.ctor_fill (Heap.empty : Heap Nat) 10 10 1).1
      (matrix.ctor_fill (Heap.empty : Heap Nat) 10 10 1).2).1.trans (by decide),
   fun hnull => absurd
     ((clear_keeps_capacity_and_data (matrix.ctor_fill (Heap.empty : Heap Nat) 10 10 1).1
        (matrix.ctor_fill (Heap.empty : Heap Nat) 10 10 1).2).2.1.symm.trans hnull)
     (by decide)⟩

/-- C7: in every reachable matrix state, after `clear()` the call `at(column, row)` throws
`std::out_of_range` for every column and row, whatever the capacity was. -/
theorem at_throws_after_clear {T : Type} [Inhabited T] (w : World T) (hw : Reachable w)
    (m : matrix) (hm : m ∈ w.objs) (column row : Nat) :
    ∃ what, (matrix.clear w.heap m).2.at_ column row = .error (.out_of_range what) := by
  have hc := matrix.clear_fields_of_valid w.heap m (hw.objs_valid m hm)
  refine ⟨_, matrix.at_error _ column row (Or.inl ?_)⟩
  simp only [matrix.column_size, hc.2.1]
  exact Nat.zero_le _

/-- C7 at the program state after `matrix<int> m(3, 2, 1)`: `at(0, 0)` throws once the
matrix is cleared. -/
theorem at_throws_after_clear_witness :
    ∃ what, (matrix.clear (matrix.ctor_fill (Heap.empty : Heap Nat) 3 2 1).1
        (matrix.ctor_fill (Heap.empty : Heap Nat) 3 2 1).2).2.at_ 0 0 =
      .error (.out_of_range what) :=
  at_throws_after_clear
    { heap := (matrix.ctor_fill (Heap.empty : Heap Nat) 3 2 1).1,
      objs := [(matrix.ctor_fill (Heap.empty : Heap Nat) 3 2 1).2] }
    (Reachable.step (Op.ctor_fill 3 2 1) Reachable.init rfl)
    (matrix.ctor_fill (Heap.empty : Heap Nat) 3 2 1).2 (List.mem_singleton.2 rfl) 0 0

/-- C8: `clear()` is idempotent: the heap and the data members (size, shape, capacity, buffer
handle) after `clear(); clear()` are those after one `clear()`; and `clear()` on a
default-constructed matrix changes nothing. -/
theorem clear_idempotent {T : Type} (h : Heap T) (m : matrix) :
    matrix.clear (matrix.clear h m).1 (matrix.clear h m).2 = matrix.clear h m ∧
    matrix.clear h matrix.ctor = (h, matrix.ctor) := by
  constructor
  · by_cases hn : (m.m_data.add m.m_size).diff m.m_data ≠ 0
    · have h1 : matrix.clear h m =
          (destroy_n h m.m_data m.m_size,
            { m with m_size := 0, m_columns := 0, m_rows := 0 }) := by
        rw [matrix.clear_eq, if_pos hn]
      rw [h1, matrix.clear_eq]
      split
      · rfl
      · rfl
    · have h1 : matrix.clear h m = (h, m) := by
        rw [matrix.clear_eq, if_neg hn]
      rw [h1, h1]
  · rfl

/-! ## Copying -/

/-- C9: for a matrix `m` of a reachable program state, the matrix `n` made by copy
construction from `m`, and likewise the matrix `n` that another object becomes by copy
assignment from `m`, has the `size()`, `row_size()` and `column_size()` of `m` and
`n[i] == m[i]` for every `i < m.size()`; the operation succeeds, `m` keeps its data members
and its elements, and a later write to an element of `n` changes no element of `m`. -/
theorem copy_is_equal_and_independent {T : Type} [Inhabited T] (w : World T)
    (hw : Reachable w) (src dst : Nat) (m : matrix) (hsrc : w.objs.get? src = some m)
    (hdst : dst < w.objs.length) (hne : dst ≠ src) :
    (∃ w1 n, w.step (.ctor_copy src) = some w1 ∧ w1.objs.get? src = some m ∧
      w1.objs.get? w.objs.length = some n ∧
      n.size = m.size ∧ n.row_size = m.row_size ∧ n.column_size = m.column_size ∧
      (∀ i, i < m.size → w1.heap.read (n.index i) = w.heap.read (m.index i) ∧
        w1.heap.read (m.index i) = w.heap.read (m.index i)) ∧
      (∀ i j v, i < m.size →
        (w1.heap.store (n.index j) (some v)).read (m.index i) = w.heap.read (m.index i))) ∧
    (∃ w1 n, w.step (.assign_copy dst src) = some w1 ∧ w1.objs.get? src = some m ∧
      w1.objs.get? dst = some n ∧
      n.size = m.size ∧ n.row_size = m.row_size ∧ n.column_size = m.column_size ∧
      (∀ i, i < m.size → w1.heap.read (n.index i) = w.heap.read (m.index i) ∧
        w1.heap.read (m.index i) = w.heap.read (m.index i)) ∧
      (∀ i j v, i < m.size →
        (w1.heap.store (n.index j) (some v)).read (m.index i) = w.heap.read (m.index i))) := by
  have hv := hw.objs_valid m (List.get?_mem hsrc)
  have hsl : src < w.objs.length := by
    by_contra hge
    rw [List.get?_eq_none.2 (Nat.le_of_not_lt hge)] at hsrc
    cases hsrc
  constructor
  · have he := matrix.copy_elements w.heap m (matrix.ctor_copy w.heap m).2 hv rfl
    refine ⟨{ heap := (matrix.ctor_copy w.heap m).1,
              objs := w.objs ++ [(matrix.ctor_copy w.heap m).2] },
            (matrix.ctor_copy w.heap m).2, ?_, ?_, ?_, rfl, rfl, rfl, he.1, he.2⟩
    · simp only [World.step, hsrc]
    · simp only [List.get?_eq_getElem?, List.getElem?_append_left hsl]
      simpa using hsrc
    · simp
  · obtain ⟨t, ht⟩ : ∃ t, w.objs.get? dst = some t := ⟨_, List.get?_eq_get hdst⟩
    have he := matrix.copy_elements w.heap m (matrix.assign_copy w.heap t m).2 hv rfl
    refine ⟨{ heap := (matrix.assign_copy w.heap t m).1,
              objs := w.objs.set dst (matrix.assign_copy w.heap t m).2 },
            (matrix.assign_copy w.heap t m).2, ?_, ?_, ?_, rfl, rfl, rfl, he.1, he.2⟩
    · simp only [World.step, ht, hsrc, if_neg hne]
    · simp only [List.get?_eq_getElem?, List.getElem?_set_ne hne]
      simpa using hsrc
    · simp [hdst]

/-- C9 at the test section `Copy assignment`: `m` is object 0 and `n` is object 1. -/
theorem copy_is_equal_and_independent_witness :
    (∃ w1 n, copy_assignment_test.step (.ctor_copy 0) = some w1 ∧
      w1.objs.get? 0 = some (matrix.ctor_fill (Heap.empty : Heap Int) 10 10 1).2 ∧
      w1.objs.get? copy_assignment_test.objs.length = some n ∧
      n.size = (matrix.ctor_fill (Heap.empty : Heap Int) 10 10 1).2.size ∧
      n.row_size = (matrix.ctor_fill (Heap.empty : Heap Int) 10 10 1).2.row_size ∧
      n.column_size = (matrix.ctor_fill (Heap.empty : Heap Int) 10 10 1).2.column_size ∧
      (∀ i, i < (matrix.ctor_fill (Heap.empty : Heap Int) 10 10 1).2.size →
        w1.heap.read (n.index i) = copy_assignment_test.heap.read
          ((matrix.ctor_fill (Heap.empty : Heap Int) 10 10 1).2.index i) ∧
        w1.heap.read ((matrix.ctor_fill (Heap.empty : Heap Int) 10 10 1).2.index i) =
          copy_assignment_test.heap.read
            ((matrix.ctor_fill (Heap.empty : Heap Int) 10 10 1).2.index i)) ∧
      (∀ i j v, i < (matrix.ctor_fill (Heap.empty : Heap Int) 10 10 1).2.size →
        (w1.heap.store (n.index j) (some v)).read
            ((matrix.ctor_fill (Heap.empty : Heap Int) 10 10 1).2.index i) =
          copy_assignment_test.heap.read
            ((matrix.ctor_fill (Heap.empty : Heap Int) 10 10 1).2.index i))) ∧
    (∃ w1 n, copy_assignment_test.step (.assign_copy 1 0) = some w1 ∧
      w1.objs.get? 0 = some (matrix.ctor_fill (Heap.empty : Heap Int) 10 10 1).2 ∧
      w1.objs.get? 1 = some n ∧
      n.size = (matrix.ctor_fill (Heap.empty : Heap Int) 10 10 1).2.size ∧
      n.row_size = (matrix.ctor_fill (Heap.empty : Heap Int) 10 10 1).2.row_size ∧
      n.column_size = (matrix.ctor_fill (Heap.empty : Heap Int) 10 10 1).2.column_size ∧
      (∀ i, i < (matrix.ctor_fill (Heap.empty : Heap Int) 10 10 1).2.size →
        w1.heap.read (n.index i) = copy_assignment_test.heap.read
          ((matrix.ctor_fill (Heap.empty : Heap Int) 10 10 1).2.index i) ∧
        w1.heap.read ((matrix.ctor_fill (Heap.empty : Heap Int) 10 10 1).2.index i) =
          copy_assignment_test.heap.read
            ((matrix.ctor_fill (Heap.empty : Heap Int) 10 10 1).2.index i)) ∧
      (∀ i j v, i < (matrix.ctor_fill (Heap.empty : Heap Int) 10 10 1).2.size →
        (w1.heap.store (n.index j) (some v)).read
            ((matrix.ctor_fill (Heap.empty : Heap Int) 10 10 1).2.index i) =
          copy_assignment_test.heap.read
            ((matrix.ctor_fill (Heap.empty : Heap Int) 10 10 1).2.index i))) :=
  copy_is_equal_and_independent copy_assignment_test
    (@Reachable.step Int _
      { heap := (matrix.ctor_fill (Heap.empty : Heap Int) 10 10 1).1,
        objs := [(matrix.ctor_fill (Heap.empty : Heap Int) 10 10 1).2] }
      copy_assignment_test Op.ctor_default
      (Reachable.step (Op.ctor_fill 10 10 1) Reachable.init
        (by simp [World.step, World.init]))
      (by simp [World.step, copy_assignment_test]))
    0 1 (matrix.ctor_fill (Heap.empty : Heap Int) 10 10 1).2 rfl (by decide) (by decide)

/-- C10 fails for copy assignment: after `matrix<int> m(10, 10, 1); m.clear();` the matrix
`m` has capacity 100, a copy constructed from it has capacity 100, but an object copy
assigned from it has capacity 0, because the assignment stores `other.m_size` in
`m_capacity` where the copy constructor stores `other.m_capacity`. -/
theorem assign_copy_capacity_is_size :
    (matrix.clear (matrix.ctor_fill (Heap.empty : Heap Int) 10 10 1).1
      (matrix.ctor_fill (Heap.empty : Heap Int) 10 10 1).2).2.capacity = 100 ∧
    (matrix.ctor_copy
      (matrix.clear (matrix.ctor_fill (Heap.empty : Heap Int) 10 10 1).1
        (matrix.ctor_fill (Heap.empty : Heap Int) 10 10 1).2).1
      (matrix.clear (matrix.ctor_fill (Heap.empty : Heap Int) 10 10 1).1
        (matrix.ctor_fill (Heap.empty : Heap Int) 10 10 1).2).2).2.capacity = 100 ∧
    (matrix.assign_copy
      (matrix.clear (matrix.ctor_fill (Heap.empty : Heap Int) 10 10 1).1
        (matrix.ctor_fill (Heap.empty : Heap Int) 10 10 1).2).1
      matrix.ctor
      (matrix.clear (matrix.ctor_fill (Heap.empty : Heap Int) 10 10 1).1
        (matrix.ctor_fill (Heap.empty : Heap Int) 10 10 1).2).2).2.capacity = 0 := by
  refine ⟨by decide, by decide, by decide⟩

/-! ## Moving -/

/-- C11: after move construction of `n` from `m`, and likewise after move assignment of `m`
to another object `n`, `n` has the `size()`, `row_size()`, `column_size()` and elements `m`
had, and `m` is left with `size() == 0` and shape (0, 0). -/
theorem move_transfers_and_empties {T : Type} [Inhabited T] (w : World T) (src dst : Nat)
    (m : matrix) (hsrc : w.objs.get? src = some m) (hdst : dst < w.objs.length)
    (hne : dst ≠ src) :
    (∃ w1 n m1, w.step (.ctor_move src) = some w1 ∧
      w1.objs.get? w.objs.length = some n ∧ w1.objs.get? src = some m1 ∧
      n.size = m.size ∧ n.row_size = m.row_size ∧ n.column_size = m.column_size ∧
      (∀ i, w1.heap.read (n.index i) = w.heap.read (m.index i)) ∧
      m1.size = 0 ∧ m1.row_size = 0 ∧ m1.column_size = 0) ∧
    (∃ w1 n m1, w.step (.assign_move dst src) = some w1 ∧
      w1.objs.get? dst = some n ∧ w1.objs.get? src = some m1 ∧
      n.size = m.size ∧ n.row_size = m.row_size ∧ n.column_size = m.column_size ∧
      (∀ i, w1.heap.read (n.index i) = w.heap.read (m.index i)) ∧
      m1.size = 0 ∧ m1.row_size = 0 ∧ m1.column_size = 0) := by
  have hsl : src < w.objs.length := by
    by_contra hge
    rw [List.get?_eq_none.2 (Nat.le_of_not_lt hge)] at hsrc
    cases hsrc
  constructor
  · refine ⟨{ heap := w.heap,
              objs := w.objs.set src (matrix.ctor_move m).2 ++ [(matrix.ctor_move m).1] },
            (matrix.ctor_move m).1, (matrix.ctor_move m).2, ?_, ?_, ?_, rfl, rfl, rfl,
            fun _ => rfl, rfl, rfl, rfl⟩
    · simp only [World.step, hsrc]
    · have hlen : (w.objs.set src (matrix.ctor_move m).2).length = w.objs.length := by simp
      simp only [List.get?_eq_getElem?]
      rw [← hlen, List.getElem?_append_right (Nat.le_refl _)]
      simp
    · have hlt : src < (w.objs.set src (matrix.ctor_move m).2).length := by simpa using hsl
      simp only [List.get?_eq_getElem?, List.getElem?_append_left hlt]
      simp [hsl]
  · obtain ⟨t, ht⟩ : ∃ t, w.objs.get? dst = some t := ⟨_, List.get?_eq_get hdst⟩
    refine ⟨{ heap := w.heap,
              objs := (w.objs.set src (matrix.assign_move t m).2).set dst
                (matrix.assign_move t m).1 },
            (matrix.assign_move t m).1, (matrix.assign_move t m).2, ?_, ?_, ?_, rfl, rfl, rfl,
            fun _ => rfl, rfl, rfl, rfl⟩
    · simp only [World.step, ht, hsrc, if_neg hne]
    · simp [hdst]
    · simp only [List.get?_eq_getElem?, List.getElem?_set_ne hne]
      simp [hsl]

/-- C11 at the tests `Move constructor` and `Move assignment`: `m` is object 0 and the
default-constructed `n` is object 1. -/
theorem move_transfers_and_empties_witness :
    (∃ w1 n m1, move_test.step (.ctor_move 0) = some w1 ∧
      w1.objs.get? move_test.objs.length = some n ∧ w1.objs.get? 0 = some m1 ∧
      n.size = (matrix.ctor_fill (Heap.empty : Heap Int) 10 10 1).2.size ∧
      n.row_size = (matrix.ctor_fill (Heap.empty : Heap Int) 10 10 1).2.row_size ∧
      n.column_size = (matrix.ctor_fill (Heap.empty : Heap Int) 10 10 1).2.column_size ∧
      (∀ i, w1.heap.read (n.index i) =
        move_test.heap.read ((matrix.ctor_fill (Heap.empty : Heap Int) 10 10 1).2.index i)) ∧
      m1.size = 0 ∧ m1.row_size = 0 ∧ m1.column_size = 0) ∧
    (∃ w1 n m1, move_test.step (.assign_move 1 0) = some w1 ∧
      w1.objs.get? 1 = some n ∧ w1.objs.get? 0 = some m1 ∧
      n.size = (matrix.ctor_fill (Heap.empty : Heap Int) 10 10 1).2.size ∧
      n.row_size = (matrix.ctor_fill (Heap.empty : Heap Int) 10 10 1).2.row_size ∧
      n.column_size = (matrix.ctor_fill (Heap.empty : Heap Int) 10 10 1).2.column_size ∧
      (∀ i, w1.heap.read (n.index i) =
        move_test.heap.read ((matrix.ctor_fill (Heap.empty : Heap Int) 10 10 1).2.index i)) ∧
      m1.size = 0 ∧ m1.row_size = 0 ∧ m1.column_size = 0) :=
  move_transfers_and_empties move_test 0 1
    (matrix.ctor_fill (Heap.empty : Heap Int) 10 10 1).2 rfl (by decide) (by decide)

/-- C12 fails: after `matrix<int> m(10, 10, 1);` the object left behind by
`matrix<int> n(std::move(m));`, and likewise by `n = std::move(m);`, still reports capacity
100 although its buffer is null: neither move operation resets `other.m_capacity`. -/
theorem moved_from_capacity_is_kept :
    (matrix.ctor_move (matrix.ctor_fill (Heap.empty : Heap Int) 10 10 1).2).2.capacity = 100 ∧
    (matrix.assign_move matrix.ctor
      (matrix.ctor_fill (Heap.empty : Heap Int) 10 10 1).2).2.capacity = 100 ∧
    (matrix.ctor_move (matrix.ctor_fill (Heap.empty : Heap Int) 10 10 1).2).2.data = nullptr ∧
    (matrix.ctor_move (matrix.ctor_fill (Heap.empty : Heap Int) 10 10 1).2).2.size = 0 := by
  refine ⟨by decide, by decide, by decide, by decide⟩

/-! ## The default constructor and the class invariants -/

/-- C13: a default-constructed matrix has `size() == 0`, `row_size() == 0`,
`column_size() == 0`, `capacity() == 0`, `empty()` true and a null `data()`. -/
theorem default_ctor_is_empty :
    matrix.ctor.size = 0 ∧ matrix.ctor.row_size = 0 ∧ matrix.ctor.column_size = 0 ∧
    matrix.ctor.capacity = 0 ∧ matrix.ctor.empty = true ∧ matrix.ctor.data = nullptr := by
  refine ⟨rfl, rfl, rfl, rfl, rfl, rfl⟩

/-- C14: in every matrix state reachable through the public operations, moved-from objects
included, `0 <= size() <= capacity()`. -/
theorem size_le_capacity {T : Type} [Inhabited T] (w : World T) (hw : Reachable w)
    (m : matrix) (hm : m ∈ w.objs) : 0 ≤ m.size ∧ m.size ≤ m.capacity :=
  ⟨Nat.zero_le _, (hw.objs_valid m hm).1.2.2.2.1⟩

/-- C14 at the moved-from `m` of the test `Move constructor`. -/
theorem size_le_capacity_witness :
    0 ≤ (matrix.ctor_move (matrix.ctor_fill (Heap.empty : Heap Int) 10 10 1).2).2.size ∧
    (matrix.ctor_move (matrix.ctor_fill (Heap.empty : Heap Int) 10 10 1).2).2.size ≤
      (matrix.ctor_move (matrix.ctor_fill (Heap.empty : Heap Int) 10 10 1).2).2.capacity :=
  size_le_capacity moved_from_test
    (@Reachable.step Int _ move_test moved_from_test (Op.ctor_move 0)
      (@Reachable.step Int _
        { heap := (matrix.ctor_fill (Heap.empty : Heap Int) 10 10 1).1,
          objs := [(matrix.ctor_fill (Heap.empty : Heap Int) 10 10 1).2] }
        move_test Op.ctor_default
        (Reachable.step (Op.ctor_fill 10 10 1) Reachable.init
          (by simp [World.step, World.init]))
        (by simp [World.step, move_test]))
      (by simp [World.step, move_test, moved_from_test]))
    (matrix.ctor_move (matrix.ctor_fill (Heap.empty : Heap Int) 10 10 1).2).2
    (by simp [moved_from_test])

/-! ## Iteration -/

theorem move_test_reachable : Reachable move_test :=
  @Reachable.step Int _
    { heap := (matrix.ctor_fill (Heap.empty : Heap Int) 10 10 1).1,
      objs := [(matrix.ctor_fill (Heap.empty : Heap Int) 10 10 1).2] }
    move_test Op.ctor_default
    (Reachable.step (Op.ctor_fill 10 10 1) Reachable.init (by simp [World.step, World.init]))
    (by simp [World.step, move_test])

theorem matrix.end_diff_begin (m : matrix) (ho : m.m_data.off = 0) (hs : m.m_size < 2 ^ 64) :
    m.end_.diff m.begin = (m.m_size : Int) := by
  simp only [normal_iterator.diff, normal_iterator.base, iterator_ops.diff, matrix.end_,
    matrix.begin, Ptr.diff, Ptr.add, ho, Nat.zero_add, Nat.mod_eq_of_lt hs]
  simp

theorem matrix.begin_eq_end_iff (m : matrix) (ho : m.m_data.off = 0) (hs : m.m_size < 2 ^ 64) :
    m.begin.eq m.end_ = true ↔ m.m_size = 0 := by
  obtain ⟨c, r, n, k, ⟨b, o⟩⟩ := m
  simp only at ho hs
  subst ho
  simp only [normal_iterator.eq, normal_iterator.base, iterator_ops.eq, matrix.end_,
    matrix.begin, Ptr.add, Nat.zero_add, Nat.mod_eq_of_lt hs, decide_eq_true_eq, Ptr.mk.injEq,
    true_and]
  exact eq_comm

/-- C19: for every reachable matrix `m.end() - m.begin() == m.size()`, likewise
`m.cend() - m.cbegin()`, whatever the capacity is; so `m.begin() == m.end()` if and only if
`m.empty()`, and after `clear()` the two are equal. -/
theorem iteration_range_is_size {T : Type} [Inhabited T] (w : World T) (hw : Reachable w)
    (m : matrix) (hm : m ∈ w.objs) :
    m.end_.diff m.begin = (m.size : Int) ∧ m.cend.diff m.cbegin = (m.size : Int) ∧
    (m.begin.eq m.end_ = true ↔ m.empty = true) ∧
    (matrix.clear w.heap m).2.begin.eq (matrix.clear w.heap m).2.end_ = true := by
  have hv := hw.objs_valid m hm
  have hvc := (matrix.valid_clear w.heap m hv).2
  have hc := matrix.clear_fields_of_valid w.heap m hv
  refine ⟨matrix.end_diff_begin m hv.2.1 hv.1.2.2.1, matrix.end_diff_begin m hv.2.1 hv.1.2.2.1,
    ?_, ?_⟩
  · rw [matrix.begin_eq_end_iff m hv.2.1 hv.1.2.2.1]
    simp [matrix.empty]
  · rw [matrix.begin_eq_end_iff _ hvc.2.1 hvc.1.2.2.1]
    exact hc.1

/-- C19 at `matrix<int> m(10, 10, 1)`: `end() - begin()` is 100, and after `m.clear()`, which
keeps the capacity 100, `begin() == end()`. -/
theorem iteration_range_is_size_witness :
    (matrix.ctor_fill (Heap.empty : Heap Int) 10 10 1).2.end_.diff
      (matrix.ctor_fill (Heap.empty : Heap Int) 10 10 1).2.begin = 100 ∧
    (matrix.clear move_test.heap
      (matrix.ctor_fill (Heap.empty : Heap Int) 10 10 1).2).2.begin.eq
      (matrix.clear move_test.heap
        (matrix.ctor_fill (Heap.empty : Heap Int) 10 10 1).2).2.end_ = true :=
  ⟨(iteration_range_is_size move_test move_test_reachable
      (matrix.ctor_fill (Heap.empty : Heap Int) 10 10 1).2 (by simp [move_test])).1,
   (iteration_range_is_size move_test move_test_reachable
      (matrix.ctor_fill (Heap.empty : Heap Int) 10 10 1).2 (by simp [move_test])).2.2.2⟩

/-! ## Shape and storage of reachable matrices -/

section Sound

variable {T : Type}

theorem Heap.ext_refl (h : Heap T) : h.ext h := ⟨Nat.le_refl _, fun _ _ => rfl⟩

theorem Heap.ext_trans {h h1 h2 : Heap T} (h01 : h.ext h1) (h12 : h1.ext h2) : h.ext h2 :=
  ⟨Nat.le_trans h01.1 h12.1,
   fun b hb => (h12.2 b (Nat.le_trans hb h01.1)).trans (h01.2 b hb)⟩

theorem Heap.ext_of_blockLen_eq {h h1 : Heap T} (hl : h1.blocks.length = h.blocks.length)
    (hb : ∀ b, h1.blockLen b = h.blockLen b) : h.ext h1 :=
  ⟨Nat.le_of_eq hl.symm, fun b _ => hb b⟩

theorem Heap.blockLen_alloc_old (h : Heap T) (n b : Nat) (hb : b ≤ h.blocks.length) :
    (h.alloc n).1.blockLen b = h.blockLen b := by
  unfold Heap.blockLen
  rw [Heap.block_alloc, if_neg (by omega)]

theorem Heap.blockLen_zero (h : Heap T) : h.blockLen 0 = 0 := rfl

theorem Heap.blockLen_free (h : Heap T) (p : Ptr) (b : Nat) (hb : b ≠ p.block) :
    (h.free p).blockLen b = h.blockLen b := by
  unfold Heap.blockLen
  rw [Heap.block_free, if_neg hb]

theorem matrix.allocate_ext (h : Heap T) (n : Nat) :
    h.ext (matrix._M_allocate h n).1 ∧
    n ≤ (matrix._M_allocate h n).1.blockLen (matrix._M_allocate h n).2.block ∧
    (n ≠ 0 → (matrix._M_allocate h n).2.block = h.blocks.length + 1 ∧
      (matrix._M_allocate h n).1.blocks.length = h.blocks.length + 1) ∧
    (n = 0 → (matrix._M_allocate h n).2 = nullptr ∧ (matrix._M_allocate h n).1 = h) := by
  unfold matrix._M_allocate
  by_cases hn : n ≠ 0
  · rw [if_pos hn]
    refine ⟨⟨by simp [Heap.alloc], fun b hb => Heap.blockLen_alloc_old h n b hb⟩, ?_,
      fun _ => ⟨rfl, Heap.length_alloc h n⟩, fun h0 => absurd h0 hn⟩
    exact Nat.le_of_eq (Heap.blockLen_alloc_new h n).symm
  · rw [if_neg hn]
    have h0 : n = 0 := by omega
    exact ⟨Heap.ext_refl h, by omega, fun hne => absurd h0 hne, fun _ => ⟨rfl, rfl⟩⟩

theorem matrix.sound_mono {h h1 : Heap T} {m : matrix} (hv : m.valid h) (hs : m.sound h)
    (hext : h.ext h1) : m.sound h1 :=
  ⟨hs.1, by rw [hext.2 _ hv.2.2]; exact hs.2⟩

theorem matrix.ctor_size_zero : matrix.ctor_size 0 0 = 0 := by decide

theorem matrix.sound_ctor (h : Heap T) : matrix.ctor.sound h :=
  ⟨matrix.ctor_size_zero.symm, Nat.zero_le _⟩

theorem matrix.sound_ctor_fill (h : Heap T) (cols rows : Nat) (value : T) :
    h.ext (matrix.ctor_fill h cols rows value).1 ∧
    (matrix.ctor_fill h cols rows value).2.sound (matrix.ctor_fill h cols rows value).1 := by
  have ha := matrix.allocate_ext h (matrix.ctor_size cols rows)
  simp only [matrix.ctor_fill, matrix.sound]
  refine ⟨Heap.ext_trans ha.1 (Heap.ext_of_blockLen_eq (length_fill _ _ _ _)
    (blockLen_fill _ _ _ _)), trivial, ?_⟩
  rw [blockLen_fill]
  exact ha.2.1

theorem matrix.sound_ctor_sized [Inhabited T] (h : Heap T) (cols rows : Nat) :
    h.ext (matrix.ctor_sized h cols rows).1 ∧
    (matrix.ctor_sized h cols rows).2.sound (matrix.ctor_sized h cols rows).1 :=
  matrix.sound_ctor_fill h cols rows default

theorem matrix.sound_ctor_copy (h : Heap T) (other : matrix) (hs : other.sound h) :
    h.ext (matrix.ctor_copy h other).1 ∧
    (matrix.ctor_copy h other).2.sound (matrix.ctor_copy h other).1 := by
  have ha := matrix.allocate_ext h other.m_size
  simp only [matrix.ctor_copy, matrix.sound]
  refine ⟨Heap.ext_trans ha.1 (Heap.ext_of_blockLen_eq (length_copy _ _ _ _)
    (blockLen_copy _ _ _ _)), hs.1, ?_⟩
  rw [blockLen_copy]
  exact ha.2.1

theorem matrix.sound_assign_copy (h : Heap T) (this other : matrix) (hs : other.sound h) :
    h.ext (matrix.assign_copy h this other).1 ∧
    (matrix.assign_copy h this other).2.sound (matrix.assign_copy h this other).1 := by
  have ha := matrix.allocate_ext h other.m_size
  simp only [matrix.assign_copy, matrix.sound]
  refine ⟨Heap.ext_trans ha.1 (Heap.ext_of_blockLen_eq (length_copy _ _ _ _)
    (blockLen_copy _ _ _ _)), hs.1, ?_⟩
  rw [blockLen_copy]
  exact ha.2.1

theorem matrix.sound_assign_copy_self (h : Heap T) (this : matrix) (hs : this.sound h) :
    h.ext (matrix.assign_copy_self h this).1 ∧
    (matrix.assign_copy_self h this).2.sound (matrix.assign_copy_self h this).1 := by
  have ha := matrix.allocate_ext h this.m_size
  simp only [matrix.assign_copy_self, matrix.sound]
  refine ⟨Heap.ext_trans ha.1 (Heap.ext_of_blockLen_eq (length_copy _ _ _ _)
    (blockLen_copy _ _ _ _)), hs.1, ?_⟩
  rw [blockLen_copy]
  exact ha.2.1

theorem matrix.sound_moved_to (h : Heap T) (other : matrix) (hs : other.sound h) :
    (matrix.ctor_move other).1.sound h := hs

theorem matrix.sound_moved_from (h : Heap T) (other : matrix) :
    (matrix.ctor_move other).2.sound h :=
  ⟨matrix.ctor_size_zero.symm, Nat.zero_le _⟩

theorem matrix.sound_assign_move_self (h : Heap T) (this : matrix) :
    (matrix.assign_move_self this).sound h :=
  ⟨matrix.ctor_size_zero.symm, Nat.zero_le _⟩

theorem matrix.sound_clear (h : Heap T) (m : matrix) (hs : m.sound h) :
    h.ext (matrix.clear h m).1 ∧ (matrix.clear h m).2.sound (matrix.clear h m).1 := by
  rw [matrix.clear_eq]
  split
  · exact ⟨Heap.ext_of_blockLen_eq (length_destroy _ _ _) (blockLen_destroy _ _ _),
      matrix.ctor_size_zero.symm, Nat.zero_le _⟩
  · exact ⟨Heap.ext_refl h, hs⟩

theorem matrix.dtor_null (h : Heap T) (this : matrix) (hn : this.m_data = nullptr) :
    (matrix.dtor h this).1 = h := by
  unfold matrix.dtor
  simp [hn]

theorem matrix.blockLen_dtor (h : Heap T) (this : matrix) (b : Nat)
    (hb : b ≠ this.m_data.block) : (matrix.dtor h this).1.blockLen b = h.blockLen b := by
  unfold matrix.dtor matrix._M_deallocate
  by_cases hd : this.m_data ≠ nullptr
  · simp only [if_pos hd]
    rw [Heap.blockLen_free _ _ _ hb, blockLen_destroy]
  · simp only [if_neg hd]

theorem matrix.ctor_copy_data (h : Heap T) (other : matrix) :
    (other.m_size = 0 → (matrix.ctor_copy h other).2.m_data = nullptr) ∧
    (other.m_size ≠ 0 →
      (matrix.ctor_copy h other).2.m_data.block = h.blocks.length + 1 ∧
      (matrix.ctor_copy h other).1.blocks.length = h.blocks.length + 1) := by
  have ha := matrix.allocate_ext h other.m_size
  simp only [matrix.ctor_copy, length_copy]
  exact ⟨fun h0 => (ha.2.2.2 h0).1, ha.2.2.1⟩

theorem matrix.assign_copy_data (h : Heap T) (this other : matrix) :
    (other.m_size = 0 → (matrix.assign_copy h this other).2.m_data = nullptr) ∧
    (other.m_size ≠ 0 →
      (matrix.assign_copy h this other).2.m_data.block = h.blocks.length + 1 ∧
      (matrix.assign_copy h this other).1.blocks.length = h.blocks.length + 1) := by
  have ha := matrix.allocate_ext h other.m_size
  simp only [matrix.assign_copy, length_copy]
  exact ⟨fun h0 => (ha.2.2.2 h0).1, ha.2.2.1⟩

/-- Destroying the local `tmp` of `swap` does not touch a block that is not the one `tmp`
owns. -/
theorem matrix.blockLen_dtor_copy (h h3 : Heap T) (other : matrix) (b : Nat)
    (hb : other.m_size ≠ 0 → b ≠ h.blocks.length + 1) :
    (matrix.dtor h3 (matrix.ctor_copy h other).2).1.blockLen b = h3.blockLen b := by
  by_cases h0 : other.m_size = 0
  · rw [matrix.dtor_null _ _ ((matrix.ctor_copy_data h other).1 h0)]
  · exact matrix.blockLen_dtor _ _ _
      (by rw [((matrix.ctor_copy_data h other).2 h0).1]; exact hb h0)

theorem matrix.sound_swap (h : Heap T) (this other : matrix) (hvt : this.valid h)
    (hvo : other.valid h) (hst : this.sound h) (hso : other.sound h) :
    h.ext (matrix.swap h this other).1 ∧
    (matrix.swap h this other).2.1.sound (matrix.swap h this other).1 ∧
    (matrix.swap h this other).2.2.sound (matrix.swap h this other).1 := by
  have vc := matrix.valid_ctor_copy h other hvo
  have sc := matrix.sound_ctor_copy h other hso
  have v1 := matrix.valid_assign_copy (matrix.ctor_copy h other).1 other this
    (matrix.valid_mono hvt vc.1)
  have s1 := matrix.sound_assign_copy (matrix.ctor_copy h other).1 other this
    (matrix.sound_mono hvt hst sc.1)
  have v2 := matrix.valid_assign_copy
    (matrix.assign_copy (matrix.ctor_copy h other).1 other this).1 this
    (matrix.ctor_copy h other).2 (matrix.valid_mono vc.2 v1.1)
  have s2 := matrix.sound_assign_copy
    (matrix.assign_copy (matrix.ctor_copy h other).1 other this).1 this
    (matrix.ctor_copy h other).2 (matrix.sound_mono vc.2 sc.2 s1.1)
  have d1 := matrix.assign_copy_data (matrix.ctor_copy h other).1 other this
  have d2 := matrix.assign_copy_data
    (matrix.assign_copy (matrix.ctor_copy h other).1 other this).1 this
    (matrix.ctor_copy h other).2
  have e03 := Heap.ext_trans sc.1 (Heap.ext_trans s1.1 s2.1)
  simp only [matrix.swap]
  refine ⟨⟨?_, ?_⟩, ⟨s2.2.1, ?_⟩, ⟨s1.2.1, ?_⟩⟩
  · rw [matrix.length_dtor]
    exact e03.1
  · intro b hb
    rw [matrix.blockLen_dtor_copy h _ other b (fun _ => by omega)]
    exact e03.2 b hb
  · by_cases h0 : (matrix.ctor_copy h other).2.m_size = 0
    · rw [show (matrix.assign_copy
          (matrix.assign_copy (matrix.ctor_copy h other).1 other this).1 this
          (matrix.ctor_copy h other).2).2.m_size = (matrix.ctor_copy h other).2.m_size from rfl,
        h0]
      exact Nat.zero_le _
    · have hb := (d2.2 h0).1
      have hl0 := ((matrix.ctor_copy_data h other).2 h0).2
      have hl1 := v1.1
      rw [matrix.blockLen_dtor_copy h _ other _ (fun _ => by rw [hb]; omega)]
      exact s2.2.2
  · by_cases h0 : this.m_size = 0
    · rw [show (matrix.assign_copy (matrix.ctor_copy h other).1 other this).2.m_size =
          this.m_size from rfl, h0]
      exact Nat.zero_le _
    · have hb := (d1.2 h0).1
      rw [matrix.blockLen_dtor_copy h _ other _
        (fun hne => by rw [hb, ((matrix.ctor_copy_data h other).2 hne).2]; omega)]
      rw [s2.1.2 _ v1.2.2.2]
      exact s1.2.2

theorem matrix.sound_swap_self (h : Heap T) (this : matrix) (hvt : this.valid h)
    (hst : this.sound h) :
    h.ext (matrix.swap_self h this).1 ∧
    (matrix.swap_self h this).2.sound (matrix.swap_self h this).1 := by
  have vc := matrix.valid_ctor_copy h this hvt
  have sc := matrix.sound_ctor_copy h this hst
  have v1 := matrix.valid_assign_copy_self (matrix.ctor_copy h this).1 this
    (matrix.valid_mono hvt vc.1)
  have s1 := matrix.sound_assign_copy_self (matrix.ctor_copy h this).1 this
    (matrix.sound_mono hvt hst sc.1)
  have v2 := matrix.valid_assign_copy
    (matrix.assign_copy_self (matrix.ctor_copy h this).1 this).1
    (matrix.assign_copy_self (matrix.ctor_copy h this).1 this).2
    (matrix.ctor_copy h this).2 (matrix.valid_mono vc.2 v1.1)
  have s2 := matrix.sound_assign_copy
    (matrix.assign_copy_self (matrix.ctor_copy h this).1 this).1
    (matrix.assign_copy_self (matrix.ctor_copy h this).1 this).2
    (matrix.ctor_copy h this).2 (matrix.sound_mono vc.2 sc.2 s1.1)
  have d2 := matrix.assign_copy_data
    (matrix.assign_copy_self (matrix.ctor_copy h this).1 this).1
    (matrix.assign_copy_self (matrix.ctor_copy h this).1 this).2
    (matrix.ctor_copy h this).2
  have e03 := Heap.ext_trans sc.1 (Heap.ext_trans s1.1 s2.1)
  simp only [matrix.swap_self]
  refine ⟨⟨?_, ?_⟩, ⟨s2.2.1, ?_⟩⟩
  · rw [matrix.length_dtor]
    exact e03.1
  · intro b hb
    rw [matrix.blockLen_dtor_copy h _ this b (fun _ => by omega)]
    exact e03.2 b hb
  · by_cases h0 : (matrix.ctor_copy h this).2.m_size = 0
    · rw [show (matrix.assign_copy
          (matrix.assign_copy_self (matrix.ctor_copy h this).1 this).1
          (matrix.assign_copy_self (matrix.ctor_copy h this).1 this).2
          (matrix.ctor_copy h this).2).2.m_size = (matrix.ctor_copy h this).2.m_size from rfl,
        h0]
      exact Nat.zero_le _
    · have hb := (d2.2 h0).1
      have hl0 := ((matrix.ctor_copy_data h this).2 h0).2
      have hl1 := v1.1
      rw [matrix.blockLen_dtor_copy h _ this _ (fun _ => by rw [hb]; omega)]
      exact s2.2.2

theorem mem_append_singleton_sound {h h1 : Heap T} {objs : List matrix} {x m : matrix}
    (hval : ∀ o ∈ objs, o.valid h) (hall : ∀ o ∈ objs, o.sound h) (hext : h.ext h1)
    (hx : x.sound h1) (hm : m ∈ objs ++ [x]) : m.sound h1 := by
  rcases List.mem_append.1 hm with ho | hn
  · exact matrix.sound_mono (hval m ho) (hall m ho) hext
  · rw [List.mem_singleton.1 hn]
    exact hx

theorem mem_set_sound {h h1 : Heap T} {objs : List matrix} {x m : matrix} {i : Nat}
    (hval : ∀ o ∈ objs, o.valid h) (hall : ∀ o ∈ objs, o.sound h) (hext : h.ext h1)
    (hx : x.sound h1) (hm : m ∈ objs.set i x) : m.sound h1 := by
  rcases List.mem_or_eq_of_mem_set hm with ho | hn
  · exact matrix.sound_mono (hval m ho) (hall m ho) hext
  · rw [hn]
    exact hx

theorem mem_set_set_sound {h h1 : Heap T} {objs : List matrix} {x y m : matrix} {i j : Nat}
    (hval : ∀ o ∈ objs, o.valid h) (hall : ∀ o ∈ objs, o.sound h) (hext : h.ext h1)
    (hx : x.sound h1) (hy : y.sound h1) (hm : m ∈ (objs.set j y).set i x) : m.sound h1 := by
  rcases List.mem_or_eq_of_mem_set hm with ho | hn
  · exact mem_set_sound hval hall hext hy ho
  · rw [hn]
    exact hx

/-- One public operation keeps the shape and storage relations of every matrix object. -/
theorem World.step_sound [Inhabited T] (w w1 : World T) (op : Op T)
    (hval : ∀ o ∈ w.objs, o.valid w.heap) (hall : ∀ o ∈ w.objs, o.sound w.heap)
    (hstep : w.step op = some w1) : ∀ o ∈ w1.objs, o.sound w1.heap := by
  intro m hm
  cases op with
  | ctor_default =>
    simp only [World.step, Option.some.injEq] at hstep
    subst hstep
    exact mem_append_singleton_sound hval hall (Heap.ext_refl _) (matrix.sound_ctor _) hm
  | ctor_sized cols rows =>
    simp only [World.step] at hstep
    split at hstep
    · simp only [Option.some.injEq] at hstep
      subst hstep
      have hs := matrix.sound_ctor_sized w.heap cols rows
      exact mem_append_singleton_sound hval hall hs.1 hs.2 hm
    · cases hstep
  | ctor_fill cols rows value =>
    simp only [World.step] at hstep
    split at hstep
    · simp only [Option.some.injEq] at hstep
      subst hstep
      have hs := matrix.sound_ctor_fill w.heap cols rows value
      exact mem_append_singleton_sound hval hall hs.1 hs.2 hm
    · cases hstep
  | ctor_copy other =>
    simp only [World.step] at hstep
    split at hstep
    · rename_i o ho
      simp only [Option.some.injEq] at hstep
      subst hstep
      have hs := matrix.sound_ctor_copy w.heap o (hall o (List.get?_mem ho))
      exact mem_append_singleton_sound hval hall hs.1 hs.2 hm
    · cases hstep
  | ctor_move other =>
    simp only [World.step] at hstep
    split at hstep
    · rename_i o ho
      simp only [Option.some.injEq] at hstep
      subst hstep
      rcases List.mem_append.1 hm with hold | hnew
      · exact mem_set_sound hval hall (Heap.ext_refl _) (matrix.sound_moved_from w.heap o) hold
      · rw [List.mem_singleton.1 hnew]
        exact matrix.sound_moved_to w.heap o (hall o (List.get?_mem ho))
    · cases hstep
  | assign_copy this other =>
    simp only [World.step] at hstep
    split at hstep
    · rename_i t o ht ho
      split at hstep
      · simp only [Option.some.injEq] at hstep
        subst hstep
        have hs := matrix.sound_assign_copy_self w.heap t (hall t (List.get?_mem ht))
        exact mem_set_sound hval hall hs.1 hs.2 hm
      · simp only [Option.some.injEq] at hstep
        subst hstep
        have hs := matrix.sound_assign_copy w.heap t o (hall o (List.get?_mem ho))
        exact mem_set_sound hval hall hs.1 hs.2 hm
    · cases hstep
  | assign_move this other =>
    simp only [World.step] at hstep
    split at hstep
    · rename_i t o ht ho
      split at hstep
      · simp only [Option.some.injEq] at hstep
        subst hstep
        exact mem_set_sound hval hall (Heap.ext_refl _)
          (matrix.sound_assign_move_self w.heap t) hm
      · simp only [Option.some.injEq] at hstep
        subst hstep
        exact mem_set_set_sound hval hall (Heap.ext_refl _)
          (matrix.sound_moved_to w.heap o (hall o (List.get?_mem ho)))
          (matrix.sound_moved_from w.heap o) hm
    · cases hstep
  | swap this other =>
    simp only [World.step] at hstep
    split at hstep
    · rename_i t o ht ho
      split at hstep
      · simp only [Option.some.injEq] at hstep
        subst hstep
        have hs := matrix.sound_swap_self w.heap t (hval t (List.get?_mem ht))
          (hall t (List.get?_mem ht))
        exact mem_set_sound hval hall hs.1 hs.2 hm
      · simp only [Option.some.injEq] at hstep
        subst hstep
        have hs := matrix.sound_swap w.heap t o (hval t (List.get?_mem ht))
          (hval o (List.get?_mem ho)) (hall t (List.get?_mem ht)) (hall o (List.get?_mem ho))
        exact mem_set_set_sound hval hall hs.1 hs.2.1 hs.2.2 hm
    · cases hstep
  | clear this =>
    simp only [World.step] at hstep
    split at hstep
    · rename_i t ht
      simp only [Option.some.injEq] at hstep
      subst hstep
      have hs := matrix.sound_clear w.heap t (hall t (List.get?_mem ht))
      exact mem_set_sound hval hall hs.1 hs.2 hm
    · cases hstep
  | write this index value =>
    simp only [World.step] at hstep
    split at hstep
    · split at hstep
      · simp only [Option.some.injEq] at hstep
        subst hstep
        exact matrix.sound_mono (hval m hm) (hall m hm)
          (Heap.ext_of_blockLen_eq (Heap.length_store _ _ _) (Heap.blockLen_store _ _ _))
      · cases hstep
    · cases hstep

/-- In every reachable program state each matrix has the size its shape calls for and a
buffer of at least that many slots. -/
theorem Reachable.objs_sound [Inhabited T] {w : World T} (hw : Reachable w) :
    ∀ o ∈ w.objs, o.sound w.heap := by
  induction hw with
  | init =>
    intro o ho
    simp [World.init] at ho
  | step op hw0 hstep ih => exact World.step_sound _ _ op hw0.objs_valid ih hstep

end Sound

theorem one_dimension_world_reachable : Reachable one_dimension_world :=
  Reachable.step (Op.ctor_sized 5 0) Reachable.init
    (by simp [World.step, World.init, one_dimension_world])

/-- C15 as stated fails: after `matrix<int> m(5, 0)` the shape is (5, 0), not (0, 0), and
`column_size() * row_size()` is 0 while `size()` is 5. -/
theorem shape_product_counterexample :
    Reachable one_dimension_world ∧
    (matrix.ctor_sized (Heap.empty : Heap Int) 5 0).2 ∈ one_dimension_world.objs ∧
    (matrix.ctor_sized (Heap.empty : Heap Int) 5 0).2.column_size *
      (matrix.ctor_sized (Heap.empty : Heap Int) 5 0).2.row_size ≠
      (matrix.ctor_sized (Heap.empty : Heap Int) 5 0).2.size ∧
    ¬ ((matrix.ctor_sized (Heap.empty : Heap Int) 5 0).2.column_size = 0 ∧
       (matrix.ctor_sized (Heap.empty : Heap Int) 5 0).2.row_size = 0) :=
  ⟨one_dimension_world_reachable, by simp [one_dimension_world], by decide, by decide⟩

/-- C15 as amended: in every reachable matrix state `column_size() * row_size() == size()`
unless that product is 0, and then `size() == max(column_size(), row_size())`; the product is
the `size_type` product, which is the plain product whenever that is representable. -/
theorem shape_product_or_max {T : Type} [Inhabited T] (w : World T) (hw : Reachable w)
    (m : matrix) (hm : m ∈ w.objs) :
    (size_mul m.column_size m.row_size ≠ 0 → size_mul m.column_size m.row_size = m.size) ∧
    (size_mul m.column_size m.row_size = 0 → m.size = max m.column_size m.row_size) ∧
    (m.column_size * m.row_size < 2 ^ 64 → m.column_size * m.row_size ≠ 0 →
      m.column_size * m.row_size = m.size) := by
  have hs := (hw.objs_sound m hm).1
  simp only [matrix.column_size, matrix.row_size, matrix.size]
  refine ⟨?_, ?_, ?_⟩
  · intro hne
    rw [hs, matrix.ctor_size, if_pos hne]
  · intro h0
    rw [hs, matrix.ctor_size, if_neg (by simpa using h0)]
  · intro hrep hne
    have hmul : size_mul m.m_columns m.m_rows = m.m_columns * m.m_rows :=
      Nat.mod_eq_of_lt hrep
    rw [hs, matrix.ctor_size, hmul, if_pos hne]

/-- C15 as amended at `matrix<int> m(5, 0)`: the product is 0 and the size is
`max(5, 0)`. -/
theorem shape_product_or_max_witness :
    (matrix.ctor_sized (Heap.empty : Heap Int) 5 0).2.size =
      max (matrix.ctor_sized (Heap.empty : Heap Int) 5 0).2.column_size
        (matrix.ctor_sized (Heap.empty : Heap Int) 5 0).2.row_size :=
  (shape_product_or_max one_dimension_world one_dimension_world_reachable
    (matrix.ctor_sized (Heap.empty : Heap Int) 5 0).2 (by simp [one_dimension_world])).2.1
    (by decide)

theorem moved_from_test_reachable : Reachable moved_from_test :=
  @Reachable.step Int _ move_test moved_from_test (Op.ctor_move 0) move_test_reachable
    (by simp [World.step, move_test, moved_from_test])

theorem clear_copy_world_reachable : Reachable clear_copy_world :=
  @Reachable.step Int _
    { heap := (matrix.clear (matrix.ctor_fill (Heap.empty : Heap Int) 10 10 1).1
        (matrix.ctor_fill (Heap.empty : Heap Int) 10 10 1).2).1,
      objs := [(matrix.clear (matrix.ctor_fill (Heap.empty : Heap Int) 10 10 1).1
        (matrix.ctor_fill (Heap.empty : Heap Int) 10 10 1).2).2] }
    clear_copy_world (Op.ctor_copy 0)
    (@Reachable.step Int _
      { heap := (matrix.ctor_fill (Heap.empty : Heap Int) 10 10 1).1,
        objs := [(matrix.ctor_fill (Heap.empty : Heap Int) 10 10 1).2] }
      _ (Op.clear 0)
      (Reachable.step (Op.ctor_fill 10 10 1) Reachable.init (by simp [World.step, World.init]))
      (by simp [World.step]))
    (by simp [World.step, clear_copy_world])

/-- C16 fails: after `matrix<int> m(10, 10, 1); matrix<int> k(std::move(m));` the moved-from
`m` reports capacity 100 with a null buffer, and after `m.clear(); matrix<int> n(m);` the
copy `n` reports capacity 100 with a null buffer: in both the owned buffer has 0 slots. -/
theorem capacity_exceeds_buffer :
    (Reachable moved_from_test ∧
      moved_from_test.objs.get? 0 =
        some (matrix.ctor_move (matrix.ctor_fill (Heap.empty : Heap Int) 10 10 1).2).2 ∧
      (matrix.ctor_move (matrix.ctor_fill (Heap.empty : Heap Int) 10 10 1).2).2.capacity = 100 ∧
      (matrix.ctor_move (matrix.ctor_fill (Heap.empty : Heap Int) 10 10 1).2).2.data = nullptr ∧
      moved_from_test.heap.blockLen
        (matrix.ctor_move (matrix.ctor_fill (Heap.empty : Heap Int) 10 10 1).2).2.data.block
        = 0) ∧
    (Reachable clear_copy_world ∧
      ∃ n, clear_copy_world.objs.get? 1 = some n ∧ n.capacity = 100 ∧ n.data = nullptr ∧
        clear_copy_world.heap.blockLen n.data.block = 0) := by
  refine ⟨⟨moved_from_test_reachable, rfl, by decide, by decide, rfl⟩,
    ⟨clear_copy_world_reachable, _, rfl, by decide, by decide, rfl⟩⟩

/-! ## `flatten()` -/

theorem copy_n_eq {T : Type} (h : Heap T) (first : Ptr) (n : Nat) (result : Ptr) :
    copy_n h first n result = uninitialized_copy_n h first n result := by
  induction n generalizing h first result with
  | zero => rfl
  | succ n ih => rw [copy_n, uninitialized_copy_n, ih]

theorem Ptr.plus_natCast (p : Ptr) (n : Nat) : p.plus (n : Int) = p.add n := by
  unfold Ptr.plus Ptr.add
  have h1 : ((p.off : Int) + (n : Int)) % 2 ^ 64 = (((p.off + n) % 2 ^ 64 : Nat) : Int) := by
    push_cast
    rfl
  rw [h1, Int.toNat_ofNat]

theorem matrix.begin_plus_deref (m : matrix) (i : Nat) :
    (m.begin.plus (i : Int)).deref = m.index i := by
  simp only [normal_iterator.deref, normal_iterator.plus, matrix.begin, iterator_ops.deref,
    iterator_ops.plus, matrix.index, Ptr.plus_natCast]

/-- What `flatten()` does to memory, for a sound matrix. -/
theorem matrix.flatten_spec {T : Type} [Inhabited T] (h : Heap T) (m : matrix)
    (hv : m.valid h) :
    (∀ q : Ptr, q.block ≤ h.blocks.length → (m.flatten h).1.read q = h.read q) ∧
    (∀ i, i < m.m_size → (m.flatten h).1.read ((m.flatten h).2.index i) =
      h.read (m.index i)) := by
  obtain ⟨⟨_, _, hs, _, _⟩, ho, hb⟩ := hv
  obtain ⟨c, r, n, cap, ⟨sb, so⟩⟩ := m
  simp only at hs ho hb
  subst ho
  have hne : sb ≠ h.blocks.length + 1 := by omega
  have hfill : ∀ q : Ptr, q.block ≤ h.blocks.length →
      (uninitialized_fill_n (h.alloc n).1 ⟨h.blocks.length + 1, 0⟩ n default).read q =
        h.read q := by
    intro q hq
    rw [read_fill _ _ 0 _ _ _ (by rw [Heap.blockLen_alloc_new]; omega) (by omega),
      if_neg (by omega), Heap.read_alloc h n q hq]
  have hrd : ∀ q : Ptr,
      (matrix.flatten h ⟨c, r, n, cap, ⟨sb, 0⟩⟩).1.read q =
        if q.block = h.blocks.length + 1 ∧ 0 ≤ q.off ∧ q.off < 0 + n then
          h.read ⟨sb, 0 + (q.off - 0)⟩
        else (uninitialized_fill_n (h.alloc n).1 ⟨h.blocks.length + 1, 0⟩ n default).read
          q := by
    intro q
    simp only [matrix.flatten, copy_n_eq]
    rw [show (h.alloc n).2 = ⟨h.blocks.length + 1, 0⟩ from rfl,
      read_copy _ sb 0 (h.blocks.length + 1) 0 n q hne
        (by rw [blockLen_fill, Heap.blockLen_alloc_new]; omega) (by omega) (by omega)]
    rw [hfill ⟨sb, 0 + (q.off - 0)⟩ hb]
  refine ⟨?_, ?_⟩
  · intro q hq
    rw [hrd q, if_neg (by omega), hfill q hq]
  · intro i hi
    simp only at hi
    have hi2 : i < 2 ^ 64 := by omega
    have hp : (matrix.flatten h ⟨c, r, n, cap, ⟨sb, 0⟩⟩).2.index i =
        ⟨h.blocks.length + 1, i⟩ := by
      simp only [matrix.flatten, vector.index, Heap.alloc, Ptr.add, Nat.zero_add,
        Nat.mod_eq_of_lt hi2]
    have hsrc : (⟨c, r, n, cap, ⟨sb, 0⟩⟩ : matrix).index i = ⟨sb, i⟩ := by
      simp only [matrix.index, Ptr.add, Nat.zero_add, Nat.mod_eq_of_lt hi2]
    rw [hp, hrd, if_pos ⟨rfl, Nat.zero_le _, by simpa using hi⟩, hsrc]
    simp

/-- C17: for every reachable matrix `m`, `m.flatten()` returns a vector of `m.size()`
elements whose element `i` is the element `*(m.begin() + i)`, that is `m[i]`, for every
`i < m.size()`; `flatten()` assigns no data member, and every element that existed before,
those of `m` among them, is unchanged.  The vector is a copy: its buffer is a block of
`m.size()` slots that did not exist before, the buffer of no matrix of the program, so a
later store into the vector leaves every element of `m` (and every other object that existed)
as it was, and a later store into `m` leaves every element of the vector. -/
theorem flatten_copies_elements {T : Type} [Inhabited T] (w : World T) (hw : Reachable w)
    (m : matrix) (hm : m ∈ w.objs) :
    (m.flatten w.heap).2.size = m.size ∧
    (∀ i, i < m.size →
      (m.flatten w.heap).1.read ((m.flatten w.heap).2.index i) =
        w.heap.read (m.begin.plus (i : Int)).deref ∧
      (m.begin.plus (i : Int)).deref = m.index i) ∧
    (∀ i, (m.flatten w.heap).1.read (m.index i) = w.heap.read (m.index i)) ∧
    (∀ q : Ptr, q.block ≤ w.heap.blocks.length →
      (m.flatten w.heap).1.read q = w.heap.read q) ∧
    (w.heap.blocks.length < (m.flatten w.heap).2.data.block ∧
      (m.flatten w.heap).2.data.block ≤ (m.flatten w.heap).1.blocks.length ∧
      (m.flatten w.heap).1.blockLen (m.flatten w.heap).2.data.block = m.size ∧
      ∀ o, o ∈ w.objs → o.data.block ≠ (m.flatten w.heap).2.data.block) ∧
    (∀ (j : Nat) (s : Option T),
      (∀ i, ((m.flatten w.heap).1.store ((m.flatten w.heap).2.index j) s).read (m.index i) =
        w.heap.read (m.index i)) ∧
      ∀ q : Ptr, q.block ≤ w.heap.blocks.length →
        ((m.flatten w.heap).1.store ((m.flatten w.heap).2.index j) s).read q =
          w.heap.read q) ∧
    (∀ (i j : Nat) (s : Option T),
      ((m.flatten w.heap).1.store (m.index i) s).read ((m.flatten w.heap).2.index j) =
        (m.flatten w.heap).1.read ((m.flatten w.heap).2.index j)) := by
  have hv := hw.objs_valid m hm
  have hspec := matrix.flatten_spec w.heap m hv
  have hblock : (m.flatten w.heap).2.data.block = w.heap.blocks.length + 1 := rfl
  have hvb : ∀ j, ((m.flatten w.heap).2.index j).block = w.heap.blocks.length + 1 :=
    fun _ => rfl
  have hold : ∀ (j : Nat) (s : Option T) (q : Ptr), q.block ≤ w.heap.blocks.length →
      ((m.flatten w.heap).1.store ((m.flatten w.heap).2.index j) s).read q =
        w.heap.read q := by
    intro j s q hq
    rw [Heap.read_store_block_ne _ _ _ _ (by rw [hvb]; omega)]
    exact hspec.1 q hq
  refine ⟨rfl, fun i hi => ⟨?_, matrix.begin_plus_deref m i⟩,
    fun i => hspec.1 _ hv.2.2, hspec.1, ⟨?_, ?_, ?_, ?_⟩,
    fun j s => ⟨fun i => hold j s _ hv.2.2, hold j s⟩, ?_⟩
  · rw [matrix.begin_plus_deref]
    exact hspec.2 i hi
  · rw [hblock]
    exact Nat.lt_succ_self _
  · rw [hblock]
    simp only [matrix.flatten, copy_n_eq, length_copy, length_fill, Heap.length_alloc]
    exact Nat.le_refl _
  · rw [hblock]
    simp only [matrix.flatten, copy_n_eq, blockLen_copy, blockLen_fill,
      Heap.blockLen_alloc_new, matrix.size]
  · intro o ho
    have hob := (hw.objs_valid o ho).2.2
    rw [hblock]
    simp only [matrix.data]
    omega
  · intro i j s
    have hib : (m.index i).block = m.m_data.block := rfl
    exact Heap.read_store_block_ne _ _ _ _ (by rw [hvb, hib]; have := hv.2.2; omega)

/-- C17 at `matrix<int> m(10, 10, 1)`: the vector has the size of `m` and its last element
is `m[99]`. -/
theorem flatten_copies_elements_witness :
    ((matrix.ctor_fill (Heap.empty : Heap Int) 10 10 1).2.flatten move_test.heap).2.size =
      (matrix.ctor_fill (Heap.empty : Heap Int) 10 10 1).2.size ∧
    ((matrix.ctor_fill (Heap.empty : Heap Int) 10 10 1).2.flatten move_test.heap).1.read
      (((matrix.ctor_fill (Heap.empty : Heap Int) 10 10 1).2.flatten
        move_test.heap).2.index 99) =
      move_test.heap.read
        ((matrix.ctor_fill (Heap.empty : Heap Int) 10 10 1).2.begin.plus (99 : Nat)).deref ∧
    (matrix.ctor_fill (Heap.empty : Heap Int) 10 10 1).2.data.block ≠
      ((matrix.ctor_fill (Heap.empty : Heap Int) 10 10 1).2.flatten
        move_test.heap).2.data.block ∧
    (((matrix.ctor_fill (Heap.empty : Heap Int) 10 10 1).2.flatten move_test.heap).1.store
      (((matrix.ctor_fill (Heap.empty : Heap Int) 10 10 1).2.flatten
        move_test.heap).2.index 99) (some 2)).read
      ((matrix.ctor_fill (Heap.empty : Heap Int) 10 10 1).2.index 99) =
      move_test.heap.read ((matrix.ctor_fill (Heap.empty : Heap Int) 10 10 1).2.index 99) :=
  ⟨(flatten_copies_elements move_test move_test_reachable
      (matrix.ctor_fill (Heap.empty : Heap Int) 10 10 1).2 (by simp [move_test])).1,
   ((flatten_copies_elements move_test move_test_reachable
      (matrix.ctor_fill (Heap.empty : Heap Int) 10 10 1).2 (by simp [move_test])).2.1 99
      (by decide)).1,
   (flatten_copies_elements move_test move_test_reachable
      (matrix.ctor_fill (Heap.empty : Heap Int) 10 10 1).2
      (by simp [move_test])).2.2.2.2.1.2.2.2 _ (by simp [move_test]),
   ((flatten_copies_elements move_test move_test_reachable
      (matrix.ctor_fill (Heap.empty : Heap Int) 10 10 1).2
      (by simp [move_test])).2.2.2.2.2.1 99 (some 2)).1 99⟩

/-! ## `swap()` -/

section Swap

variable {T : Type}

theorem read_destroy_block_ne (h : Heap T) (first : Ptr) (n : Nat) (q : Ptr)
    (hq : q.block ≠ first.block) : (destroy_n h first n).read q = h.read q := by
  induction n generalizing h first with
  | zero => rfl
  | succ n ih =>
    rw [destroy_n, ih (h.store first none) (first.add 1) hq, Heap.read_store_block_ne _ _ _ _ hq]

theorem Heap.read_free (h : Heap T) (p q : Ptr) (hq : q.block ≠ p.block) :
    (h.free p).read q = h.read q := by
  unfold Heap.read
  rw [Heap.block_free, if_neg hq]

theorem matrix.read_dtor (h : Heap T) (this : matrix) (q : Ptr)
    (hq : q.block ≠ this.m_data.block) : (matrix.dtor h this).1.read q = h.read q := by
  unfold matrix.dtor matrix._M_deallocate
  by_cases hd : this.m_data ≠ nullptr
  · simp only [if_pos hd]
    rw [Heap.read_free _ _ _ hq, read_destroy_block_ne _ _ _ _ hq]
  · simp only [if_neg hd]

theorem matrix.read_dtor_copy (h h3 : Heap T) (other : matrix) (q : Ptr)
    (hq : other.m_size ≠ 0 → q.block ≠ h.blocks.length + 1) :
    (matrix.dtor h3 (matrix.ctor_copy h other).2).1.read q = h3.read q := by
  by_cases h0 : other.m_size = 0
  · rw [matrix.dtor_null _ _ ((matrix.ctor_copy_data h other).1 h0)]
  · exact matrix.read_dtor _ _ _
      (by rw [((matrix.ctor_copy_data h other).2 h0).1]; exact hq h0)

theorem matrix.index_block (m : matrix) (i : Nat) : (m.index i).block = m.m_data.block := rfl

theorem matrix.ctor_copy_reads (h : Heap T) (other : matrix) (hv : other.valid h) :
    (∀ q : Ptr, q.block ≤ h.blocks.length → (matrix.ctor_copy h other).1.read q = h.read q) ∧
    (∀ i, i < other.m_size →
      (matrix.ctor_copy h other).1.read ((matrix.ctor_copy h other).2.index i) =
        h.read (other.index i)) :=
  ⟨(matrix.copy_spec h other hv).1,
   fun i hi => ((matrix.copy_elements h other (matrix.ctor_copy h other).2 hv rfl).1 i hi).1⟩

theorem matrix.assign_copy_reads (h : Heap T) (this other : matrix) (hv : other.valid h) :
    (∀ q : Ptr, q.block ≤ h.blocks.length →
      (matrix.assign_copy h this other).1.read q = h.read q) ∧
    (∀ i, i < other.m_size →
      (matrix.assign_copy h this other).1.read ((matrix.assign_copy h this other).2.index i) =
        h.read (other.index i)) :=
  ⟨(matrix.copy_spec h other hv).1,
   fun i hi =>
     ((matrix.copy_elements h other (matrix.assign_copy h this other).2 hv rfl).1 i hi).1⟩

/-- What `swap` does for two different sound objects: each ends up with the size, the shape
and the elements the other one had. -/
theorem matrix.swap_spec (h : Heap T) (this other : matrix) (hvt : this.valid h)
    (hvo : other.valid h) :
    ((matrix.swap h this other).2.1.m_size = other.m_size ∧
      (matrix.swap h this other).2.1.m_rows = other.m_rows ∧
      (matrix.swap h this other).2.1.m_columns = other.m_columns ∧
      ∀ i, i < other.m_size →
        (matrix.swap h this other).1.read ((matrix.swap h this other).2.1.index i) =
          h.read (other.index i)) ∧
    ((matrix.swap h this other).2.2.m_size = this.m_size ∧
      (matrix.swap h this other).2.2.m_rows = this.m_rows ∧
      (matrix.swap h this other).2.2.m_columns = this.m_columns ∧
      ∀ i, i < this.m_size →
        (matrix.swap h this other).1.read ((matrix.swap h this other).2.2.index i) =
          h.read (this.index i)) := by
  have vc := matrix.valid_ctor_copy h other hvo
  have v1 := matrix.valid_assign_copy (matrix.ctor_copy h other).1 other this
    (matrix.valid_mono hvt vc.1)
  have rc := matrix.ctor_copy_reads h other hvo
  have r1 := matrix.assign_copy_reads (matrix.ctor_copy h other).1 other this
    (matrix.valid_mono hvt vc.1)
  have r2 := matrix.assign_copy_reads
    (matrix.assign_copy (matrix.ctor_copy h other).1 other this).1 this
    (matrix.ctor_copy h other).2 (matrix.valid_mono vc.2 v1.1)
  have d1 := matrix.assign_copy_data (matrix.ctor_copy h other).1 other this
  have d2 := matrix.assign_copy_data
    (matrix.assign_copy (matrix.ctor_copy h other).1 other this).1 this
    (matrix.ctor_copy h other).2
  refine ⟨⟨rfl, rfl, rfl, ?_⟩, ⟨rfl, rfl, rfl, ?_⟩⟩
  · intro i hi
    have hne : other.m_size ≠ 0 := by omega
    have hl0 := ((matrix.ctor_copy_data h other).2 hne).2
    have hl1 := v1.1
    simp only [matrix.swap]
    rw [matrix.read_dtor_copy h _ other _
      (fun _ => by rw [matrix.index_block, (d2.2 hne).1]; omega)]
    rw [r2.2 i hi, r1.1 ((matrix.ctor_copy h other).2.index i) vc.2.2.2]
    exact rc.2 i hi
  · intro i hi
    have h0 : this.m_size ≠ 0 := by omega
    have hb1 := (d1.2 h0).1
    simp only [matrix.swap]
    rw [matrix.read_dtor_copy h _ other _
      (fun hne => by
        rw [matrix.index_block, hb1, ((matrix.ctor_copy_data h other).2 hne).2]; omega)]
    rw [r2.1 ((matrix.assign_copy (matrix.ctor_copy h other).1 other this).2.index i)
      v1.2.2.2, r1.2 i hi]
    exact rc.1 (this.index i) hvt.2.2

end Swap

theorem swap_test_reachable : Reachable swap_test :=
  @Reachable.step Int _
    { heap := (matrix.ctor_fill (Heap.empty : Heap Int) 2 3 1).1,
      objs := [(matrix.ctor_fill (Heap.empty : Heap Int) 2 3 1).2] }
    swap_test (Op.ctor_fill 7 4 2)
    (Reachable.step (Op.ctor_fill 2 3 1) Reachable.init (by simp [World.step, World.init]))
    (by simp [World.step, swap_test])

/-- C18: for two different matrices `m` and `n` of a reachable program state, `m.swap(n)`
succeeds, and afterwards `m` has the `size()`, `row_size()`, `column_size()` and elements `n`
had, and `n` has those `m` had. -/
theorem swap_exchanges_contents {T : Type} [Inhabited T] (w : World T) (hw : Reachable w)
    (i j : Nat) (m n : matrix) (hi : w.objs.get? i = some m) (hj : w.objs.get? j = some n)
    (hne : i ≠ j) :
    ∃ w1 m1 n1, w.step (.swap i j) = some w1 ∧
      w1.objs.get? i = some m1 ∧ w1.objs.get? j = some n1 ∧
      (m1.size = n.size ∧ m1.row_size = n.row_size ∧ m1.column_size = n.column_size ∧
        ∀ k, k < n.size → w1.heap.read (m1.index k) = w.heap.read (n.index k)) ∧
      (n1.size = m.size ∧ n1.row_size = m.row_size ∧ n1.column_size = m.column_size ∧
        ∀ k, k < m.size → w1.heap.read (n1.index k) = w.heap.read (m.index k)) := by
  have hvm := hw.objs_valid m (List.get?_mem hi)
  have hvn := hw.objs_valid n (List.get?_mem hj)
  have hil : i < w.objs.length := by
    by_contra hge
    rw [List.get?_eq_none.2 (Nat.le_of_not_lt hge)] at hi
    cases hi
  have hjl : j < w.objs.length := by
    by_contra hge
    rw [List.get?_eq_none.2 (Nat.le_of_not_lt hge)] at hj
    cases hj
  have hspec := matrix.swap_spec w.heap m n hvm hvn
  refine ⟨{ heap := (matrix.swap w.heap m n).1,
            objs := (w.objs.set j (matrix.swap w.heap m n).2.2).set i
              (matrix.swap w.heap m n).2.1 },
          (matrix.swap w.heap m n).2.1, (matrix.swap w.heap m n).2.2, ?_, ?_, ?_,
          hspec.1, hspec.2⟩
  · simp only [World.step, hi, hj, if_neg hne]
  · simp [hil]
  · simp only [List.get?_eq_getElem?, List.getElem?_set_ne hne]
    simp [hjl]

/-- C18 at the test `matrix::swap`: `m(2, 3, 1)` is object 0 and `n(7, 4, 2)` is object 1. -/
theorem swap_exchanges_contents_witness :
    ∃ w1 m1 n1, swap_test.step (.swap 0 1) = some w1 ∧
      w1.objs.get? 0 = some m1 ∧ w1.objs.get? 1 = some n1 ∧
      (m1.size = (matrix.ctor_fill (matrix.ctor_fill (Heap.empty : Heap Int) 2 3 1).1
          7 4 2).2.size ∧
        m1.row_size = (matrix.ctor_fill (matrix.ctor_fill (Heap.empty : Heap Int) 2 3 1).1
          7 4 2).2.row_size ∧
        m1.column_size = (matrix.ctor_fill (matrix.ctor_fill (Heap.empty : Heap Int) 2 3 1).1
          7 4 2).2.column_size ∧
        ∀ k, k < (matrix.ctor_fill (matrix.ctor_fill (Heap.empty : Heap Int) 2 3 1).1
            7 4 2).2.size →
          w1.heap.read (m1.index k) = swap_test.heap.read
            ((matrix.ctor_fill (matrix.ctor_fill (Heap.empty : Heap Int) 2 3 1).1
              7 4 2).2.index k)) ∧
      (n1.size = (matrix.ctor_fill (Heap.empty : Heap Int) 2 3 1).2.size ∧
        n1.row_size = (matrix.ctor_fill (Heap.empty : Heap Int) 2 3 1).2.row_size ∧
        n1.column_size = (matrix.ctor_fill (Heap.empty : Heap Int) 2 3 1).2.column_size ∧
        ∀ k, k < (matrix.ctor_fill (Heap.empty : Heap Int) 2 3 1).2.size →
          w1.heap.read (n1.index k) = swap_test.heap.read
            ((matrix.ctor_fill (Heap.empty : Heap Int) 2 3 1).2.index k)) :=
  swap_exchanges_contents swap_test swap_test_reachable 0 1
    (matrix.ctor_fill (Heap.empty : Heap Int) 2 3 1).2
    (matrix.ctor_fill (matrix.ctor_fill (Heap.empty : Heap Int) 2 3 1).1 7 4 2).2
    rfl rfl (by decide)

/-! ## Traversal -/

theorem normal_iterator.ne_mk (p q : Ptr) :
    (normal_iterator.ne (⟨p⟩ : normal_iterator Ptr matrix) ⟨q⟩) = !decide (p = q) := rfl

theorem normal_iterator.pre_incr_mk (b k : Nat) (hk : k + 1 < 2 ^ 64) :
    (normal_iterator.pre_incr (⟨⟨b, k⟩⟩ : normal_iterator Ptr matrix)) = ⟨⟨b, k + 1⟩⟩ := by
  have h1 : (⟨b, k⟩ : Ptr).plus 1 = ⟨b, k + 1⟩ := by
    have h2 := Ptr.plus_natCast ⟨b, k⟩ 1
    simp only [Nat.cast_one] at h2
    rw [h2]
    simp only [Ptr.add, Nat.mod_eq_of_lt hk]
  simp only [normal_iterator.pre_incr, iterator_ops.incr, h1]

/-- The loop started `d` positions before `__end` visits those `d` positions in order. -/
theorem range_for_from (b n : Nat) (hn : n < 2 ^ 64) (d : Nat) :
    ∀ k fuel, k + d = n → d ≤ fuel →
      range_for ⟨⟨b, n⟩⟩ fuel ⟨⟨b, k⟩⟩ =
        some ((List.range' k d).map (fun i => (⟨b, i⟩ : Ptr))) := by
  induction d with
  | zero =>
    intro k fuel hk _
    have hkn : k = n := by omega
    subst hkn
    cases fuel <;> simp [range_for, normal_iterator.ne_mk]
  | succ d ih =>
    intro k fuel hk hf
    obtain ⟨f, rfl⟩ : ∃ f, fuel = f + 1 := ⟨fuel - 1, by omega⟩
    have hne : ¬ ((⟨b, k⟩ : Ptr) = ⟨b, n⟩) := by
      intro he
      have := congrArg Ptr.off he
      simp only at this
      omega
    rw [range_for, normal_iterator.ne_mk, decide_eq_false hne]
    simp only [Bool.not_false, if_true]
    rw [normal_iterator.pre_incr_mk b k (by omega), ih (k + 1) f (by omega) (by omega)]
    simp [List.range'_succ, normal_iterator.deref, iterator_ops.deref]

theorem matrix.index_of_valid {T : Type} (h : Heap T) (m : matrix) (hv : m.valid h) (i : Nat)
    (hi : i < m.m_size) : m.index i = ⟨m.m_data.block, i⟩ := by
  have hi2 : i < 2 ^ 64 := Nat.lt_trans hi hv.1.2.2.1
  simp only [matrix.index, Ptr.add, hv.2.1, Nat.zero_add, Nat.mod_eq_of_lt hi2]

theorem matrix.range_for_of_valid {T : Type} (h : Heap T) (m : matrix) (hv : m.valid h)
    (fuel : Nat) (hf : m.m_size ≤ fuel) :
    range_for m.end_ fuel m.begin = some ((List.range m.m_size).map m.index) := by
  have hs := hv.1.2.2.1
  have hidx := matrix.index_of_valid h m hv
  obtain ⟨c, r, n, cap, ⟨b, o⟩⟩ := m
  have ho : o = 0 := hv.2.1
  subst ho
  simp only at hs hf hidx ⊢
  have hend : (matrix.end_ ⟨c, r, n, cap, ⟨b, 0⟩⟩) = ⟨⟨b, n⟩⟩ := by
    simp only [matrix.end_, Ptr.add, Nat.zero_add, Nat.mod_eq_of_lt hs]
  rw [hend, show matrix.begin ⟨c, r, n, cap, ⟨b, 0⟩⟩ = ⟨⟨b, 0⟩⟩ from rfl,
    range_for_from b n hs n 0 fuel (by omega) hf, List.range_eq_range']
  congr 1
  apply List.map_congr_left
  intro i hi
  rw [hidx i (by simpa using (List.mem_range'_1.1 hi).2)]

theorem matrix.index_nodup {T : Type} (h : Heap T) (m : matrix) (hv : m.valid h) :
    ((List.range m.m_size).map m.index).Nodup := by
  apply List.Nodup.map_on _ (List.nodup_range _)
  intro x hx y hy hxy
  rw [matrix.index_of_valid h m hv x (List.mem_range.1 hx),
    matrix.index_of_valid h m hv y (List.mem_range.1 hy)] at hxy
  exact congrArg Ptr.off hxy

/-- C20: for every reachable matrix `m` and every `i < m.size()`, `*(m.begin() + i)` is the
element `m[i]`; the loop from `begin()` to `end()` terminates and visits `m[0]`, ...,
`m[size() - 1]` in this order, each exactly once; and a value written through
`*(m.begin() + i)` is what `m[i]` holds afterwards, the other elements keeping theirs, so the
next traversal, which visits the same references, observes it. -/
theorem traversal_visits_elements_in_order {T : Type} [Inhabited T] (w : World T)
    (hw : Reachable w) (m : matrix) (hm : m ∈ w.objs) :
    (∀ i, i < m.size → (m.begin.plus (i : Int)).deref = m.index i) ∧
    (∀ fuel, m.size ≤ fuel →
      range_for m.end_ fuel m.begin = some ((List.range m.size).map m.index)) ∧
    ((List.range m.size).map m.index).Nodup ∧
    (∀ i v, i < m.size →
      (w.heap.store (m.begin.plus (i : Int)).deref (some v)).read (m.index i) = some v ∧
      ∀ j, j < m.size → j ≠ i →
        (w.heap.store (m.begin.plus (i : Int)).deref (some v)).read (m.index j) =
          w.heap.read (m.index j)) := by
  have hv := hw.objs_valid m hm
  have hs := hw.objs_sound m hm
  refine ⟨fun i _ => matrix.begin_plus_deref m i, matrix.range_for_of_valid w.heap m hv,
    matrix.index_nodup w.heap m hv, ?_⟩
  intro i v hi
  rw [matrix.begin_plus_deref]
  have hpi := matrix.index_of_valid w.heap m hv i hi
  have halloc : w.heap.allocated (m.index i) := by
    rw [hpi]
    exact Nat.lt_of_lt_of_le hi hs.2
  constructor
  · rw [Heap.read_store, if_pos ⟨rfl, halloc⟩]
  · intro j hj hji
    rw [Heap.read_store, if_neg]
    rintro ⟨he, _⟩
    rw [hpi, matrix.index_of_valid w.heap m hv j hj] at he
    exact hji (congrArg Ptr.off he)

/-- C20 at `matrix<int> m(10, 10, 1)`: the loop with 100 iterations visits `m[0]`, ...,
`m[99]`, and 2 written through `*(m.begin() + 5)` is read from `m[5]`. -/
theorem traversal_visits_elements_in_order_witness :
    range_for (matrix.ctor_fill (Heap.empty : Heap Int) 10 10 1).2.end_ 100
        (matrix.ctor_fill (Heap.empty : Heap Int) 10 10 1).2.begin =
      some ((List.range (matrix.ctor_fill (Heap.empty : Heap Int) 10 10 1).2.size).map
        (matrix.ctor_fill (Heap.empty : Heap Int) 10 10 1).2.index) ∧
    (move_test.heap.store
        ((matrix.ctor_fill (Heap.empty : Heap Int) 10 10 1).2.begin.plus (5 : Nat)).deref
        (some 2)).read ((matrix.ctor_fill (Heap.empty : Heap Int) 10 10 1).2.index 5) =
      some 2 :=
  ⟨(traversal_visits_elements_in_order move_test move_test_reachable
      (matrix.ctor_fill (Heap.empty : Heap Int) 10 10 1).2 (by simp [move_test])).2.1 100
      (by decide),
   ((traversal_visits_elements_in_order move_test move_test_reachable
      (matrix.ctor_fill (Heap.empty : Heap Int) 10 10 1).2 (by simp [move_test])).2.2.2 5 2
      (by decide)).1⟩

/-! ## `front()` and `back()` -/

theorem matrix.front_back_of_valid {T : Type} (h : Heap T) (m : matrix) (hv : m.valid h)
    (hne : m.m_size ≠ 0) :
    m.front = ⟨m.m_data.block, 0⟩ ∧ m.back = ⟨m.m_data.block, m.m_size - 1⟩ := by
  have hs := hv.1.2.2.1
  obtain ⟨c, r, n, cap, ⟨b, o⟩⟩ := m
  have ho : o = 0 := hv.2.1
  subst ho
  simp only at hs hne ⊢
  refine ⟨rfl, ?_⟩
  simp only [matrix.back, Ptr.add, Ptr.plus, Nat.zero_add, Nat.mod_eq_of_lt hs, Ptr.mk.injEq,
    true_and]
  have h1 : ((n : Int) + -1) % 2 ^ 64 = ((n - 1 : Nat) : Int) := by
    have h2 : ((n : Int) + -1) = ((n - 1 : Nat) : Int) := by omega
    rw [h2]
    exact Int.emod_eq_of_lt (by omega) (by omega)
  rw [h1, Int.toNat_ofNat]

/-- C21: for every non-empty reachable matrix `front()` is the element `m[0]` and `back()` is
the element `m[size() - 1]`; a value written through `front()` (through `back()`) is read
back through it, and every other element, of this or any other matrix, keeps its value. -/
theorem front_back_designate_ends {T : Type} [Inhabited T] (w : World T) (hw : Reachable w)
    (m : matrix) (hm : m ∈ w.objs) (hne : m.empty = false) :
    m.front = m.index 0 ∧ m.back = m.index (m.size - 1) ∧
    (∀ v, (w.heap.store m.front (some v)).read m.front = some v ∧
      ∀ q, q ≠ m.front → (w.heap.store m.front (some v)).read q = w.heap.read q) ∧
    (∀ v, (w.heap.store m.back (some v)).read m.back = some v ∧
      ∀ q, q ≠ m.back → (w.heap.store m.back (some v)).read q = w.heap.read q) := by
  have hv := hw.objs_valid m hm
  have hs := hw.objs_sound m hm
  have hn0 : m.m_size ≠ 0 := by simpa [matrix.empty] using hne
  have hfb := matrix.front_back_of_valid w.heap m hv hn0
  have hother : ∀ (p q : Ptr) (v : T), q ≠ p →
      (w.heap.store p (some v)).read q = w.heap.read q := by
    intro p q v hq
    rw [Heap.read_store, if_neg (fun hc => hq hc.1)]
  have hfa : w.heap.allocated m.front := by
    rw [hfb.1]
    exact Nat.lt_of_lt_of_le (Nat.pos_of_ne_zero hn0) hs.2
  have hba : w.heap.allocated m.back := by
    rw [hfb.2]
    exact Nat.lt_of_lt_of_le (Nat.sub_lt (Nat.pos_of_ne_zero hn0) Nat.one_pos) hs.2
  refine ⟨?_, ?_, fun v => ⟨?_, fun q hq => hother _ q v hq⟩,
    fun v => ⟨?_, fun q hq => hother _ q v hq⟩⟩
  · rw [hfb.1, matrix.index_of_valid w.heap m hv 0 (Nat.pos_of_ne_zero hn0)]
  · rw [hfb.2]
    exact (matrix.index_of_valid w.heap m hv (m.m_size - 1)
      (Nat.sub_lt (Nat.pos_of_ne_zero hn0) Nat.one_pos)).symm
  · rw [Heap.read_store, if_pos ⟨rfl, hfa⟩]
  · rw [Heap.read_store, if_pos ⟨rfl, hba⟩]

/-- C21 at the tests `matrix::front` and `matrix::back`, `matrix<int> m(10, 10, 1)`:
`back()` is `m[99]`, and 2 written through `front()` is read back. -/
theorem front_back_designate_ends_witness :
    (matrix.ctor_fill (Heap.empty : Heap Int) 10 10 1).2.back =
      (matrix.ctor_fill (Heap.empty : Heap Int) 10 10 1).2.index
        ((matrix.ctor_fill (Heap.empty : Heap Int) 10 10 1).2.size - 1) ∧
    (move_test.heap.store (matrix.ctor_fill (Heap.empty : Heap Int) 10 10 1).2.front
      (some 2)).read (matrix.ctor_fill (Heap.empty : Heap Int) 10 10 1).2.front = some 2 :=
  ⟨(front_back_designate_ends move_test move_test_reachable
      (matrix.ctor_fill (Heap.empty : Heap Int) 10 10 1).2 (by simp [move_test])
      (by decide)).2.1,
   ((front_back_designate_ends move_test move_test_reachable
      (matrix.ctor_fill (Heap.empty : Heap Int) 10 10 1).2 (by simp [move_test])
      (by decide)).2.2.1 2).1⟩

/-! ## A failed `at()` -/

/-- C22: when `at(column, row)` throws, as in `m.at(column, row) = value`, the heap and the
object are what they were: size, shape, capacity, buffer handle and every element. -/
theorem at_error_changes_nothing {T : Type} (h : Heap T) (m : matrix) (column row : Nat)
    (value : T) (e : Exn) (he : m.at_ column row = .error e) :
    (m.at_assign h column row value).1 = h ∧ (m.at_assign h column row value).2.1 = m ∧
    (m.at_assign h column row value).2.2 = .error e ∧
    (m.at_assign h column row value).2.1.size = m.size ∧
    (m.at_assign h column row value).2.1.row_size = m.row_size ∧
    (m.at_assign h column row value).2.1.column_size = m.column_size ∧
    (m.at_assign h column row value).2.1.capacity = m.capacity ∧
    (m.at_assign h column row value).2.1.data = m.data ∧
    (∀ q, (m.at_assign h column row value).1.read q = h.read q) := by
  have hr : m.at_assign h column row value = (h, m, .error e) := by
    unfold matrix.at_assign
    rw [he]
  rw [hr]
  exact ⟨rfl, rfl, rfl, rfl, rfl, rfl, rfl, rfl, fun _ => rfl⟩

/-- C22 at the test `matrix::clear`: after `matrix<int> m(10, 10, 1); m.clear();` the
statement `m.at(0, 0) = 1` throws and leaves the capacity 100. -/
theorem at_error_changes_nothing_witness :
    ((matrix.clear move_test.heap
        (matrix.ctor_fill (Heap.empty : Heap Int) 10 10 1).2).2.at_assign
      (matrix.clear move_test.heap (matrix.ctor_fill (Heap.empty : Heap Int) 10 10 1).2).1
      0 0 1).2.1.capacity =
    (matrix.clear move_test.heap
      (matrix.ctor_fill (Heap.empty : Heap Int) 10 10 1).2).2.capacity :=
  (at_error_changes_nothing
    (matrix.clear move_test.heap (matrix.ctor_fill (Heap.empty : Heap Int) 10 10 1).2).1
    (matrix.clear move_test.heap (matrix.ctor_fill (Heap.empty : Heap Int) 10 10 1).2).2
    0 0 1 (.out_of_range "matrix::_M_range_check - index out of range.")
    rfl).2.2.2.2.2.2.1

/-! ## The operators of `normal_iterator` -/

theorem Ordering.beq_iff (o p : Ordering) : (o == p) = true ↔ o = p := by
  cases o <;> cases p <;> decide

theorem Ordering.bne_iff (o p : Ordering) : (o != p) = true ↔ o ≠ p := by
  cases o <;> cases p <;> decide

theorem Ptr.plus_of_bounds (p : Ptr) (n : Int) (h0 : 0 ≤ (p.off : Int) + n)
    (h1 : (p.off : Int) + n < 2 ^ 64) : p.plus n = ⟨p.block, ((p.off : Int) + n).toNat⟩ := by
  unfold Ptr.plus
  rw [Int.emod_eq_of_lt h0 h1]

/-- C25: two `normal_iterator`s of one container are equal exactly when their `base()`
positions are equal, and `!=` is the negation; `operator==` returns what `==` of the two
wrapped positions returns, whatever the position type; so `m.begin() == m.cend()` exactly
when the two pointers are equal. -/
theorem iterator_eq_iff_base_eq {Iterator Container Ref : Type} [iterator_ops Iterator Ref]
    (a b : normal_iterator Ptr Container) (c d : normal_iterator Iterator Container)
    (m : matrix) :
    (a.eq b = true ↔ a.base = b.base) ∧ a.ne b = !(a.eq b) ∧
    (a.ne b = true ↔ a.base ≠ b.base) ∧
    c.eq d = iterator_ops.eq c.base d.base ∧ c.ne d = !(iterator_ops.eq c.base d.base) ∧
    (m.begin.eq m.cend = true ↔ m.begin.base = m.cend.base) := by
  have heq : ∀ x y : normal_iterator Ptr Container, x.eq y = true ↔ x.base = y.base := by
    intro x y
    simp only [normal_iterator.eq, iterator_ops.eq, decide_eq_true_eq]
  refine ⟨heq a b, rfl, ?_, rfl, rfl, ?_⟩
  · simp only [normal_iterator.ne, Bool.not_eq_true', ne_eq]
    rw [← heq a b]
    simp
  · simp only [normal_iterator.eq, iterator_ops.eq, decide_eq_true_eq]

/-- C26: for a `normal_iterator` on a pointer position and offsets `i`, `j` that stay among
the positions of a sequence, `(it + i) <=> (it + j)` is the three-way comparison of `i` and
`j`, and `<`, `>`, `<=`, `>=`, `==` of the two iterators agree with those of `i` and `j`; two
iterators made over the same position compare equal. -/
theorem three_way_follows_offsets {Container : Type} (it : normal_iterator Ptr Container)
    (i j : Int) (hi0 : 0 ≤ (it.base.off : Int) + i) (hi1 : (it.base.off : Int) + i < 2 ^ 64)
    (hj0 : 0 ≤ (it.base.off : Int) + j) (hj1 : (it.base.off : Int) + j < 2 ^ 64) :
    (it.plus i).three_way (it.plus j) = compare i j ∧
    ((it.plus i).lt (it.plus j) = true ↔ i < j) ∧
    ((it.plus i).gt (it.plus j) = true ↔ i > j) ∧
    ((it.plus i).le (it.plus j) = true ↔ i ≤ j) ∧
    ((it.plus i).ge (it.plus j) = true ↔ i ≥ j) ∧
    ((it.plus i).eq (it.plus j) = true ↔ i = j) ∧
    (make_normal Container it.base).three_way (make_normal Container it.base) = Ordering.eq ∧
    (make_normal Container it.base).eq (make_normal Container it.base) = true := by
  obtain ⟨⟨b, o⟩⟩ := it
  simp only [normal_iterator.base] at hi0 hi1 hj0 hj1
  have hpi := Ptr.plus_of_bounds ⟨b, o⟩ i hi0 hi1
  have hpj := Ptr.plus_of_bounds ⟨b, o⟩ j hj0 hj1
  have h3 : (normal_iterator.plus (⟨⟨b, o⟩⟩ : normal_iterator Ptr Container) i).three_way
      (normal_iterator.plus ⟨⟨b, o⟩⟩ j) = compare i j := by
    simp only [normal_iterator.three_way, normal_iterator.base, normal_iterator.plus,
      iterator_ops.cmp, iterator_ops.plus, hpi, hpj]
    rcases lt_trichotomy i j with hlt | heq | hgt
    · rw [compare_lt_iff_lt.2 hlt, compare_lt_iff_lt]
      omega
    · rw [compare_eq_iff_eq.2 heq, compare_eq_iff_eq]
      omega
    · rw [compare_gt_iff_gt.2 hgt, compare_gt_iff_gt]
      omega
  refine ⟨h3, ?_, ?_, ?_, ?_, ?_, ?_, ?_⟩
  · rw [normal_iterator.lt, h3, Ordering.beq_iff, compare_lt_iff_lt]
  · rw [normal_iterator.gt, h3, Ordering.beq_iff, compare_gt_iff_gt]
  · rw [normal_iterator.le, h3, Ordering.bne_iff, ne_eq, compare_gt_iff_gt]
    exact not_lt
  · rw [normal_iterator.ge, h3, Ordering.bne_iff, ne_eq, compare_lt_iff_lt]
    exact not_lt
  · simp only [normal_iterator.eq, normal_iterator.base, normal_iterator.plus,
      iterator_ops.eq, iterator_ops.plus, hpi, hpj, decide_eq_true_eq, Ptr.mk.injEq, true_and]
    omega
  · simp only [normal_iterator.three_way, normal_iterator.base, make_normal, iterator_ops.cmp]
    exact compare_eq_iff_eq.2 rfl
  · simp only [normal_iterator.eq, normal_iterator.base, make_normal, iterator_ops.eq,
      decide_True]

/-- C26 at the test `operator<=>`, with `it` on the first element of `v{1, 2, 3, 4, 5}`:
`(it + 1) <=> it` is `greater` and `it <=> (it + 1)` is `less`. -/
theorem three_way_follows_offsets_witness :
    ((make_normal vector test_vector.2.data).plus 1).three_way
        ((make_normal vector test_vector.2.data).plus 0) = Ordering.gt ∧
    ((make_normal vector test_vector.2.data).plus 0).three_way
        ((make_normal vector test_vector.2.data).plus 1) = Ordering.lt :=
  ⟨(three_way_follows_offsets (make_normal vector test_vector.2.data) 1 0
      (by decide) (by decide) (by decide) (by decide)).1,
   (three_way_follows_offsets (make_normal vector test_vector.2.data) 0 1
      (by decide) (by decide) (by decide) (by decide)).1⟩

theorem Ptr.plus_one (b o : Nat) (ho : o + 1 < 2 ^ 64) :
    (⟨b, o⟩ : Ptr).plus 1 = ⟨b, o + 1⟩ := by
  rw [Ptr.plus_of_bounds ⟨b, o⟩ 1 (by simp only; omega) (by simp only; omega)]
  simp only [Ptr.mk.injEq, true_and]
  omega

theorem Ptr.plus_neg_one (b o : Nat) (h0 : 0 < o) (ho : o < 2 ^ 64) :
    (⟨b, o⟩ : Ptr).plus (-1) = ⟨b, o - 1⟩ := by
  rw [Ptr.plus_of_bounds ⟨b, o⟩ (-1) (by simp only; omega) (by simp only; omega)]
  simp only [Ptr.mk.injEq, true_and]
  omega

/-- C27: prefix `++it` and `--it` apply `++` and `--` to the wrapped position and yield the
updated iterator; postfix `it++` and `it--` return an iterator on the position `it` had and
leave `it` on the incremented, decremented position.  For a pointer position `p` these are
`p + 1` and `p - 1`. -/
theorem increment_decrement_positions {Iterator Container Ref : Type}
    [iterator_ops Iterator Ref] (g : normal_iterator Iterator Container)
    (it : normal_iterator Ptr Container) :
    (g.pre_incr.base = iterator_ops.incr g.base ∧ g.pre_decr.base = iterator_ops.decr g.base ∧
      g.post_incr.1.base = g.base ∧ g.post_incr.2.base = iterator_ops.incr g.base ∧
      g.post_decr.1.base = g.base ∧ g.post_decr.2.base = iterator_ops.decr g.base) ∧
    (it.base.off + 1 < 2 ^ 64 →
      it.pre_incr.base = ⟨it.base.block, it.base.off + 1⟩ ∧
      it.post_incr.1.base = it.base ∧
      it.post_incr.2.base = ⟨it.base.block, it.base.off + 1⟩) ∧
    (0 < it.base.off → it.base.off < 2 ^ 64 →
      it.pre_decr.base = ⟨it.base.block, it.base.off - 1⟩ ∧
      it.post_decr.1.base = it.base ∧
      it.post_decr.2.base = ⟨it.base.block, it.base.off - 1⟩) := by
  obtain ⟨⟨b, o⟩⟩ := it
  refine ⟨⟨rfl, rfl, rfl, rfl, rfl, rfl⟩, ?_, ?_⟩
  · intro ho
    exact ⟨Ptr.plus_one b o ho, rfl, Ptr.plus_one b o ho⟩
  · intro h0 ho
    exact ⟨Ptr.plus_neg_one b o h0 ho, rfl, Ptr.plus_neg_one b o h0 ho⟩

/-- C27 at the tests `operator++` and `operator++(int)` on `v{1, 2, 3, 4, 5}`: `*++it` is 2;
`*it++` is 1 and then `*it` is 2. -/
theorem increment_decrement_positions_witness :
    (make_normal vector test_vector.2.data).pre_incr.base = ⟨1, 1⟩ ∧
    test_vector.1.read (make_normal vector test_vector.2.data).pre_incr.deref = some 2 ∧
    test_vector.1.read (make_normal vector test_vector.2.data).post_incr.1.deref = some 1 ∧
    test_vector.1.read (make_normal vector test_vector.2.data).post_incr.2.deref = some 2 :=
  ⟨((increment_decrement_positions (make_normal vector test_vector.2.data)
      (make_normal vector test_vector.2.data)).2.1 (by decide)).1,
   by decide, by decide, by decide⟩

/-- C28: `it + n`, `it - n`, `it += n` and `it -= n` apply `+` and `-` to the wrapped
position, the first two returning a new iterator and leaving `it` as it is; for a pointer
position `p` and an offset that stays among the positions of a sequence the results are on
`p + n` and `p - n`; and `it[n]` designates the element `*(it + n)` designates. -/
theorem offset_arithmetic_positions {Iterator Container Ref : Type}
    [iterator_ops Iterator Ref] (g : normal_iterator Iterator Container)
    (it : normal_iterator Ptr Container) (n : Int) :
    ((g.plus n).base = iterator_ops.plus g.base n ∧
      (g.minus n).base = iterator_ops.minus g.base n ∧
      (g.plus_assign n).base = iterator_ops.plus g.base n ∧
      (g.minus_assign n).base = iterator_ops.minus g.base n) ∧
    (0 ≤ (it.base.off : Int) + n → (it.base.off : Int) + n < 2 ^ 64 →
      (it.plus n).base = ⟨it.base.block, ((it.base.off : Int) + n).toNat⟩ ∧
      (it.plus_assign n).base = ⟨it.base.block, ((it.base.off : Int) + n).toNat⟩) ∧
    (0 ≤ (it.base.off : Int) - n → (it.base.off : Int) - n < 2 ^ 64 →
      (it.minus n).base = ⟨it.base.block, ((it.base.off : Int) - n).toNat⟩ ∧
      (it.minus_assign n).base = ⟨it.base.block, ((it.base.off : Int) - n).toNat⟩) ∧
    it.subscript n = (it.plus n).deref := by
  obtain ⟨⟨b, o⟩⟩ := it
  refine ⟨⟨rfl, rfl, rfl, rfl⟩, ?_, ?_, rfl⟩
  · intro h0 h1
    exact ⟨Ptr.plus_of_bounds ⟨b, o⟩ n h0 h1, Ptr.plus_of_bounds ⟨b, o⟩ n h0 h1⟩
  · intro h0 h1
    have hm : (⟨b, o⟩ : Ptr).plus (-n) = ⟨b, ((o : Int) - n).toNat⟩ := by
      rw [Ptr.plus_of_bounds ⟨b, o⟩ (-n) (by simp only [normal_iterator.base] at h0 ⊢; omega)
        (by simp only [normal_iterator.base] at h1 ⊢; omega)]
      simp only [Ptr.mk.injEq, true_and]
      rfl
    exact ⟨hm, hm⟩

/-- C28 at the tests on `v{1, 2, 3, 4, 5}`: `it[2]` is 3; after `it += 4`, `*it` is 5 and
`*(it - 1)` is 4. -/
theorem offset_arithmetic_positions_witness :
    (make_normal vector test_vector.2.data).subscript 2 =
      ((make_normal vector test_vector.2.data).plus 2).deref ∧
    test_vector.1.read ((make_normal vector test_vector.2.data).subscript 2) = some 3 ∧
    ((make_normal vector test_vector.2.data).plus_assign 4).base = ⟨1, 4⟩ ∧
    test_vector.1.read ((make_normal vector test_vector.2.data).plus_assign 4).deref =
      some 5 ∧
    test_vector.1.read
      (((make_normal vector test_vector.2.data).plus_assign 4).minus 1).deref = some 4 :=
  ⟨(offset_arithmetic_positions (make_normal vector test_vector.2.data)
      (make_normal vector test_vector.2.data) 2).2.2.2,
   by decide,
   ((offset_arithmetic_positions (make_normal vector test_vector.2.data)
      (make_normal vector test_vector.2.data) 4).2.1 (by decide) (by decide)).2,
   by decide, by decide⟩

/-- C29: `a - b` of two `normal_iterator`s is the difference `a.base() - b.base()` of the
wrapped positions; for pointer positions it is the signed number of positions from `b` to
`a`: the difference of the two offsets, and `b + (a - b)` is `a` when both are positions of
one sequence. -/
theorem iterator_difference_is_base_difference {Iterator Container Ref : Type}
    [iterator_ops Iterator Ref] (g1 g2 : normal_iterator Iterator Container)
    (a b : normal_iterator Ptr Container) :
    g1.diff g2 = iterator_ops.diff g1.base g2.base ∧
    a.diff b = a.base.diff b.base ∧
    a.diff b = (a.base.off : Int) - (b.base.off : Int) ∧
    (a.base.block = b.base.block → a.base.off < 2 ^ 64 → b.plus (a.diff b) = a) := by
  refine ⟨rfl, rfl, rfl, ?_⟩
  obtain ⟨⟨ba, oa⟩⟩ := a
  obtain ⟨⟨bb, ob⟩⟩ := b
  intro hb ha
  simp only [normal_iterator.base] at hb ha
  subst hb
  simp only [normal_iterator.plus, normal_iterator.diff, normal_iterator.base,
    iterator_ops.plus, iterator_ops.diff, Ptr.diff]
  rw [Ptr.plus_of_bounds ⟨ba, ob⟩ ((oa : Int) - (ob : Int)) (by simp only; omega)
    (by simp only; omega)]
  congr 2
  simp only
  omega

/-- C29 on `v{1, 2, 3, 4, 5}`: `(it + 4) - it` is 4 and `it + ((it + 4) - it)` is `it + 4`. -/
theorem iterator_difference_is_base_difference_witness :
    ((make_normal vector test_vector.2.data).plus 4).diff
      (make_normal vector test_vector.2.data) = 4 ∧
    (make_normal vector test_vector.2.data).plus
        (((make_normal vector test_vector.2.data).plus 4).diff
          (make_normal vector test_vector.2.data)) =
      (make_normal vector test_vector.2.data).plus 4 :=
  ⟨(iterator_difference_is_base_difference (make_normal vector test_vector.2.data)
      (make_normal vector test_vector.2.data)
      ((make_normal vector test_vector.2.data).plus 4)
      (make_normal vector test_vector.2.data)).2.2.1.trans (by decide),
   (iterator_difference_is_base_difference (make_normal vector test_vector.2.data)
      (make_normal vector test_vector.2.data)
      ((make_normal vector test_vector.2.data).plus 4)
      (make_normal vector test_vector.2.data)).2.2.2 (by decide) (by decide)⟩

/-- C30: `operator->` returns what `_S_to_pointer` makes of the wrapped position: the
position itself when that is a pointer, and what the cursor's own `operator->()` returns when
it is a class like `std::vector<T>::iterator`.  In both cases it designates the object `*it`
designates, so `it->f` reads the member `(*it).f` reads. -/
theorem arrow_designates_deref {Iterator Container Ref T α : Type}
    [iterator_ops Iterator Ref] (g : normal_iterator Iterator Container)
    (p : normal_iterator Ptr Container) (c : normal_iterator vector_iterator Container)
    (h : Heap T) (f : T → α) :
    g.arrow = iterator_ops.arrow g.base ∧
    (p.arrow = p.base ∧ p.arrow = p.deref ∧
      (h.read p.arrow).map f = (h.read p.deref).map f) ∧
    (c.arrow = iterator_ops.arrow c.base ∧ c.arrow = c.base.ptr ∧ c.arrow = c.deref ∧
      (h.read c.arrow).map f = (h.read c.deref).map f) :=
  ⟨rfl, ⟨rfl, rfl, rfl⟩, ⟨rfl, rfl, rfl, rfl⟩⟩

/-- C30 at the tests `operator-> [indirection]` on `points { { 1, 5 } }`: `it->x` is 1 and
`it->y` is 5, as for `(*it).x` and `(*it).y`. -/
theorem arrow_designates_deref_witness :
    (test_points.1.read (make_normal vector test_points.2.begin).arrow).map Point.x =
      some 1 ∧
    (test_points.1.read (make_normal vector test_points.2.begin).arrow).map Point.y =
      some 5 ∧
    (test_points.1.read (make_normal vector test_points.2.begin).arrow).map Point.x =
      (test_points.1.read (make_normal vector test_points.2.begin).deref).map Point.x :=
  ⟨by decide, by decide,
   (arrow_designates_deref (make_normal vector test_points.2.begin)
      (make_normal vector test_points.2.data) (make_normal vector test_points.2.begin)
      test_points.1 Point.x).2.2.2.2.2⟩

/-! ## Comparison of matrices -/

theorem equal_iff {T : Type} [DecidableEq T] (la lb : List T) : equal la lb = true ↔ la = lb := by
  induction la generalizing lb with
  | nil => cases lb <;> simp [equal]
  | cons x xs ih =>
    cases lb with
    | nil => simp [equal]
    | cons y ys =>
      by_cases hxy : x = y
      · simp [equal, hxy, ih]
      · simp [equal, hxy]

/-- What `lexicographical_compare` computes: the first sequence is a proper prefix of the second, or
after a common prefix its element is less than that of the second. -/
theorem lexicographical_compare_iff {T : Type} [LinearOrder T] (la lb : List T) :
    lexicographical_compare la lb = true ↔
      (∃ y t, lb = la ++ y :: t) ∨
      (∃ p x s y t, la = p ++ x :: s ∧ lb = p ++ y :: t ∧ x < y) := by
  induction la generalizing lb with
  | nil =>
    cases lb with
    | nil => simp [lexicographical_compare]
    | cons y ys => simp [lexicographical_compare]
  | cons x xs ih =>
    cases lb with
    | nil => simp [lexicographical_compare]
    | cons y ys =>
      rw [lexicographical_compare]
      by_cases hxy : x < y
      · rw [if_pos hxy]
        exact iff_of_true rfl (Or.inr ⟨[], x, xs, y, ys, rfl, rfl, hxy⟩)
      · rw [if_neg hxy]
        by_cases hyx : y < x
        · rw [if_pos hyx]
          refine iff_of_false (by simp) ?_
          rintro (⟨z, t, ht⟩ | ⟨p, u, s, v, t, h1, h2, huv⟩)
          · simp only [List.cons_append, List.cons.injEq] at ht
            exact lt_irrefl _ (ht.1 ▸ hyx)
          · cases p with
            | nil =>
              simp only [List.nil_append, List.cons.injEq] at h1 h2
              exact hxy (h1.1 ▸ h2.1 ▸ huv)
            | cons w p =>
              simp only [List.cons_append, List.cons.injEq] at h1 h2
              exact lt_irrefl _ (h1.1 ▸ h2.1 ▸ hyx)
        · rw [if_neg hyx, ih]
          have he : x = y := le_antisymm (not_lt.mp hyx) (not_lt.mp hxy)
          subst he
          constructor
          · rintro (⟨z, t, ht⟩ | ⟨p, u, s, v, t, h1, h2, huv⟩)
            · exact Or.inl ⟨z, t, by rw [ht]; rfl⟩
            · exact Or.inr ⟨x :: p, u, s, v, t, by rw [h1]; rfl, by rw [h2]; rfl, huv⟩
          · rintro (⟨z, t, ht⟩ | ⟨p, u, s, v, t, h1, h2, huv⟩)
            · simp only [List.cons_append, List.cons.injEq, true_and] at ht
              exact Or.inl ⟨z, t, ht⟩
            · cases p with
              | nil =>
                simp only [List.nil_append, List.cons.injEq] at h1 h2
                exact absurd (h1.1 ▸ h2.1 ▸ huv) (lt_irrefl _)
              | cons w p =>
                simp only [List.cons_append, List.cons.injEq] at h1 h2
                exact Or.inr ⟨p, u, s, v, t, h1.2, h2.2, huv⟩

/-- The sequence `filterMap` makes of the first `n` values of `f` when each is present. -/
theorem filterMap_range_of_isSome {T : Type} (f : Nat → Option T) (n : Nat)
    (hf : ∀ i, i < n → (f i).isSome = true) :
    ((List.range n).filterMap f).length = n ∧
    ∀ i, i < n → ((List.range n).filterMap f)[i]? = f i := by
  induction n with
  | zero => exact ⟨rfl, fun i hi => absurd hi (Nat.not_lt_zero i)⟩
  | succ n ih =>
    obtain ⟨hl, hr⟩ := ih (fun i hi => hf i (Nat.lt_succ_of_lt hi))
    obtain ⟨v, hv⟩ := Option.isSome_iff_exists.mp (hf n (Nat.lt_succ_self n))
    have hs : (List.range (n + 1)).filterMap f = (List.range n).filterMap f ++ [v] := by
      rw [List.range_succ, List.filterMap_append]
      simp [List.filterMap_cons, hv]
    rw [hs]
    refine ⟨by rw [List.length_append, hl]; rfl, fun i hi => ?_⟩
    by_cases hin : i < n
    · rw [List.getElem?_append_left (by rw [hl]; exact hin)]
      exact hr i hin
    · have hie : i = n := by omega
      subst hie
      rw [List.getElem?_append_right (by rw [hl]), hl, Nat.sub_self, hv]
      rfl

theorem filterMap_range_const {T : Type} (f : Nat → Option T) (n : Nat) (v : T)
    (hf : ∀ i, i < n → f i = some v) : (List.range n).filterMap f = List.replicate n v := by
  induction n with
  | zero => rfl
  | succ n ih =>
    rw [List.range_succ, List.filterMap_append, ih (fun i hi => hf i (Nat.lt_succ_of_lt hi)),
      List.filterMap_cons, hf n (Nat.lt_succ_self n)]
    exact (List.replicate_succ' n v).symm

theorem read_fill_block_ne {T : Type} (h : Heap T) (first : Ptr) (n : Nat) (v : T) (q : Ptr)
    (hq : q.block ≠ first.block) : (uninitialized_fill_n h first n v).read q = h.read q := by
  induction n generalizing h first with
  | zero => rfl
  | succ n ih =>
    rw [uninitialized_fill_n, ih (h.store first (some v)) (first.add 1) hq,
      Heap.read_store_block_ne _ _ _ _ hq]

/-- The elements `matrix(cols, rows, value)` is constructed with. -/
theorem matrix.read_ctor_fill {T : Type} (h : Heap T) (cols rows : Nat) (value : T)
    (hc : cols < 2 ^ 64) (hr : rows < 2 ^ 64) (i : Nat) (hi : i < matrix.ctor_size cols rows) :
    (matrix.ctor_fill h cols rows value).1.read
      ((matrix.ctor_fill h cols rows value).2.index i) = some value := by
  have hlt := matrix.ctor_size_lt cols rows hc hr
  have hne : matrix.ctor_size cols rows ≠ 0 := by omega
  simp only [matrix.ctor_fill, matrix.index, matrix._M_allocate, if_pos hne]
  have hidx : (h.alloc (matrix.ctor_size cols rows)).2.add i = ⟨h.blocks.length + 1, i⟩ := by
    simp only [Heap.alloc, Ptr.add, Ptr.mk.injEq, true_and]
    omega
  have hp : (h.alloc (matrix.ctor_size cols rows)).2 = ⟨h.blocks.length + 1, 0⟩ := rfl
  rw [hidx, hp, read_fill _ _ 0 _ _ _ (by rw [Heap.blockLen_alloc_new]; omega) (by omega)]
  rw [if_pos ⟨rfl, by omega, by simpa using hi⟩]

/-- Constructing a matrix leaves the objects of the blocks handed out before as they are. -/
theorem matrix.read_ctor_fill_old {T : Type} (h : Heap T) (cols rows : Nat) (value : T)
    (q : Ptr) (hq : q.block ≤ h.blocks.length) :
    (matrix.ctor_fill h cols rows value).1.read q = h.read q := by
  simp only [matrix.ctor_fill, matrix._M_allocate]
  by_cases hne : matrix.ctor_size cols rows ≠ 0
  · rw [if_pos hne, read_fill_block_ne _ _ _ _ _ (by simp only [Heap.alloc]; omega),
      Heap.read_alloc _ _ _ hq]
  · rw [if_neg hne, not_not.mp hne]
    rfl

/-- In the program state of a `Comparison` test each matrix has `size()` elements, all equal
to its fill value. -/
theorem comparison_test_elements (mc mr : Nat) (mv : Int) (nc nr : Nat) (nv : Int)
    (hmc : mc < 2 ^ 64) (hmr : mr < 2 ^ 64) (hnc : nc < 2 ^ 64) (hnr : nr < 2 ^ 64) :
    (comparison_test mc mr mv nc nr nv).2.1.elements (comparison_test mc mr mv nc nr nv).1 =
      List.replicate (matrix.ctor_size mc mr) mv ∧
    (comparison_test mc mr mv nc nr nv).2.2.elements (comparison_test mc mr mv nc nr nv).1 =
      List.replicate (matrix.ctor_size nc nr) nv := by
  constructor
  · refine filterMap_range_const _ _ _ (fun i hi => ?_)
    have hv := (matrix.valid_ctor_fill (Heap.empty : Heap Int) mc mr mv hmc hmr).2
    simp only [comparison_test]
    rw [matrix.read_ctor_fill_old _ _ _ _
      ((matrix.ctor_fill (Heap.empty : Heap Int) mc mr mv).2.index i) hv.2.2]
    exact matrix.read_ctor_fill _ _ _ _ hmc hmr i hi
  · exact filterMap_range_const _ _ _ (fun i hi => matrix.read_ctor_fill _ _ _ _ hnc hnr i hi)

/-- C24: the comparison operators of two matrices compare the two flattened row-major
element sequences lexicographically and do not look at the shape: `a == b` exactly when the
sequences have equal length and equal elements; `a < b` exactly when the sequence of `a` is
a proper prefix of that of `b` or, after a common prefix, has the smaller element; `!=`, `>`,
`<=`, `>=` are derived from the two; the sequence is that of the `size()` elements in
order. -/
theorem comparison_is_lexicographic {T : Type} [LinearOrder T] (h : Heap T) (a b : matrix) :
    (a.eq h b = true ↔ a.elements h = b.elements h) ∧
    (a.eq h b = true ↔ (a.elements h).length = (b.elements h).length ∧
      ∀ i : Nat, (a.elements h)[i]? = (b.elements h)[i]?) ∧
    (a.lt h b = true ↔
      (∃ y t, b.elements h = a.elements h ++ y :: t) ∨
      (∃ p x s y t, a.elements h = p ++ x :: s ∧ b.elements h = p ++ y :: t ∧ x < y)) ∧
    (a.ne h b = !(a.eq h b) ∧ a.gt h b = b.lt h a ∧ a.le h b = !(b.lt h a) ∧
      a.ge h b = !(a.lt h b)) ∧
    (∀ c : matrix, c.m_size = a.m_size → c.m_data = a.m_data →
      c.eq h b = a.eq h b ∧ c.lt h b = a.lt h b ∧ b.lt h c = b.lt h a) ∧
    ((∀ i, i < a.size → (h.read (a.index i)).isSome = true) →
      (a.elements h).length = a.size ∧
      ∀ i, i < a.size → (a.elements h)[i]? = h.read (a.index i)) := by
  refine ⟨equal_iff _ _, ?_, lexicographical_compare_iff _ _, ⟨rfl, rfl, rfl, rfl⟩, ?_, ?_⟩
  · rw [matrix.eq, equal_iff]
    constructor
    · intro he
      rw [he]
      exact ⟨rfl, fun _ => rfl⟩
    · intro he
      exact List.ext_getElem? he.2
  · intro c hs hd
    have he : c.elements h = a.elements h := by
      simp only [matrix.elements, matrix.index, hs, hd]
    simp only [matrix.eq, matrix.lt, he, and_self]
  · intro hl
    exact filterMap_range_of_isSome _ _ hl

/-- C24 at the `Comparison` tests: `matrix(13, 6, 1) < matrix(17, 11, 1)`, the 78 elements
being a proper prefix of the 187; `matrix(13, 6, 2) > matrix(17, 11, 1)`, the first element
deciding; `matrix(5, 8, 1) != matrix(4, 13, 1)`, 40 elements against 52. -/
theorem comparison_is_lexicographic_witness :
    (comparison_test 13 6 1 17 11 1).2.1.lt (comparison_test 13 6 1 17 11 1).1
      (comparison_test 13 6 1 17 11 1).2.2 = true ∧
    (comparison_test 13 6 2 17 11 1).2.1.gt (comparison_test 13 6 2 17 11 1).1
      (comparison_test 13 6 2 17 11 1).2.2 = true ∧
    (comparison_test 5 8 1 4 13 1).2.1.ne (comparison_test 5 8 1 4 13 1).1
      (comparison_test 5 8 1 4 13 1).2.2 = true := by
  have e1 := comparison_test_elements 13 6 1 17 11 1 (by decide) (by decide) (by decide)
    (by decide)
  have e2 := comparison_test_elements 13 6 2 17 11 1 (by decide) (by decide) (by decide)
    (by decide)
  have e3 := comparison_test_elements 5 8 1 4 13 1 (by decide) (by decide) (by decide)
    (by decide)
  have c1 := comparison_is_lexicographic (comparison_test 13 6 1 17 11 1).1
    (comparison_test 13 6 1 17 11 1).2.1 (comparison_test 13 6 1 17 11 1).2.2
  have c2 := comparison_is_lexicographic (comparison_test 13 6 2 17 11 1).1
    (comparison_test 13 6 2 17 11 1).2.2 (comparison_test 13 6 2 17 11 1).2.1
  have c3 := comparison_is_lexicographic (comparison_test 5 8 1 4 13 1).1
    (comparison_test 5 8 1 4 13 1).2.1 (comparison_test 5 8 1 4 13 1).2.2
  refine ⟨c1.2.2.1.mpr (Or.inl ⟨1, List.replicate 108 1, ?_⟩),
    c2.2.2.1.mpr (Or.inr ⟨[], 1, List.replicate 186 1, 2, List.replicate 77 2, ?_, ?_,
      by decide⟩), ?_⟩
  · rw [e1.1, e1.2]
    rfl
  · rw [e2.2]
    rfl
  · rw [e2.1]
    rfl
  · rw [c3.2.2.2.1.1, Bool.not_eq_true', ← Bool.not_eq_true, c3.2.1, e3.1, e3.2]
    intro hc
    exact absurd hc.1 (by decide)

/-! ## `reserve()` -/

theorem reserve_world_reachable : Reachable reserve_world :=
  Reachable.step (Op.ctor_fill 7 3 1) Reachable.init
    (by simp [World.step, World.init, reserve_world])

theorem Ptr.add_of_lt (b o n : Nat) (h : o + n < 2 ^ 64) :
    (⟨b, o⟩ : Ptr).add n = ⟨b, o + n⟩ := by
  simp only [Ptr.add, Nat.mod_eq_of_lt h]

/-- A row-major offset determines its row and its column. -/
theorem offset_inj (c row col row2 col2 : Nat) (h1 : col < c) (h2 : col2 < c)
    (he : c * row + col = c * row2 + col2) : row = row2 ∧ col = col2 := by
  rcases Nat.lt_trichotomy row row2 with hlt | heq | hgt
  · have hm := Nat.mul_le_mul_left c (Nat.succ_le_of_lt hlt)
    rw [Nat.mul_succ] at hm
    omega
  · subst heq
    omega
  · have hm := Nat.mul_le_mul_left c (Nat.succ_le_of_lt hgt)
    rw [Nat.mul_succ] at hm
    omega

/-- What the re-placing step of `reserve` leaves in memory: the element of the coordinate
(col, row) at the offset `c2 * row + col` of the new block, everything else as it was. -/
theorem matrix.read_reserve_place_rows {T : Type} (h : Heap T) (ob nb c1 c2 : Nat)
    (hne : ob ≠ nb) (hc : c1 ≤ c2) (R : Nat) (hlen : c2 * R ≤ h.blockLen nb)
    (hM : c2 * R < 2 ^ 64) :
    (∀ b, (matrix.reserve_place_rows h ⟨ob, 0⟩ ⟨nb, 0⟩ c1 c2 R).blockLen b = h.blockLen b) ∧
    (∀ row col, row < R → col < c1 →
      (matrix.reserve_place_rows h ⟨ob, 0⟩ ⟨nb, 0⟩ c1 c2 R).read ⟨nb, c2 * row + col⟩ =
        h.read ⟨ob, c1 * row + col⟩) ∧
    (∀ q : Ptr, (q.block = nb → ∀ row col, row < R → col < c1 → q.off ≠ c2 * row + col) →
      (matrix.reserve_place_rows h ⟨ob, 0⟩ ⟨nb, 0⟩ c1 c2 R).read q = h.read q) := by
  induction R with
  | zero =>
    exact ⟨fun _ => rfl, fun _ _ hrow _ => absurd hrow (Nat.not_lt_zero _), fun _ _ => rfl⟩
  | succ R ih =>
    have hmul : c2 * (R + 1) = c2 * R + c2 := Nat.mul_succ c2 R
    have h12 : c1 * R ≤ c2 * R := Nat.mul_le_mul_right R hc
    obtain ⟨ihl, ihr, ihf⟩ := ih (by omega) (by omega)
    simp only [matrix.reserve_place_rows]
    rw [Ptr.add_of_lt ob 0 (c1 * R) (by omega), Ptr.add_of_lt nb 0 (c2 * R) (by omega),
      Nat.zero_add, Nat.zero_add]
    have hcopy := fun q => read_copy (matrix.reserve_place_rows h ⟨ob, 0⟩ ⟨nb, 0⟩ c1 c2 R)
      ob (c1 * R) nb (c2 * R) c1 q hne (by rw [ihl]; omega) (by omega) (by omega)
    refine ⟨fun b => by rw [blockLen_copy, ihl], ?_, ?_⟩
    · intro row col hrow hcol
      rw [hcopy]
      by_cases hR : row = R
      · subst hR
        rw [if_pos ⟨rfl, by simp only; omega, by simp only; omega⟩]
        simp only [Nat.add_sub_cancel_left]
        exact ihf _ (fun hb => absurd hb hne)
      · have hlt : row < R := by omega
        have hm := Nat.mul_le_mul_left c2 (Nat.succ_le_of_lt hlt)
        rw [Nat.mul_succ] at hm
        rw [if_neg (by simp only; omega)]
        exact ihr row col hlt hcol
    · intro q hq
      have hnot : ¬ (q.block = nb ∧ c2 * R ≤ q.off ∧ q.off < c2 * R + c1) := by
        rintro ⟨hb, h1, h2⟩
        exact hq hb R (q.off - c2 * R) (by omega) (by omega) (by omega)
      rw [hcopy, if_neg hnot]
      exact ihf q (fun hb row col hrow hcol => hq hb row col (by omega) hcol)

/-- What the step of `reserve` for the ends of the wider rows leaves in memory. -/
theorem matrix.read_reserve_fill_rows {T : Type} [Inhabited T] (h : Heap T) (nb c1 c2 : Nat)
    (hc : c1 ≤ c2) (R : Nat) (hlen : c2 * R ≤ h.blockLen nb) (hM : c2 * R < 2 ^ 64) :
    (∀ b, (matrix.reserve_fill_rows h ⟨nb, 0⟩ c1 c2 R).blockLen b = h.blockLen b) ∧
    (∀ row col, row < R → c1 ≤ col → col < c2 →
      (matrix.reserve_fill_rows h ⟨nb, 0⟩ c1 c2 R).read ⟨nb, c2 * row + col⟩ =
        some default) ∧
    (∀ q : Ptr,
      (q.block = nb → ∀ row col, row < R → c1 ≤ col → col < c2 → q.off ≠ c2 * row + col) →
      (matrix.reserve_fill_rows h ⟨nb, 0⟩ c1 c2 R).read q = h.read q) := by
  induction R with
  | zero =>
    exact ⟨fun _ => rfl, fun _ _ hrow _ _ => absurd hrow (Nat.not_lt_zero _), fun _ _ => rfl⟩
  | succ R ih =>
    have hmul : c2 * (R + 1) = c2 * R + c2 := Nat.mul_succ c2 R
    obtain ⟨ihl, ihr, ihf⟩ := ih (by omega) (by omega)
    simp only [matrix.reserve_fill_rows, uninitialized_default_construct_n]
    rw [Ptr.add_of_lt nb 0 (c2 * R + c1) (by omega), Nat.zero_add]
    have hfill := fun q => read_fill (matrix.reserve_fill_rows h ⟨nb, 0⟩ c1 c2 R)
      nb (c2 * R + c1) (c2 - c1) default q (by rw [ihl]; omega) (by omega)
    refine ⟨fun b => by rw [blockLen_fill, ihl], ?_, ?_⟩
    · intro row col hrow hcol1 hcol2
      rw [hfill]
      by_cases hR : row = R
      · subst hR
        rw [if_pos ⟨rfl, by simp only; omega, by simp only; omega⟩]
      · have hlt : row < R := by omega
        have hm := Nat.mul_le_mul_left c2 (Nat.succ_le_of_lt hlt)
        rw [Nat.mul_succ] at hm
        rw [if_neg (by simp only; omega)]
        exact ihr row col hlt hcol1 hcol2
    · intro q hq
      have hnot : ¬ (q.block = nb ∧ c2 * R + c1 ≤ q.off ∧ q.off < c2 * R + c1 + (c2 - c1)) := by
        rintro ⟨hb, h1, h2⟩
        exact hq hb R (q.off - c2 * R) (by omega) (by omega) (by omega) (by omega)
      rw [hfill, if_neg hnot]
      exact ihf q (fun hb row col hrow hcol1 hcol2 => hq hb row col (by omega) hcol1 hcol2)

/-- What `reserve` does when the request is not below the capacity and not narrower or
shorter than the shape. -/
theorem matrix.reserve_spec {T : Type} [Inhabited T] (h : Heap T) (m : matrix)
    (hv : m.valid h) (c2 r2 : Nat) (hc : m.m_columns ≤ c2) (hr : m.m_rows ≤ r2)
    (hrep : c2 * r2 < 2 ^ 64) (hcap : m.m_capacity ≤ c2 * r2) :
    ((m.reserve h c2 r2).2.m_columns = c2 ∧ (m.reserve h c2 r2).2.m_rows = r2 ∧
      (m.reserve h c2 r2).2.m_size = m.m_size ∧ (m.reserve h c2 r2).2.m_capacity = c2 * r2) ∧
    (∀ column row, column < m.m_columns → row < m.m_rows →
      (m.reserve h c2 r2).1.read ((m.reserve h c2 r2).2.index (c2 * row + column)) =
        h.read (m.index (m.m_columns * row + column))) ∧
    (∀ column row, column < c2 → row < r2 → ¬ (column < m.m_columns ∧ row < m.m_rows) →
      (m.reserve h c2 r2).1.read ((m.reserve h c2 r2).2.index (c2 * row + column)) =
        some default) := by
  have hn : size_mul c2 r2 = c2 * r2 := Nat.mod_eq_of_lt hrep
  obtain ⟨c1, r1, sz, cap, ⟨ob, oo⟩⟩ := m
  obtain ⟨-, ho, hb⟩ := hv
  simp only at hc hr hcap ho hb ⊢
  subst ho
  have hguard : ¬ c2 * r2 < cap := by omega
  refine ⟨by simp only [matrix.reserve, hn, if_neg hguard, and_self], ?_⟩
  have hsum : c2 * r1 + c2 * (r2 - r1) = c2 * r2 := by
    rw [← Nat.mul_add]
    congr 1
    omega
  have hle1 : c2 * r1 ≤ c2 * r2 := Nat.mul_le_mul_left c2 hr
  have hA : (h.alloc (c2 * r2)).1.blockLen (h.blocks.length + 1) = c2 * r2 :=
    Heap.blockLen_alloc_new h (c2 * r2)
  have hP := matrix.read_reserve_place_rows (h.alloc (c2 * r2)).1 ob (h.blocks.length + 1)
    c1 c2 (by omega) hc r1 (by rw [hA]; exact hle1) (by omega)
  have hF := matrix.read_reserve_fill_rows
    (matrix.reserve_place_rows (h.alloc (c2 * r2)).1 ⟨ob, 0⟩ ⟨h.blocks.length + 1, 0⟩ c1 c2 r1)
    (h.blocks.length + 1) c1 c2 hc r1 (by rw [hP.1, hA]; exact hle1) (by omega)
  have hG := fun q => read_fill
    (matrix.reserve_fill_rows
      (matrix.reserve_place_rows (h.alloc (c2 * r2)).1 ⟨ob, 0⟩ ⟨h.blocks.length + 1, 0⟩ c1 c2
        r1) ⟨h.blocks.length + 1, 0⟩ c1 c2 r1)
    (h.blocks.length + 1) (c2 * r1) (c2 * (r2 - r1)) default q
    (by rw [hF.1, hP.1, hA]; omega) (by omega)
  have key : ∀ column row, column < c2 → row < r2 →
      c2 * r2 ≠ 0 ∧ c2 * row + column < c2 * r2 := by
    intro column row hcol hrow
    have hm := Nat.mul_le_mul_left c2 (Nat.succ_le_of_lt hrow)
    rw [Nat.mul_succ] at hm
    omega
  have hres : ∀ column row, column < c2 → row < r2 →
      (matrix.reserve h ⟨c1, r1, sz, cap, ⟨ob, 0⟩⟩ c2 r2).1.read
        ((matrix.reserve h ⟨c1, r1, sz, cap, ⟨ob, 0⟩⟩ c2 r2).2.index (c2 * row + column)) =
      (uninitialized_fill_n
        (matrix.reserve_fill_rows
          (matrix.reserve_place_rows (h.alloc (c2 * r2)).1 ⟨ob, 0⟩ ⟨h.blocks.length + 1, 0⟩
            c1 c2 r1) ⟨h.blocks.length + 1, 0⟩ c1 c2 r1)
        ⟨h.blocks.length + 1, c2 * r1⟩ (c2 * (r2 - r1)) default).read
        ⟨h.blocks.length + 1, c2 * row + column⟩ := by
    intro column row hcol hrow
    obtain ⟨hpos, hlt⟩ := key column row hcol hrow
    have hp : (h.alloc (c2 * r2)).2 = ⟨h.blocks.length + 1, 0⟩ := rfl
    simp only [matrix.reserve, hn, if_neg hguard, matrix._M_allocate, if_pos hpos,
      matrix.index, hp, uninitialized_default_construct_n]
    rw [Ptr.add_of_lt _ 0 (c2 * r1) (by omega), Ptr.add_of_lt _ 0 (c2 * row + column) (by omega),
      Nat.zero_add, Nat.zero_add]
    exact matrix.read_dtor _ _ _ (by simp only; omega)
  constructor
  · intro column row hcol hrow
    have hm := Nat.mul_le_mul_left c2 (Nat.succ_le_of_lt hrow)
    rw [Nat.mul_succ] at hm
    have h12 : c1 * row ≤ c2 * row := Nat.mul_le_mul_right row hc
    rw [hres column row (by omega) (by omega), hG, if_neg (by simp only; omega)]
    rw [hF.2.2 _ (fun _ row2 col2 hrow2 hc1 hc2 he =>
      absurd (offset_inj c2 row column row2 col2 (by omega) hc2 he).2 (by omega))]
    rw [hP.2.1 row column hrow hcol, Heap.read_alloc _ _ _ (by simp only; exact hb)]
    simp only [matrix.index]
    rw [Ptr.add_of_lt _ 0 (c1 * row + column) (by omega), Nat.zero_add]
  · intro column row hcol hrow hnot
    rw [hres column row hcol hrow, hG]
    by_cases hrow1 : row < r1
    · have hm := Nat.mul_le_mul_left c2 (Nat.succ_le_of_lt hrow1)
      rw [Nat.mul_succ] at hm
      rw [if_neg (by simp only; omega)]
      exact hF.2.1 row column hrow1 (by omega) hcol
    · have hm := Nat.mul_le_mul_left c2 (Nat.le_of_not_lt hrow1)
      have hlt := (key column row hcol hrow).2
      rw [if_pos ⟨rfl, by simp only; omega, by simp only; omega⟩]

/-- C23 as stated fails where the new rows are narrower, or the new layout has fewer rows,
than the old one, although `c2 * r2` is not below the capacity.  The matrix `m(2, 2, 1)` with
the elements 1, 2, 3, 4 (capacity 4) is reached by the public operations; after
`m.reserve(1, 4)` the offset `1 * 0 + 1` of the coordinate (1, 0) is also that of (0, 1), and
it holds 3, not the 2 that sat at (1, 0); after `m.reserve(4, 1)` the offset `4 * 1 + 0` of
the coordinate (0, 1) is outside the four slots of the new buffer. -/
theorem reserve_narrower_counterexample :
    World.run World.init [Op.ctor_fill 2 2 1, Op.write 0 1 2, Op.write 0 2 3, Op.write 0 3 4] =
      some { heap := reserve_test.1, objs := [reserve_test.2] } ∧
    reserve_test.2.capacity ≤ 1 * 4 ∧
    ¬ (∀ column row, column < reserve_test.2.column_size → row < reserve_test.2.row_size →
        (reserve_test.2.reserve reserve_test.1 1 4).1.read
          ((reserve_test.2.reserve reserve_test.1 1 4).2.index (1 * row + column)) =
        reserve_test.1.read
          (reserve_test.2.index (reserve_test.2.column_size * row + column))) ∧
    reserve_test.2.capacity ≤ 4 * 1 ∧
    ¬ (∀ column row, column < reserve_test.2.column_size → row < reserve_test.2.row_size →
        (reserve_test.2.reserve reserve_test.1 4 1).1.read
          ((reserve_test.2.reserve reserve_test.1 4 1).2.index (4 * row + column)) =
        reserve_test.1.read
          (reserve_test.2.index (reserve_test.2.column_size * row + column))) :=
  ⟨rfl, by decide,
   fun hc => absurd (hc 1 0 (by decide) (by decide)) (by decide), by decide,
   fun hc => absurd (hc 0 1 (by decide) (by decide)) (by decide)⟩

/-- C23 (amended): for every matrix `m` of shape (c1, r1) reached by the public operations and
every `reserve(c2, r2)` with `c2 >= c1`, `r2 >= r1` and `c2 * r2`, a `size_type` value, not
below the capacity: afterwards `capacity() == c2 * r2`, the shape is (c2, r2), `size()` is
unchanged, the element that sat at the coordinate (column, row), at the old offset
`c1 * row + column`, sits at the offset `c2 * row + column` of the new layout, and the slots
the new layout introduces hold the default value. -/
theorem reserve_relocates_elements {T : Type} [Inhabited T] (w : World T) (hw : Reachable w)
    (m : matrix) (hm : m ∈ w.objs) (c2 r2 : Nat) (hc : m.column_size ≤ c2)
    (hr : m.row_size ≤ r2) (hrep : c2 * r2 < 2 ^ 64) (hcap : m.capacity ≤ c2 * r2) :
    (m.reserve w.heap c2 r2).2.capacity = c2 * r2 ∧
    (m.reserve w.heap c2 r2).2.column_size = c2 ∧
    (m.reserve w.heap c2 r2).2.row_size = r2 ∧
    (m.reserve w.heap c2 r2).2.size = m.size ∧
    (∀ column row, column < m.column_size → row < m.row_size →
      (m.reserve w.heap c2 r2).1.read
        ((m.reserve w.heap c2 r2).2.index (c2 * row + column)) =
      w.heap.read (m.index (m.column_size * row + column))) ∧
    (∀ column row, column < c2 → row < r2 → ¬ (column < m.column_size ∧ row < m.row_size) →
      (m.reserve w.heap c2 r2).1.read
        ((m.reserve w.heap c2 r2).2.index (c2 * row + column)) = some default) := by
  obtain ⟨hf, he, hd⟩ := matrix.reserve_spec w.heap m (Reachable.objs_valid hw m hm) c2 r2 hc hr
    hrep hcap
  exact ⟨hf.2.2.2, hf.1, hf.2.1, hf.2.2.1, he, hd⟩

/-- C23 (amended) at the tests of `matrix::reserve`: `matrix(7, 3, 1)` with capacity 21 grown
by `reserve(8, 4)` has capacity 32, the shape (8, 4) and the size 21; the 1 of the last
coordinate (6, 2) sits at the offset `8 * 2 + 6`, and the slot of the new coordinate (7, 0)
holds 0. -/
theorem reserve_relocates_elements_witness :
    ((matrix.ctor_fill (Heap.empty : Heap Int) 7 3 1).2.reserve reserve_world.heap 8 4).2.capacity
      = 32 ∧
    ((matrix.ctor_fill (Heap.empty : Heap Int) 7 3 1).2.reserve reserve_world.heap
      8 4).2.column_size = 8 ∧
    ((matrix.ctor_fill (Heap.empty : Heap Int) 7 3 1).2.reserve reserve_world.heap
      8 4).2.row_size = 4 ∧
    ((matrix.ctor_fill (Heap.empty : Heap Int) 7 3 1).2.reserve reserve_world.heap 8 4).2.size
      = 21 ∧
    ((matrix.ctor_fill (Heap.empty : Heap Int) 7 3 1).2.reserve reserve_world.heap 8 4).1.read
      (((matrix.ctor_fill (Heap.empty : Heap Int) 7 3 1).2.reserve reserve_world.heap
        8 4).2.index (8 * 2 + 6)) = some 1 ∧
    ((matrix.ctor_fill (Heap.empty : Heap Int) 7 3 1).2.reserve reserve_world.heap 8 4).1.read
      (((matrix.ctor_fill (Heap.empty : Heap Int) 7 3 1).2.reserve reserve_world.heap
        8 4).2.index (8 * 0 + 7)) = some 0 :=
  ⟨(reserve_relocates_elements reserve_world reserve_world_reachable
      (matrix.ctor_fill (Heap.empty : Heap Int) 7 3 1).2 (by simp [reserve_world]) 8 4
      (by decide) (by decide) (by decide) (by decide)).1,
   (reserve_relocates_elements reserve_world reserve_world_reachable
      (matrix.ctor_fill (Heap.empty : Heap Int) 7 3 1).2 (by simp [reserve_world]) 8 4
      (by decide) (by decide) (by decide) (by decide)).2.1,
   (reserve_relocates_elements reserve_world reserve_world_reachable
      (matrix.ctor_fill (Heap.empty : Heap Int) 7 3 1).2 (by simp [reserve_world]) 8 4
      (by decide) (by decide) (by decide) (by decide)).2.2.1,
   (reserve_relocates_elements reserve_world reserve_world_reachable
      (matrix.ctor_fill (Heap.empty : Heap Int) 7 3 1).2 (by simp [reserve_world]) 8 4
      (by decide) (by decide) (by decide) (by decide)).2.2.2.1.trans (by decide),
   ((reserve_relocates_elements reserve_world reserve_world_reachable
      (matrix.ctor_fill (Heap.empty : Heap Int) 7 3 1).2 (by simp [reserve_world]) 8 4
      (by decide) (by decide) (by decide) (by decide)).2.2.2.2.1 6 2 (by decide)
      (by decide)).trans (by decide),
   (reserve_relocates_elements reserve_world reserve_world_reachable
      (matrix.ctor_fill (Heap.empty : Heap Int) 7 3 1).2 (by simp [reserve_world]) 8 4
      (by decide) (by decide) (by decide) (by decide)).2.2.2.2.2 7 0 (by decide) (by decide)
      (by decide)⟩

/-! ## Construction and assignment of `normal_iterator` -/

/-- C31: wrapping does not alter the position: `make_normal(c, p).base() == p`,
`make_normal<C>(p).base() == p` and `normal_iterator(p).base() == p` for every position `p`;
the default constructor wraps the value-initialised position (null for a pointer); the copy
constructor and the two assignments give an adaptor whose `base()` is the source position;
and `m.begin().base() == m.data()`. -/
theorem wrapping_keeps_position {Iterator Container : Type} [iterator_default Iterator]
    (p : Iterator) (it this : normal_iterator Iterator Container) (m : matrix) :
    (make_normal Container p).base = p ∧
    (make_normal_of Container p).base = p ∧
    (normal_iterator.ctor_from p : normal_iterator Iterator Container).base = p ∧
    (normal_iterator.ctor : normal_iterator Iterator Container).base = iterator_default.ctor ∧
    (normal_iterator.ctor : normal_iterator Ptr Container).base = nullptr ∧
    (normal_iterator.ctor_copy it).base = it.base ∧
    (this.assign it).base = it.base ∧
    (this.assign_from p).base = p ∧
    m.begin.base = m.data ∧ m.cbegin.base = m.data :=
  ⟨rfl, rfl, rfl, rfl, rfl, rfl, rfl, rfl, rfl, rfl⟩

/-! ## The classification of `normal_iterator` -/

/-- C32 fails for `iterator_concept`: `normal_iterator` over a `std::forward_list` cursor,
whose traits say `forward_iterator_tag`, has that tag as `iterator_category` but
`random_access_iterator_tag` as `iterator_concept`; for every position type
`iterator_category` is the category of the traits and `iterator_concept` is
`random_access_iterator_tag`. -/
theorem iterator_concept_is_random_access (Container : Type) :
    normal_iterator.iterator_category forward_list_iterator Container =
      iterator_tag.forward_iterator_tag ∧
    normal_iterator.iterator_concept forward_list_iterator Container =
      iterator_tag.random_access_iterator_tag ∧
    normal_iterator.iterator_concept forward_list_iterator Container ≠
      normal_iterator.iterator_category forward_list_iterator Container ∧
    (∀ (Iterator : Type) [iterator_traits Iterator],
      normal_iterator.iterator_category Iterator Container =
        iterator_traits.category_of Iterator ∧
      normal_iterator.iterator_concept Iterator Container =
        iterator_tag.random_access_iterator_tag) :=
  ⟨rfl, rfl,
   by
    show iterator_tag.random_access_iterator_tag ≠ iterator_tag.forward_iterator_tag
    decide,
   fun _ _ => ⟨rfl, rfl⟩⟩

/-! ## `cortex::two_dim_iterator` -/

theorem compare_self_eq (n : Nat) : compare n n = Ordering.eq := by
  rw [compare_eq_iff_eq]

/-- C33: equality and ordering of two `two_dim_iterator`s are those of their underlying
linear positions: iterators with the same underlying positions as `a` and `b` compare as `a`
and `b` do, whatever (column, row) and shape they record; and two iterators over vector
cursors at the same position compare equal. -/
theorem two_dim_compare_by_position {Iterator Ref : Type} [iterator_ops Iterator Ref]
    (a b a2 b2 : two_dim_iterator Iterator) (ha : a2.underlying = a.underlying)
    (hb : b2.underlying = b.underlying) (x y : two_dim_iterator vector_iterator) :
    (a.eq b = iterator_ops.eq a.underlying b.underlying ∧
      a.three_way b = iterator_ops.cmp a.underlying b.underlying) ∧
    (a2.eq b2 = a.eq b ∧ a2.ne b2 = a.ne b ∧ a2.lt b2 = a.lt b ∧ a2.gt b2 = a.gt b ∧
      a2.le b2 = a.le b ∧ a2.ge b2 = a.ge b ∧ a2.three_way b2 = a.three_way b) ∧
    (x.underlying = y.underlying →
      x.eq y = true ∧ x.ne y = false ∧ x.lt y = false ∧ x.gt y = false ∧ x.le y = true ∧
      x.ge y = true ∧ x.three_way y = Ordering.eq) := by
  refine ⟨⟨rfl, rfl⟩, ?_, ?_⟩
  · simp only [two_dim_iterator.eq, two_dim_iterator.ne, two_dim_iterator.lt,
      two_dim_iterator.gt, two_dim_iterator.le, two_dim_iterator.ge,
      two_dim_iterator.three_way, ha, hb, and_self]
  · intro hxy
    have h3 : x.three_way y = Ordering.eq := by
      simp only [two_dim_iterator.three_way, iterator_ops.cmp, hxy, compare_self_eq]
    have he : x.eq y = true := by
      simp only [two_dim_iterator.eq, iterator_ops.eq, hxy, decide_True]
    simp only [two_dim_iterator.ne, two_dim_iterator.lt, two_dim_iterator.gt,
      two_dim_iterator.le, two_dim_iterator.ge, h3, he]
    decide

/-- C33 at the section `Spaceship` of `two_dim.compare.test.cpp`: `(v.begin(), 0, 0, 3, 3)`
against `(v.begin(), 2, 2, 3, 3)` is `equal`, as it is against itself, and against
`(v.begin() + 3, 2, 2, 3, 3)` it is `less` whatever labels the two carry. -/
theorem two_dim_compare_by_position_witness :
    (⟨two_dim_test_vector.2.begin, 0, 0, 3, 3⟩ : two_dim_iterator vector_iterator).three_way
      ⟨two_dim_test_vector.2.begin, 2, 2, 3, 3⟩ = Ordering.eq ∧
    (⟨two_dim_test_vector.2.begin, 0, 0, 3, 3⟩ : two_dim_iterator vector_iterator).eq
      ⟨two_dim_test_vector.2.begin, 2, 2, 3, 3⟩ = true ∧
    (⟨two_dim_test_vector.2.begin, 0, 0, 3, 3⟩ : two_dim_iterator vector_iterator).three_way
      ⟨iterator_ops.plus two_dim_test_vector.2.begin 3, 2, 2, 3, 3⟩ = Ordering.lt ∧
    (⟨iterator_ops.plus two_dim_test_vector.2.begin 6, 2, 2, 3, 3⟩ :
      two_dim_iterator vector_iterator).three_way
      ⟨two_dim_test_vector.2.begin, 0, 0, 3, 3⟩ = Ordering.gt :=
  ⟨((two_dim_compare_by_position
      (⟨two_dim_test_vector.2.begin, 0, 0, 3, 3⟩ : two_dim_iterator vector_iterator)
      ⟨two_dim_test_vector.2.begin, 0, 0, 3, 3⟩ ⟨two_dim_test_vector.2.begin, 0, 0, 3, 3⟩
      ⟨two_dim_test_vector.2.begin, 2, 2, 3, 3⟩ rfl rfl
      ⟨two_dim_test_vector.2.begin, 0, 0, 3, 3⟩
      ⟨two_dim_test_vector.2.begin, 2, 2, 3, 3⟩).2.2 rfl).2.2.2.2.2.2,
   ((two_dim_compare_by_position
      (⟨two_dim_test_vector.2.begin, 0, 0, 3, 3⟩ : two_dim_iterator vector_iterator)
      ⟨two_dim_test_vector.2.begin, 0, 0, 3, 3⟩ ⟨two_dim_test_vector.2.begin, 0, 0, 3, 3⟩
      ⟨two_dim_test_vector.2.begin, 2, 2, 3, 3⟩ rfl rfl
      ⟨two_dim_test_vector.2.begin, 0, 0, 3, 3⟩
      ⟨two_dim_test_vector.2.begin, 2, 2, 3, 3⟩).2.2 rfl).1,
   ((two_dim_compare_by_position
      (⟨two_dim_test_vector.2.begin, 1, 1, 3, 3⟩ : two_dim_iterator vector_iterator)
      ⟨iterator_ops.plus two_dim_test_vector.2.begin 3, 0, 1, 3, 3⟩
      ⟨two_dim_test_vector.2.begin, 0, 0, 3, 3⟩
      ⟨iterator_ops.plus two_dim_test_vector.2.begin 3, 2, 2, 3, 3⟩ rfl rfl
      ⟨two_dim_test_vector.2.begin, 0, 0, 3, 3⟩
      ⟨two_dim_test_vector.2.begin, 2, 2, 3, 3⟩).2.1.2.2.2.2.2.2).trans (by decide),
   by decide⟩

/-! ## Shapes whose product is a `size_type` value -/

theorem mem_append_singleton_of (P : matrix → Prop) {objs : List matrix} {x m : matrix}
    (hm : m ∈ objs ++ [x]) (hall : ∀ o ∈ objs, P o) (hx : P x) : P m := by
  rcases List.mem_append.1 hm with ho | hn
  · exact hall m ho
  · rw [List.mem_singleton.1 hn]
    exact hx

theorem mem_set_of (P : matrix → Prop) {objs : List matrix} {x m : matrix} {i : Nat}
    (hm : m ∈ objs.set i x) (hall : ∀ o ∈ objs, P o) (hx : P x) : P m := by
  rcases List.mem_or_eq_of_mem_set hm with ho | hn
  · exact hall m ho
  · rw [hn]
    exact hx

theorem matrix.fits_of_shape (m o : matrix) (hc : m.m_columns = o.m_columns)
    (hr : m.m_rows = o.m_rows) (ho : o.fits) : m.fits := by
  unfold matrix.fits
  rw [hc, hr]
  exact ho

theorem matrix.fits_of_zero (m : matrix) (hc : m.m_columns = 0) (hr : m.m_rows = 0) :
    m.fits := by
  unfold matrix.fits
  rw [hc, hr]
  decide

theorem matrix.fits_clear {T : Type} (h : Heap T) (m : matrix) (hm : m.fits) :
    (matrix.clear h m).2.fits := by
  rw [matrix.clear_eq]
  split
  · exact matrix.fits_of_zero _ rfl rfl
  · exact hm

/-- One public operation that constructs no wrapping shape keeps every shape free of
wrap-around: the shapes afterwards are shapes there were before, (0, 0), or the arguments of
the constructor. -/
theorem World.step_fits {T : Type} [Inhabited T] (w w1 : World T) (op : Op T)
    (hop : op.fits) (hall : ∀ o ∈ w.objs, o.fits) (hstep : w.step op = some w1) :
    ∀ o ∈ w1.objs, o.fits := by
  intro m hm
  cases op with
  | ctor_default =>
    simp only [World.step, Option.some.injEq] at hstep
    subst hstep
    exact mem_append_singleton_of matrix.fits hm hall (matrix.fits_of_zero _ rfl rfl)
  | ctor_sized cols rows =>
    simp only [World.step] at hstep
    split at hstep
    · simp only [Option.some.injEq] at hstep
      subst hstep
      exact mem_append_singleton_of matrix.fits hm hall hop
    · cases hstep
  | ctor_fill cols rows value =>
    simp only [World.step] at hstep
    split at hstep
    · simp only [Option.some.injEq] at hstep
      subst hstep
      exact mem_append_singleton_of matrix.fits hm hall hop
    · cases hstep
  | ctor_copy other =>
    simp only [World.step] at hstep
    split at hstep
    · rename_i o ho
      simp only [Option.some.injEq] at hstep
      subst hstep
      exact mem_append_singleton_of matrix.fits hm hall
        (matrix.fits_of_shape _ o rfl rfl (hall o (List.get?_mem ho)))
    · cases hstep
  | ctor_move other =>
    simp only [World.step] at hstep
    split at hstep
    · rename_i o ho
      simp only [Option.some.injEq] at hstep
      subst hstep
      exact mem_append_singleton_of matrix.fits hm
        (fun x hx => mem_set_of matrix.fits hx hall (matrix.fits_of_zero _ rfl rfl))
        (matrix.fits_of_shape _ o rfl rfl (hall o (List.get?_mem ho)))
    · cases hstep
  | assign_copy this other =>
    simp only [World.step] at hstep
    split at hstep
    · rename_i t o ht ho
      split at hstep
      · simp only [Option.some.injEq] at hstep
        subst hstep
        exact mem_set_of matrix.fits hm hall
          (matrix.fits_of_shape _ t rfl rfl (hall t (List.get?_mem ht)))
      · simp only [Option.some.injEq] at hstep
        subst hstep
        exact mem_set_of matrix.fits hm hall
          (matrix.fits_of_shape _ o rfl rfl (hall o (List.get?_mem ho)))
    · cases hstep
  | assign_move this other =>
    simp only [World.step] at hstep
    split at hstep
    · rename_i t o ht ho
      split at hstep
      · simp only [Option.some.injEq] at hstep
        subst hstep
        exact mem_set_of matrix.fits hm hall (matrix.fits_of_zero _ rfl rfl)
      · simp only [Option.some.injEq] at hstep
        subst hstep
        exact mem_set_of matrix.fits hm
          (fun x hx => mem_set_of matrix.fits hx hall (matrix.fits_of_zero _ rfl rfl))
          (matrix.fits_of_shape _ o rfl rfl (hall o (List.get?_mem ho)))
    · cases hstep
  | swap this other =>
    simp only [World.step] at hstep
    split at hstep
    · rename_i t o ht ho
      split at hstep
      · simp only [Option.some.injEq] at hstep
        subst hstep
        exact mem_set_of matrix.fits hm hall
          (matrix.fits_of_shape _ t rfl rfl (hall t (List.get?_mem ht)))
      · simp only [Option.some.injEq] at hstep
        subst hstep
        exact mem_set_of matrix.fits hm
          (fun x hx => mem_set_of matrix.fits hx hall
            (matrix.fits_of_shape _ t rfl rfl (hall t (List.get?_mem ht))))
          (matrix.fits_of_shape _ o rfl rfl (hall o (List.get?_mem ho)))
    · cases hstep
  | clear this =>
    simp only [World.step] at hstep
    split at hstep
    · rename_i t ht
      simp only [Option.some.injEq] at hstep
      subst hstep
      exact mem_set_of matrix.fits hm hall (matrix.fits_clear _ t (hall t (List.get?_mem ht)))
    · cases hstep
  | write this index value =>
    simp only [World.step] at hstep
    split at hstep
    · split at hstep
      · simp only [Option.some.injEq] at hstep
        subst hstep
        exact hall m hm
      · cases hstep
    · cases hstep

theorem ReachableFits.reachable {T : Type} [Inhabited T] {w : World T}
    (hw : ReachableFits w) : Reachable w := by
  induction hw with
  | init => exact Reachable.init
  | step op _ _ hstep ih => exact Reachable.step op ih hstep

theorem ReachableFits.objs_fits {T : Type} [Inhabited T] {w : World T}
    (hw : ReachableFits w) : ∀ o ∈ w.objs, o.fits := by
  induction hw with
  | init =>
    intro o ho
    simp [World.init] at ho
  | step op _ hop hstep ih => exact World.step_fits _ _ op hop ih hstep

theorem move_test_fits : ReachableFits move_test :=
  @ReachableFits.step Int _
    { heap := (matrix.ctor_fill (Heap.empty : Heap Int) 10 10 1).1,
      objs := [(matrix.ctor_fill (Heap.empty : Heap Int) 10 10 1).2] }
    move_test Op.ctor_default
    (ReachableFits.step (Op.ctor_fill 10 10 1) ReachableFits.init (by simp [Op.fits])
      (by simp [World.step, World.init]))
    trivial (by simp [World.step, move_test])

/-! ## Coordinates and linear offsets -/

theorem matrix.range_check_ok_inv (m : matrix) (column row : Nat)
    (hok : m._M_range_check column row = .ok ()) :
    column < m.m_columns ∧ row < m.m_rows := by
  by_contra hn
  have he := matrix.range_check_error m column row
    (by simp only [matrix.column_size, matrix.row_size]; omega)
  rw [he] at hok
  cases hok

/-- Where `at()` points for coordinates in range when the product of the shape does not wrap
around. -/
theorem matrix.at_eq_index (m : matrix) (column row : Nat) (hc : column < m.m_columns)
    (hr : row < m.m_rows) (hfit : m.m_columns * m.m_rows < 2 ^ 64) :
    m.m_columns * row + column < m.m_columns * m.m_rows ∧
    m.at_ column row = .ok (m.index (m.m_columns * row + column)) := by
  have hm := Nat.mul_le_mul_left m.m_columns (Nat.succ_le_of_lt hr)
  rw [Nat.mul_succ] at hm
  have hlt : m.m_columns * row + column < m.m_columns * m.m_rows := by omega
  refine ⟨hlt, ?_⟩
  rw [matrix.at_ok m column row (by simp only [matrix.column_size, matrix.row_size]; omega)]
  unfold matrix.index Ptr.add size_mul
  simp only [Except.ok.injEq, Ptr.mk.injEq, true_and]
  rw [Nat.mod_eq_of_lt (by omega : m.m_columns * row < 2 ^ 64)]
  omega

theorem matrix.size_of_sound_fits {T : Type} (h : Heap T) (m : matrix) (hs : m.sound h)
    (hfit : m.m_columns * m.m_rows < 2 ^ 64) (hpos : m.m_columns * m.m_rows ≠ 0) :
    m.m_size = m.m_columns * m.m_rows := by
  rw [hs.1]
  unfold matrix.ctor_size size_mul
  rw [Nat.mod_eq_of_lt hfit, if_pos hpos]

/-- C34: in every program state reached by the public operations (sized constructors whose
`cols * rows` is representable in `size_type`, copies, moves, swaps, `clear()`), whenever
`at(column, row)` passes the range check, the offset `column_size() * row + column` of the
element it returns is less than `size()`, and it lies in the buffer. -/
theorem at_stays_in_live_region {T : Type} [Inhabited T] (w : World T) (hw : ReachableFits w)
    (m : matrix) (hm : m ∈ w.objs) (column row : Nat)
    (hok : m._M_range_check column row = .ok ()) :
    m.column_size * row + column < m.size ∧
    m.at_ column row = .ok (m.index (m.column_size * row + column)) ∧
    m.column_size * row + column < w.heap.blockLen m.m_data.block := by
  obtain ⟨hc, hr⟩ := matrix.range_check_ok_inv m column row hok
  have hfit := hw.objs_fits m hm
  have hs := hw.reachable.objs_sound m hm
  obtain ⟨hlt, hat⟩ := matrix.at_eq_index m column row hc hr hfit
  have hsz := matrix.size_of_sound_fits w.heap m hs hfit (by omega)
  simp only [matrix.column_size, matrix.size]
  exact ⟨by omega, hat, by have := hs.2; omega⟩

/-- C34 at `cortex::matrix<int> m(10, 10, 1)`: `at(9, 9)` passes the check and its offset 99
is less than `size()`. -/
theorem at_stays_in_live_region_witness :
    (matrix.ctor_fill (Heap.empty : Heap Int) 10 10 1).2.column_size * 9 + 9 <
      (matrix.ctor_fill (Heap.empty : Heap Int) 10 10 1).2.size :=
  (at_stays_in_live_region move_test move_test_fits
    (matrix.ctor_fill (Heap.empty : Heap Int) 10 10 1).2 (by simp [move_test]) 9 9 rfl).1

/-- C35: for every reachable matrix with `cols > 0`, `rows > 0` and `cols * rows`
representable in `size_type`, `size()` is `cols * rows` and
`(column, row) -> cols * row + column` maps the coordinates in range one-to-one onto the
indices below `size()`: `at(column, row)` is the element of that index; two coordinates with
the same element are the same; the element `m[i]` is that of the coordinate
`(i mod cols, i div cols)` and of no other; and a write through `at(c, r)` leaves the element
of every other coordinate as it was. -/
theorem coordinates_biject_indices {T : Type} [Inhabited T] (w : World T) (hw : Reachable w)
    (m : matrix) (hm : m ∈ w.objs) (hc : 0 < m.column_size) (hr : 0 < m.row_size)
    (hfit : m.column_size * m.row_size < 2 ^ 64) :
    m.size = m.column_size * m.row_size ∧
    (∀ column row, column < m.column_size → row < m.row_size →
      m.column_size * row + column < m.size ∧
      m.at_ column row = .ok (m.index (m.column_size * row + column))) ∧
    (∀ c r c2 r2, c < m.column_size → r < m.row_size → c2 < m.column_size →
      r2 < m.row_size → m.at_ c r = m.at_ c2 r2 → c = c2 ∧ r = r2) ∧
    (∀ i, i < m.size →
      i % m.column_size < m.column_size ∧ i / m.column_size < m.row_size ∧
      m.at_ (i % m.column_size) (i / m.column_size) = .ok (m.index i) ∧
      ∀ c r, c < m.column_size → r < m.row_size → m.at_ c r = .ok (m.index i) →
        c = i % m.column_size ∧ r = i / m.column_size) ∧
    (∀ c r c2 r2 (v : T) (p : Ptr), c < m.column_size → r < m.row_size →
      c2 < m.column_size → r2 < m.row_size → ¬ (c = c2 ∧ r = r2) → m.at_ c2 r2 = .ok p →
      (m.at_assign w.heap c r v).1.read p = w.heap.read p) := by
  have hv := hw.objs_valid m hm
  have hs := hw.objs_sound m hm
  simp only [matrix.column_size, matrix.row_size, matrix.size] at hc hr hfit ⊢
  have hpos : m.m_columns * m.m_rows ≠ 0 := Nat.mul_ne_zero (by omega) (by omega)
  have hsz := matrix.size_of_sound_fits w.heap m hs hfit hpos
  have hat := fun column row (h1 : column < m.m_columns) (h2 : row < m.m_rows) =>
    matrix.at_eq_index m column row h1 h2 hfit
  have hidx := fun i (hi : i < m.m_size) => matrix.index_of_valid w.heap m hv i hi
  have hinj : ∀ c r c2 r2, c < m.m_columns → r < m.m_rows → c2 < m.m_columns →
      r2 < m.m_rows → m.at_ c r = m.at_ c2 r2 → c = c2 ∧ r = r2 := by
    intro c r c2 r2 h1 h2 h3 h4 he
    obtain ⟨l1, e1⟩ := hat c r h1 h2
    obtain ⟨l2, e2⟩ := hat c2 r2 h3 h4
    rw [e1, e2, hidx _ (by omega), hidx _ (by omega)] at he
    simp only [Except.ok.injEq, Ptr.mk.injEq, true_and] at he
    have := offset_inj m.m_columns r c r2 c2 h1 h3 he
    exact ⟨this.2, this.1⟩
  refine ⟨hsz, ?_, hinj, ?_, ?_⟩
  · intro column row h1 h2
    obtain ⟨l1, e1⟩ := hat column row h1 h2
    exact ⟨by omega, e1⟩
  · intro i hi
    have hmod : i % m.m_columns < m.m_columns := Nat.mod_lt i hc
    have hdiv : i / m.m_columns < m.m_rows := by
      rw [Nat.div_lt_iff_lt_mul hc, Nat.mul_comm]
      omega
    have hsum : m.m_columns * (i / m.m_columns) + i % m.m_columns = i := Nat.div_add_mod i _
    have e1 := (hat _ _ hmod hdiv).2
    rw [hsum] at e1
    refine ⟨hmod, hdiv, e1, ?_⟩
    intro c r h1 h2 he
    exact hinj c r _ _ h1 h2 hmod hdiv (he.trans e1.symm)
  · intro c r c2 r2 v p h1 h2 h3 h4 hne hp
    obtain ⟨l1, e1⟩ := hat c r h1 h2
    simp only [matrix.at_assign, e1]
    rw [Heap.read_store]
    have hq : ¬ (p = m.index (m.m_columns * r + c) ∧
        w.heap.allocated (m.index (m.m_columns * r + c))) := by
      rintro ⟨hpe, -⟩
      rw [hpe, ← e1] at hp
      have := hinj c2 r2 c r h3 h4 h1 h2 hp
      exact hne ⟨this.1.symm, this.2.symm⟩
    rw [if_neg hq]

/-- C35 at `cortex::matrix<int> m(10, 10, 1)`: the size is 100, `m[99]` is addressed by the
coordinate (9, 9) only. -/
theorem coordinates_biject_indices_witness :
    (matrix.ctor_fill (Heap.empty : Heap Int) 10 10 1).2.size =
      (matrix.ctor_fill (Heap.empty : Heap Int) 10 10 1).2.column_size *
        (matrix.ctor_fill (Heap.empty : Heap Int) 10 10 1).2.row_size ∧
    (matrix.ctor_fill (Heap.empty : Heap Int) 10 10 1).2.at_
        (99 % (matrix.ctor_fill (Heap.empty : Heap Int) 10 10 1).2.column_size)
        (99 / (matrix.ctor_fill (Heap.empty : Heap Int) 10 10 1).2.column_size) =
      .ok ((matrix.ctor_fill (Heap.empty : Heap Int) 10 10 1).2.index 99) :=
  ⟨(coordinates_biject_indices move_test move_test_reachable
      (matrix.ctor_fill (Heap.empty : Heap Int) 10 10 1).2 (by simp [move_test])
      (by decide) (by decide) (by decide)).1,
   ((coordinates_biject_indices move_test move_test_reachable
      (matrix.ctor_fill (Heap.empty : Heap Int) 10 10 1).2 (by simp [move_test])
      (by decide) (by decide) (by decide)).2.2.2.1 99 (by decide)).2.2.1⟩

/-! ## Matrices of one dimension -/

theorem matrix.at_error_of_zero (m : matrix) (hz : m.m_columns = 0 ∨ m.m_rows = 0)
    (column row : Nat) :
    m.at_ column row =
      .error (.out_of_range "matrix::_M_range_check - index out of range.") :=
  matrix.at_error m column row (by simp only [matrix.column_size, matrix.row_size]; omega)

theorem matrix.ctor_size_degenerate (n : Nat) :
    matrix.ctor_size n 0 = n ∧ matrix.ctor_size 0 n = n := by
  simp [matrix.ctor_size, size_mul]

/-- C36: for every `size_type` value `n`, in particular every `n > 0`, `matrix(n, 0)` and
`matrix(0, n)` (with or without a fill value) have `size() == n`, their `begin()`..`end()` traversal visits the `n` elements `m[0]`, ..,
`m[n - 1]`, each of which lives, and `at(column, row)` throws `std::out_of_range` for every
column and row. -/
theorem degenerate_matrix_at_always_throws {T : Type} [Inhabited T] (h : Heap T) (n : Nat)
    (hn : n < 2 ^ 64) (value : T) :
    (matrix.ctor_sized h n 0 = matrix.ctor_fill h n 0 default ∧
      matrix.ctor_sized h 0 n = matrix.ctor_fill h 0 n default) ∧
    ((matrix.ctor_fill h n 0 value).2.size = n ∧
      range_for (matrix.ctor_fill h n 0 value).2.end_ n (matrix.ctor_fill h n 0 value).2.begin =
        some ((List.range n).map (matrix.ctor_fill h n 0 value).2.index) ∧
      (∀ i, i < n → (matrix.ctor_fill h n 0 value).1.read
        ((matrix.ctor_fill h n 0 value).2.index i) = some value) ∧
      ∀ column row, (matrix.ctor_fill h n 0 value).2.at_ column row =
        .error (.out_of_range "matrix::_M_range_check - index out of range.")) ∧
    ((matrix.ctor_fill h 0 n value).2.size = n ∧
      range_for (matrix.ctor_fill h 0 n value).2.end_ n (matrix.ctor_fill h 0 n value).2.begin =
        some ((List.range n).map (matrix.ctor_fill h 0 n value).2.index) ∧
      (∀ i, i < n → (matrix.ctor_fill h 0 n value).1.read
        ((matrix.ctor_fill h 0 n value).2.index i) = some value) ∧
      ∀ column row, (matrix.ctor_fill h 0 n value).2.at_ column row =
        .error (.out_of_range "matrix::_M_range_check - index out of range.")) := by
  have hz : (0 : Nat) < 2 ^ 64 := by decide
  obtain ⟨hs1, hs2⟩ := matrix.ctor_size_degenerate n
  have hv1 := (matrix.valid_ctor_fill h n 0 value hn hz).2
  have hv2 := (matrix.valid_ctor_fill h 0 n value hz hn).2
  have hr1 := matrix.range_for_of_valid _ _ hv1 n (Nat.le_of_eq hs1)
  have hr2 := matrix.range_for_of_valid _ _ hv2 n (Nat.le_of_eq hs2)
  have hm1 : (matrix.ctor_fill h n 0 value).2.m_size = n := hs1
  have hm2 : (matrix.ctor_fill h 0 n value).2.m_size = n := hs2
  rw [hm1] at hr1
  rw [hm2] at hr2
  refine ⟨⟨rfl, rfl⟩, ⟨hs1, hr1, ?_, ?_⟩, ⟨hs2, hr2, ?_, ?_⟩⟩
  · intro i hi
    exact matrix.read_ctor_fill h n 0 value hn hz i (by rw [hs1]; exact hi)
  · exact matrix.at_error_of_zero _ (Or.inr rfl)
  · intro i hi
    exact matrix.read_ctor_fill h 0 n value hz hn i (by rw [hs2]; exact hi)
  · exact matrix.at_error_of_zero _ (Or.inl rfl)

/-- C36 at `cortex::matrix<int> m(5, 0)` and `cortex::matrix<int> m(0, 5)`: the size is 5 and
`at(0, 0)` throws. -/
theorem degenerate_matrix_at_always_throws_witness :
    (matrix.ctor_fill (Heap.empty : Heap Int) 5 0 0).2.size = 5 ∧
    (matrix.ctor_fill (Heap.empty : Heap Int) 5 0 0).2.at_ 0 0 =
      .error (.out_of_range "matrix::_M_range_check - index out of range.") ∧
    (matrix.ctor_fill (Heap.empty : Heap Int) 0 5 0).2.size = 5 ∧
    (matrix.ctor_fill (Heap.empty : Heap Int) 0 5 0).2.at_ 0 0 =
      .error (.out_of_range "matrix::_M_range_check - index out of range.") :=
  ⟨(degenerate_matrix_at_always_throws (Heap.empty : Heap Int) 5 (by decide) 0).2.1.1,
   (degenerate_matrix_at_always_throws (Heap.empty : Heap Int) 5 (by decide) 0).2.1.2.2.2 0 0,
   (degenerate_matrix_at_always_throws (Heap.empty : Heap Int) 5 (by decide) 0).2.2.1,
   (degenerate_matrix_at_always_throws (Heap.empty : Heap Int) 5 (by decide) 0).2.2.2.2.2 0 0⟩

/-! ## The guard of `clear()` -/

/-- C40: in every program state reachable through the public operations, `size() == 0`
exactly when `column_size() == 0` and `row_size() == 0`; so when `clear()` takes its early
exit, for a size of 0, the shape it leaves as it is is (0, 0), and after `clear()` size and
shape are 0 in every case. -/
theorem size_zero_iff_shape_zero {T : Type} [Inhabited T] (w : World T) (hw : Reachable w)
    (m : matrix) (hm : m ∈ w.objs) :
    (m.size = 0 ↔ m.column_size = 0 ∧ m.row_size = 0) ∧
    (m.size = 0 → matrix.clear w.heap m = (w.heap, m)) ∧
    ((matrix.clear w.heap m).2.size = 0 ∧ (matrix.clear w.heap m).2.column_size = 0 ∧
      (matrix.clear w.heap m).2.row_size = 0) := by
  have hv := hw.objs_valid m hm
  have hs := hw.objs_sound m hm
  refine ⟨⟨fun h0 => hv.1.2.2.2.2 h0, ?_⟩, ?_, matrix.clear_fields_of_valid w.heap m hv⟩
  · rintro ⟨hc, hr⟩
    simp only [matrix.column_size, matrix.row_size] at hc hr
    simp only [matrix.size]
    rw [hs.1, hc, hr]
    rfl
  · intro h0
    simp only [matrix.size] at h0
    rw [matrix.clear_eq, h0]
    have hd : (m.m_data.add 0).diff m.m_data = 0 := by
      have ho := hv.2.1
      simp only [Ptr.diff, Ptr.add, ho]
      rfl
    rw [if_neg (by rw [hd]; exact fun hne => hne rfl)]

/-- C40 at the default-constructed matrix of `move_test`: its size is 0 and so are its
columns and rows, and `clear()` leaves it as it is. -/
theorem size_zero_iff_shape_zero_witness :
    (matrix.ctor.column_size = 0 ∧ matrix.ctor.row_size = 0) ∧
    matrix.clear move_test.heap matrix.ctor = (move_test.heap, matrix.ctor) :=
  ⟨(size_zero_iff_shape_zero move_test move_test_reachable matrix.ctor
      (by simp [move_test])).1.mp rfl,
   (size_zero_iff_shape_zero move_test move_test_reachable matrix.ctor
      (by simp [move_test])).2.1 rfl⟩

/-! ## Increment, decrement, offset and difference cancel -/

theorem Ptr.plus_one_neg_one (p : Ptr) (ho : p.off < 2 ^ 64) :
    (p.plus 1).plus (-1) = p ∧ (p.plus (-1)).plus 1 = p := by
  obtain ⟨b, o⟩ := p
  simp only at ho
  simp only [Ptr.plus, Ptr.mk.injEq, true_and]
  omega

/-- C38: increment and decrement of a `normal_iterator` are those of the wrapped position,
so they are mutually inverse when those are; for a pointer position `++` then `--`, prefix or
postfix, leaves the iterator at its position, and likewise `--` then `++`. -/
theorem increment_decrement_inverse {Iterator Container Ref : Type}
    [iterator_ops Iterator Ref] (g : normal_iterator Iterator Container)
    (it : normal_iterator Ptr Container) (ho : it.base.off < 2 ^ 64) :
    ((iterator_ops.decr (iterator_ops.incr g.base) = g.base →
        g.pre_incr.pre_decr = g ∧ g.post_incr.2.post_decr.2 = g) ∧
      (iterator_ops.incr (iterator_ops.decr g.base) = g.base →
        g.pre_decr.pre_incr = g ∧ g.post_decr.2.post_incr.2 = g)) ∧
    (it.pre_incr.pre_decr = it ∧ it.pre_decr.pre_incr = it) ∧
    (it.post_incr.2.post_decr.2 = it ∧ it.post_decr.2.post_incr.2 = it) ∧
    (it.pre_incr.post_decr.2 = it ∧ it.post_incr.2.pre_decr = it ∧
      it.pre_decr.post_incr.2 = it ∧ it.post_decr.2.pre_incr = it) := by
  obtain ⟨p⟩ := it
  simp only [normal_iterator.base] at ho
  obtain ⟨h1, h2⟩ := Ptr.plus_one_neg_one p ho
  have e1 : (normal_iterator.pre_decr (normal_iterator.pre_incr
      ({ m_current := p } : normal_iterator Ptr Container))) = { m_current := p } := by
    simp only [normal_iterator.pre_incr, normal_iterator.pre_decr, iterator_ops.incr,
      iterator_ops.decr, h1]
  have e2 : (normal_iterator.pre_incr (normal_iterator.pre_decr
      ({ m_current := p } : normal_iterator Ptr Container))) = { m_current := p } := by
    simp only [normal_iterator.pre_incr, normal_iterator.pre_decr, iterator_ops.incr,
      iterator_ops.decr, h2]
  refine ⟨⟨?_, ?_⟩, ⟨e1, e2⟩, ⟨e1, e2⟩, ⟨e1, e1, e2, e2⟩⟩
  · intro hg
    obtain ⟨q⟩ := g
    simp only [normal_iterator.base] at hg
    simp only [normal_iterator.pre_incr, normal_iterator.pre_decr, normal_iterator.post_incr,
      normal_iterator.post_decr, hg, and_self]
  · intro hg
    obtain ⟨q⟩ := g
    simp only [normal_iterator.base] at hg
    simp only [normal_iterator.pre_incr, normal_iterator.pre_decr, normal_iterator.post_incr,
      normal_iterator.post_decr, hg, and_self]

/-- C38 on `v{1, 2, 3, 4, 5}`: `++it` then `--it` is `it` again, and so is `--` then `++`
from the third position. -/
theorem increment_decrement_inverse_witness :
    (make_normal vector test_vector.2.data).pre_incr.pre_decr =
      make_normal vector test_vector.2.data ∧
    ((make_normal vector test_vector.2.data).plus 2).pre_decr.pre_incr =
      (make_normal vector test_vector.2.data).plus 2 :=
  ⟨(increment_decrement_inverse (make_normal vector test_vector.2.data)
      (make_normal vector test_vector.2.data) (by decide)).2.1.1,
   (increment_decrement_inverse (make_normal vector test_vector.2.data)
      ((make_normal vector test_vector.2.data).plus 2) (by decide)).2.1.2⟩

/-- C39: offset and difference of `normal_iterator`s are those of the wrapped positions; for
a pointer position `it` and an offset `n` that stays among the positions of the address space,
`(it + n) - it == n` and `(it + n) - n == it`, and for two iterators `a`, `b` over the same
sequence `a + (b - a) == b`. -/
theorem offset_difference_cancel {Iterator Container Ref : Type} [iterator_ops Iterator Ref]
    (g : normal_iterator Iterator Container) (it a b : normal_iterator Ptr Container)
    (n : Int) (ho : it.base.off < 2 ^ 64) (h0 : 0 ≤ (it.base.off : Int) + n)
    (h1 : (it.base.off : Int) + n < 2 ^ 64) (hab : a.base.block = b.base.block)
    (hb : b.base.off < 2 ^ 64) :
    ((g.plus n).diff g = iterator_ops.diff (iterator_ops.plus g.base n) g.base ∧
      ((g.plus n).minus n).base = iterator_ops.minus (iterator_ops.plus g.base n) n) ∧
    (it.plus n).diff it = n ∧ (it.plus n).minus n = it ∧ a.plus (b.diff a) = b := by
  obtain ⟨⟨bi, oi⟩⟩ := it
  obtain ⟨⟨ba, oa⟩⟩ := a
  obtain ⟨⟨bb, ob⟩⟩ := b
  simp only [normal_iterator.base] at ho h0 h1 hab hb
  subst hab
  refine ⟨⟨rfl, rfl⟩, ?_, ?_, ?_⟩
  · simp only [normal_iterator.plus, normal_iterator.diff, normal_iterator.base,
      iterator_ops.plus, iterator_ops.diff, Ptr.diff, Ptr.plus]
    omega
  · simp only [normal_iterator.plus, normal_iterator.minus, iterator_ops.plus,
      iterator_ops.minus, Ptr.plus, normal_iterator.mk.injEq, Ptr.mk.injEq, true_and]
    omega
  · simp only [normal_iterator.plus, normal_iterator.diff, normal_iterator.base,
      iterator_ops.plus, iterator_ops.diff, Ptr.diff, Ptr.plus, normal_iterator.mk.injEq,
      Ptr.mk.injEq, true_and]
    omega

/-- C39 on `v{1, 2, 3, 4, 5}`: `(it + 4) - it` is 4, `(it + 4) - 4` is `it`, and
`it + ((it + 4) - it)` is `it + 4`. -/
theorem offset_difference_cancel_witness :
    ((make_normal vector test_vector.2.data).plus 4).diff
      (make_normal vector test_vector.2.data) = 4 ∧
    ((make_normal vector test_vector.2.data).plus 4).minus 4 =
      make_normal vector test_vector.2.data ∧
    (make_normal vector test_vector.2.data).plus
        (((make_normal vector test_vector.2.data).plus 4).diff
          (make_normal vector test_vector.2.data)) =
      (make_normal vector test_vector.2.data).plus 4 :=
  (offset_difference_cancel (make_normal vector test_vector.2.data)
    (make_normal vector test_vector.2.data) (make_normal vector test_vector.2.data)
    ((make_normal vector test_vector.2.data).plus 4) 4 (by decide) (by decide) (by decide)
    rfl (by decide)).2

/-! ## `swap()` twice -/

theorem swap_twice_test_reachable : Reachable swap_twice_test :=
  @Reachable.step Int _ { heap := cleared_test.1, objs := [cleared_test.2] }
    swap_twice_test (Op.ctor_fill 2 3 1)
    (@Reachable.step Int _
      { heap := (matrix.ctor_fill (Heap.empty : Heap Int) 10 10 1).1,
        objs := [(matrix.ctor_fill (Heap.empty : Heap Int) 10 10 1).2] }
      _ (Op.clear 0)
      (Reachable.step (Op.ctor_fill 10 10 1) Reachable.init (by simp [World.step, World.init]))
      (by simp [World.step, cleared_test]))
    (by simp [World.step, swap_twice_test])

/-- What two calls `m.swap(n)` in a row leave: sizes, shapes and elements as they were, and
as capacities the sizes. -/
theorem matrix.swap_twice_spec {T : Type} (h : Heap T) (m n : matrix) (hvm : m.valid h)
    (hvn : n.valid h) :
    ((matrix.swap (matrix.swap h m n).1 (matrix.swap h m n).2.1 (matrix.swap h m n).2.2).2.1.m_size
        = m.m_size ∧
      (matrix.swap (matrix.swap h m n).1 (matrix.swap h m n).2.1
        (matrix.swap h m n).2.2).2.1.m_columns = m.m_columns ∧
      (matrix.swap (matrix.swap h m n).1 (matrix.swap h m n).2.1
        (matrix.swap h m n).2.2).2.1.m_rows = m.m_rows ∧
      (matrix.swap (matrix.swap h m n).1 (matrix.swap h m n).2.1
        (matrix.swap h m n).2.2).2.1.m_capacity = m.m_size ∧
      ∀ i, i < m.m_size →
        (matrix.swap (matrix.swap h m n).1 (matrix.swap h m n).2.1
          (matrix.swap h m n).2.2).1.read
          ((matrix.swap (matrix.swap h m n).1 (matrix.swap h m n).2.1
            (matrix.swap h m n).2.2).2.1.index i) = h.read (m.index i)) ∧
    ((matrix.swap (matrix.swap h m n).1 (matrix.swap h m n).2.1 (matrix.swap h m n).2.2).2.2.m_size
        = n.m_size ∧
      (matrix.swap (matrix.swap h m n).1 (matrix.swap h m n).2.1
        (matrix.swap h m n).2.2).2.2.m_columns = n.m_columns ∧
      (matrix.swap (matrix.swap h m n).1 (matrix.swap h m n).2.1
        (matrix.swap h m n).2.2).2.2.m_rows = n.m_rows ∧
      (matrix.swap (matrix.swap h m n).1 (matrix.swap h m n).2.1
        (matrix.swap h m n).2.2).2.2.m_capacity = n.m_size ∧
      ∀ i, i < n.m_size →
        (matrix.swap (matrix.swap h m n).1 (matrix.swap h m n).2.1
          (matrix.swap h m n).2.2).1.read
          ((matrix.swap (matrix.swap h m n).1 (matrix.swap h m n).2.1
            (matrix.swap h m n).2.2).2.2.index i) = h.read (n.index i)) := by
  have sp1 := matrix.swap_spec h m n hvm hvn
  have vs1 := matrix.valid_swap h m n hvm hvn
  have sp2 := matrix.swap_spec (matrix.swap h m n).1 (matrix.swap h m n).2.1
    (matrix.swap h m n).2.2 vs1.2.1 vs1.2.2
  refine ⟨⟨rfl, rfl, rfl, rfl, ?_⟩, ⟨rfl, rfl, rfl, rfl, ?_⟩⟩
  · intro i hi
    rw [sp2.1.2.2.2 i (by rw [sp1.2.1]; exact hi)]
    exact sp1.2.2.2.2 i hi
  · intro i hi
    rw [sp2.2.2.2.2 i (by rw [sp1.1.1]; exact hi)]
    exact sp1.1.2.2.2 i hi

/-- C37 fails for `capacity()`: in the reachable program state
`cortex::matrix<int> m(10, 10, 1); m.clear(); cortex::matrix<int> n(2, 3, 1);` the matrix `m`
has size 0 and capacity 100; after `m.swap(n); m.swap(n);` the sizes, the shapes and the
elements of `n` are the original ones, and so is the capacity 6 of `n`, but the capacity of
`m` is 0. -/
theorem swap_twice_loses_capacity :
    Reachable swap_twice_test ∧
    (∃ h m n, swap_twice_test = { heap := h, objs := [m, n] } ∧
      (m.size = 0 ∧ m.column_size = 0 ∧ m.row_size = 0 ∧ m.capacity = 100) ∧
      (n.size = 6 ∧ n.column_size = 2 ∧ n.row_size = 3 ∧ n.capacity = 6) ∧
      swap_twice_result =
        matrix.swap (matrix.swap h m n).1 (matrix.swap h m n).2.1 (matrix.swap h m n).2.2) ∧
    (swap_twice_result.2.1.size = 0 ∧ swap_twice_result.2.1.column_size = 0 ∧
      swap_twice_result.2.1.row_size = 0 ∧ swap_twice_result.2.1.capacity = 0) ∧
    (swap_twice_result.2.2.size = 6 ∧ swap_twice_result.2.2.column_size = 2 ∧
      swap_twice_result.2.2.row_size = 3 ∧ swap_twice_result.2.2.capacity = 6) ∧
    (∀ i, i < 6 → swap_twice_result.1.read (swap_twice_result.2.2.index i) = some 1) := by
  refine ⟨swap_twice_test_reachable, ⟨_, _, _, rfl, by decide, by decide, rfl⟩, by decide,
    by decide, ?_⟩
  intro i hi
  have hz : (2 : Nat) < 2 ^ 64 ∧ (3 : Nat) < 2 ^ 64 ∧ (10 : Nat) < 2 ^ 64 := by decide
  have v0 := matrix.valid_ctor_fill (Heap.empty : Heap Int) 10 10 1 hz.2.2 hz.2.2
  have v1 : cleared_test.2.valid cleared_test.1 := (matrix.valid_clear _ _ v0.2).2
  have v2 := matrix.valid_ctor_fill cleared_test.1 2 3 1 hz.1 hz.2.1
  have hvm : cleared_test.2.valid (matrix.ctor_fill cleared_test.1 2 3 1).1 :=
    matrix.valid_mono v1 v2.1
  have hvn : (matrix.ctor_fill cleared_test.1 2 3 1).2.valid
      (matrix.ctor_fill cleared_test.1 2 3 1).1 := v2.2
  have hsp := (matrix.swap_twice_spec (matrix.ctor_fill cleared_test.1 2 3 1).1 cleared_test.2
    (matrix.ctor_fill cleared_test.1 2 3 1).2 hvm hvn).2.2.2.2.2 i hi
  exact hsp.trans (matrix.read_ctor_fill cleared_test.1 2 3 1 hz.1 hz.2.1 i hi)

end cortex
